import Mathlib

/-!
# SimpleShell: the scheduling queue and the process lifecycle

A shallow embedding of `src/queue.h` and of the lifecycle functions of
`src/shell.c`, followed by theorems about them.

Modelling conventions
* A pointer is an `Option Nat`: `none` is `NULL`, `some a` is the address `a`.
* The heap (`Mem`) maps addresses to `struct node` cells.  `free` empties the
  cell and puts the chunk, with what it holds, on the list `freed`; `malloc`
  hands out the chunk freed last, with what it still holds, and when none is
  free a new chunk at the address `brk`, which reads as zeroed.
* Every function that dereferences a pointer returns `Option`: `none` stands
  for a run that dereferences `NULL` or a freed cell, or for a loop that never
  ends (loops walk the heap with fuel `brk + 1`, which is more than the number
  of cells ever allocated).
* `char **args` is a `List String`: the strings of the slots up to the first
  `NULL`; slot `i` of the array is `args[i]?`.  A node, its argument array and
  its strings are one cell, freed and recycled together.  Strings are values:
  the bytes of their copies and the fixed capacity of the arrays (10 slots) are
  not modelled.
* C `int` arithmetic wraps modulo `2^32` (`wrap32`).
* What the environment decides is a parameter: the value `fork` returns in the
  shell, what `wait` collects, the values `kill` returns, the characters read by
  `scanf` and the signals that end each `pause` (`World`).  Signal handlers run
  between commands and inside `pause`, never in the middle of a statement.
* Effects on the outside (`fork`, `kill`, printed lines) are recorded in the
  field `out` of the state.
-/

namespace SimpleShell

/-! ## queue.h : data model -/

/-- The `#define NO_PID -1` of queue.h. -/
def NO_PID : Int := -1
/-- The `#define FCFS 0` of queue.h. -/
def FCFS : Int := 0
/-- The `#define SJF 1` of queue.h. -/
def SJF : Int := 1

/-- A `struct node`: pid, program name, argument vector, next pointer. -/
structure node where
  pid : Int
  name : String
  args : List String
  next : Option Nat
deriving DecidableEq, Repr

/-- A `struct queue`: head and tail pointers and the scheduling type. -/
structure queue where
  head : Option Nat
  tail : Option Nat
  sched_type : Int
deriving DecidableEq, Repr

/-- The heap of nodes: the cell at each address, the first address never handed
out, and the chunks that were freed and not handed out again, the one freed
last first, each with what it held when it was freed. -/
structure Mem where
  cell : Nat → Option node
  brk : Nat
  freed : List (Nat × node)

/-- The heap with nothing allocated. -/
def Mem.empty : Mem := { cell := fun _ => none, brk := 0, freed := [] }

/-- Store `n` at address `a`. -/
def Mem.write (m : Mem) (a : Nat) (n : node) : Mem :=
  { m with cell := fun b => if b = a then some n else m.cell b }

/-- Release the cell at address `a`: it can no longer be dereferenced, and its
chunk, with what it holds, is the first one `malloc` hands out again. -/
def Mem.free (m : Mem) (a : Nat) : Mem :=
  { m with
    cell := fun b => if b = a then none else m.cell b,
    freed :=
      match m.cell a with
      | some n => (a, n) :: m.freed
      | none => m.freed }

/-- The address the next `malloc` of a node returns: that of the chunk freed
last, and the new address `brk` when no chunk is free. -/
def Mem.top (m : Mem) : Nat :=
  match m.freed with
  | [] => m.brk
  | (a, _) :: _ => a

/-- What the chunk the next `malloc` returns holds before anything is stored in
it: a recycled chunk holds what it held when it was freed, a new chunk reads as
zeroed. -/
def Mem.stale (m : Mem) : node :=
  match m.freed with
  | [] => { pid := 0, name := "", args := [], next := none }
  | (_, n) :: _ => n

/-- Take the chunk at `m.top` off the free chunks (or move `brk` behind the new
chunk) and store `n` in it.  A caller that does not store every field passes the
fields of `m.stale` for the others. -/
def Mem.malloc (m : Mem) (n : node) : Mem :=
  match m.freed with
  | [] => { cell := fun b => if b = m.brk then some n else m.cell b, brk := m.brk + 1,
            freed := [] }
  | (a, _) :: rest => { cell := fun b => if b = a then some n else m.cell b, brk := m.brk,
                        freed := rest }

/-! ## C library: `int` arithmetic and `atoi` -/

/-- Two-complement wrap of an integer to a 32-bit `int`. -/
def wrap32 (x : Int) : Int := (x + 2 ^ 31) % 2 ^ 32 - 2 ^ 31

/-- Clamp to the range of a 64-bit `long`, as `strtol` does on overflow. -/
def clamp64 (x : Int) : Int :=
  if x < -(2 ^ 63) then -(2 ^ 63) else if 2 ^ 63 - 1 < x then 2 ^ 63 - 1 else x

/-- The white-space characters of `isspace` in the C locale. -/
def isspace (c : Char) : Bool :=
  c.toNat = 32 || (9 ≤ c.toNat && c.toNat ≤ 13)

/-- Value of the leading decimal digits of `cs`, accumulated onto `acc`. -/
def digitsVal : List Char → Nat → Nat
  | [], acc => acc
  | c :: cs, acc =>
    if 48 ≤ c.toNat ∧ c.toNat ≤ 57 then digitsVal cs (acc * 10 + (c.toNat - 48)) else acc

/-- The C `atoi`, that is `(int) strtol(s, NULL, 10)`: skip white space, read an
optional sign and the leading digits, clamp to `long` and truncate to `int`. -/
def atoi (s : String) : Int :=
  let cs := s.toList.dropWhile isspace
  match cs with
  | '-' :: r => wrap32 (clamp64 (-(digitsVal r 0 : Int)))
  | '+' :: r => wrap32 (clamp64 (digitsVal r 0 : Int))
  | r => wrap32 (clamp64 (digitsVal r 0 : Int))

/-! ## queue.h : operations -/

/-- The `initqueue` of queue.h. -/
def initqueue (sched_type : Int) : queue :=
  { head := none, tail := none, sched_type := sched_type }

/-- The `evaltime` of queue.h: `atoi(args[1]) * atoi(args[2])` as an `int`.
`none` when one of the two slots is `NULL`. -/
def evaltime (n : node) : Option Int :=
  match n.args[1]?, n.args[2]? with
  | some a1, some a2 => some (wrap32 (atoi a1 * atoi a2))
  | _, _ => none

/-- The value of `evaltime(p)` for a pointer `p` into the heap. -/
def evaltimeAt (m : Mem) (p : Option Nat) : Option Int :=
  match p with
  | none => none
  | some a =>
    match m.cell a with
    | none => none
    | some n => evaltime n

/-- The `freenode` of queue.h: the name, the arguments and the node are released. -/
def freenode (a : Nat) (m : Mem) : Mem := m.free a

/-- The `standardinsert` of queue.h (FCFS): link the node after the tail. -/
def standardinsert (curr_node : Nat) (m : Mem) (q : queue) : Option (Mem × queue) :=
  if q.head = none ∧ q.tail = none then
    some (m, { q with head := some curr_node, tail := some curr_node })
  else
    match q.tail with
    | none => none
    | some t =>
      match m.cell t with
      | none => none
      | some tn =>
        some (m.write t { tn with next := some curr_node }, { q with tail := some curr_node })

/-- The `while` loop of `sortedinsert`: from `curr_node`, advance while the next
node exists and its time is below `e`; the result is the node before the
insertion point. -/
def sortedinsert.scan (m : Mem) (e : Int) : Nat → Nat → Option Nat
  | 0, _ => none
  | fuel + 1, curr_node =>
    match m.cell curr_node with
    | none => none
    | some cn =>
      match cn.next with
      | none => some curr_node
      | some nx =>
        match evaltimeAt m (some nx) with
        | none => none
        | some x => if x < e then sortedinsert.scan m e fuel nx else some curr_node

/-- The `sortedinsert` of queue.h (SJF). -/
def sortedinsert (node_to_insert : Nat) (m : Mem) (q : queue) : Option (Mem × queue) :=
  if q.head = none ∧ q.tail = none then
    some (m, { q with head := some node_to_insert, tail := some node_to_insert })
  else
    match m.cell node_to_insert, evaltimeAt m q.head, evaltimeAt m (some node_to_insert) with
    | some ni, some eh, some e =>
      if eh > e then
        some (m.write node_to_insert { ni with next := q.head },
              { q with head := some node_to_insert })
      else
        match q.tail, evaltimeAt m q.tail with
        | some t, some et =>
          if et ≤ e then
            match m.cell t with
            | none => none
            | some tn =>
              some (m.write t { tn with next := some node_to_insert },
                    { q with tail := some node_to_insert })
          else
            match q.head with
            | none => none
            | some h =>
              match sortedinsert.scan m e (m.brk + 1) h with
              | none => none
              | some c =>
                match m.cell c with
                | none => none
                | some cn =>
                  let m1 := m.write node_to_insert { ni with next := cn.next }
                  some (m1.write c { cn with next := some node_to_insert }, q)
        | _, _ => none
    | _, _, _ => none

/-- The `enqueue` of queue.h: allocate a node, store `pid = NO_PID` and copies
of the name and the arguments, then insert it by the scheduling type.  The
source never writes the `next` field of the new node, nor a closing `NULL` behind
the copied arguments: the link and the slots behind the copied arguments keep
what the chunk held (`old`), which is `NULL` in a new chunk and the old link and
the old arguments in a recycled one.  The source allocates `strlen` bytes for
each copy, one less than `strcpy` writes; that byte is not modelled. -/
def enqueue (name : String) (args : List String) (m : Mem) (q : queue) :
    Option (Mem × queue) :=
  let curr_node := m.top
  let old := m.stale
  let m1 := m.malloc { pid := NO_PID, name := name,
                       args := args ++ old.args.drop args.length, next := old.next }
  if q.sched_type = FCFS then standardinsert curr_node m1 q
  else if q.sched_type = SJF then sortedinsert curr_node m1 q
  else standardinsert curr_node m1 q

/-- The `dequeue` of queue.h: the returned pid with the new heap and queue. -/
def dequeue (m : Mem) (q : queue) : Option (Int × Mem × queue) :=
  if q.head = none ∨ q.tail = none then some (-1, m, q)
  else
    match q.head with
    | none => none
    | some curr_node =>
      match m.cell curr_node with
      | none => none
      | some cn =>
        let curr_pid := cn.pid
        let q1 := { q with head := cn.next }
        let q2 := if q1.head = none then { q1 with tail := none } else q1
        some (curr_pid, freenode curr_node m, q2)

/-- The search loop of `delete`: the final `(curr_node, prev_node)`. -/
def delete.search (m : Mem) (key : Int) : Nat → Option Nat → Option Nat →
    Option (Option Nat × Option Nat)
  | 0, _, _ => none
  | fuel + 1, curr_node, prev_node =>
    match curr_node with
    | none => some (none, prev_node)
    | some c =>
      match m.cell c with
      | none => none
      | some cn =>
        if cn.pid ≠ key then delete.search m key fuel cn.next (some c)
        else some (some c, prev_node)

/-- The `delete` of queue.h: unlink and free the first node whose pid is `key`. -/
def delete (key : Int) (m : Mem) (q : queue) : Option (Mem × queue) :=
  match delete.search m key (m.brk + 1) q.head none with
  | none => none
  | some (none, _) => some (m, q)
  | some (some c, prev_node) =>
    match m.cell c with
    | none => none
    | some cn =>
      -- `q->head->next` is read while `q->head` is still `curr_node`
      let q1 := if some c = q.head then { q with head := cn.next } else q
      let q2 := if some c = q.tail then { q1 with tail := prev_node } else q1
      match prev_node with
      | none => some (freenode c m, q2)
      | some p =>
        match m.cell p with
        | none => none
        | some pn => some (freenode c (m.write p { pn with next := cn.next }), q2)

/-! ## Observing the queue -/

/-- The job a node carries: the node without its link. -/
structure Job where
  pid : Int
  name : String
  args : List String
deriving DecidableEq, Repr

/-- The job stored in a node. -/
def node.job (n : node) : Job := { pid := n.pid, name := n.name, args := n.args }

/-- The estimated duration of a job: `evaltime` of a node carrying it. -/
def Job.time (j : Job) : Option Int :=
  evaltime { pid := j.pid, name := j.name, args := j.args, next := none }

/-- The nodes met from pointer `p` following `next` until `NULL`, with their addresses. -/
def walk (m : Mem) : Nat → Option Nat → Option (List (Nat × Job))
  | _, none => some []
  | 0, some _ => none
  | fuel + 1, some a =>
    match m.cell a with
    | none => none
    | some n => (walk m fuel n.next).map (fun l => (a, n.job) :: l)

/-- The queued jobs, front to back. -/
def jobs (m : Mem) (q : queue) : Option (List Job) :=
  (walk m (m.brk + 1) q.head).map (fun l => l.map Prod.snd)

/-- The chain from `p` to `r` visits exactly the cells `l`, which hold the given jobs. -/
def Seg (m : Mem) : Option Nat → List (Nat × Job) → Option Nat → Prop
  | p, [], r => p = r
  | p, x :: l, r => p = some x.1 ∧ ∃ n, m.cell x.1 = some n ∧ n.job = x.2 ∧ Seg m n.next l r

/-- The queue `q` is a well-formed linked list in `m` holding the cells `l`:
`head` starts a `NULL`-terminated chain through `l`, `tail` is its last cell,
the cells are distinct and were allocated. -/
structure Linked (m : Mem) (q : queue) (l : List (Nat × Job)) : Prop where
  seg : Seg m q.head l none
  last : q.tail = (l.map Prod.fst).getLast?
  nodup : (l.map Prod.fst).Nodup
  bound : ∀ x ∈ l, x.1 < m.brk

/-- Two jobs are in duration order: both durations are defined and the first is not longer. -/
def ByTime (a b : Job) : Prop :=
  ∃ x y, a.time = some x ∧ b.time = some y ∧ x ≤ y

/-- The duration of a job as a number (`0` when undefined). -/
def Job.dur (j : Job) : Int := j.time.getD 0

/-- Where `sortedinsert` puts an element `x` in a list, by the three cases of
the source: before the head when the head is longer; after the last element when
that one is not longer; else behind the head and the run of strictly shorter
elements that follows it. -/
def placeSJF {α : Type} (key : α → Int) (x : α) : List α → List α
  | [] => [x]
  | h :: rest =>
    if key h > key x then x :: h :: rest
    else if key (rest.getLastD h) ≤ key x then h :: rest ++ [x]
    else h :: (rest.takeWhile (fun y => decide (key y < key x)) ++
      x :: rest.dropWhile (fun y => decide (key y < key x)))

/-- Dequeue until the queue is empty, recording the job each call removes. -/
def drain : Nat → Mem → queue → Option (List Job)
  | 0, _, _ => none
  | fuel + 1, m, q =>
    match q.head with
    | none => some []
    | some a =>
      match m.cell a, dequeue m q with
      | some n, some (_, m1, q1) => (drain fuel m1 q1).map (fun l => n.job :: l)
      | _, _ => none

/-- Enqueue the given (name, args) pairs in order. -/
def enqueueAll : List (String × List String) → Mem → queue → Option (Mem × queue)
  | [], m, q => some (m, q)
  | j :: js, m, q =>
    match enqueue j.1 j.2 m q with
    | none => none
    | some (m1, q1) => enqueueAll js m1 q1

/-- A queue operation. -/
inductive Op where
  | enq (name : String) (args : List String)
  | deq
  | del (key : Int)
deriving DecidableEq, Repr

/-- Apply one queue operation. -/
def Op.run (o : Op) (m : Mem) (q : queue) : Option (Mem × queue) :=
  match o with
  | .enq name args => enqueue name args m q
  | .deq => (dequeue m q).map (fun r => r.2)
  | .del key => delete key m q

/-- Apply queue operations in order. -/
def runOps : List Op → Mem → queue → Option (Mem × queue)
  | [], m, q => some (m, q)
  | o :: os, m, q =>
    match o.run m q with
    | none => none
    | some (m1, q1) => runOps os m1 q1

/-! ## shell.c : state, environment and output -/

/-- The `#define NO_CURR_PID 0` of shell.c. -/
def NO_CURR_PID : Int := 0

/-- What the shell prints, one constructor per `printf` of the modelled functions. -/
inductive Msg where
  /-- Prints "You are about to kill the shell, are you sure? (y/n): " -/
  | askKillShell
  /-- Prints "Unable to kill %d" -/
  | unableToKill (pid : Int)
  /-- Prints "You have killed process %d" -/
  | killed (pid : Int)
  /-- Prints "There are still living processes. Do you want to kill them? (y/n): " -/
  | askKillAll
  /-- Prints "Exiting without killing processes." -/
  | exitingWithoutKilling
  /-- Prints "Running process %s (PID: %d) in background!" -/
  | background (name : String) (pid : Int)
  /-- Prints "The child %d is dead" -/
  | childIsDead (pid : Int)
  /-- Prints "An error occured in the executing process" -/
  | errorOccured
  /-- Prints "Code: Process %d exited with status %d" -/
  | exitCode (pid : Int) (status : Int)
  /-- The empty line printed before the next job is started. -/
  | newline
  /-- Prints "All processes supspended" -/
  | suspended
  /-- Prints "Waking all processes..." -/
  | waking
  /-- Prints "Invalid exec for arg %d. Type 'help exec' for help." -/
  | invalidExec (i : Nat)
deriving DecidableEq, Repr

/-- An effect of the shell on the outside world. -/
inductive Event where
  /-- `fork()` returned `pid` in the shell; the child execs `name` with `args`,
  detached from the terminal when `detached`. -/
  | fork (pid : Int) (name : String) (args : List String) (detached : Bool)
  /-- `kill(pid, SIGTERM)` was called and returned `ret`. -/
  | kill (pid : Int) (ret : Int)
  /-- A line was printed. -/
  | print (msg : Msg)
deriving DecidableEq, Repr

/-- The global variables of shell.c, the heap, whether `exit` was called, and the
effects so far. -/
structure Shell where
  mem : Mem
  pid_list : queue
  sched_type : Int
  curr_proc_pid : Int
  curr_proc_node : Option Nat
  io_occupied : Bool
  fg_suspended : Bool
  run : Bool
  exited : Bool
  out : List Event

/-- The state `main` sets up before its loop: the initial values of the globals
and `initqueue(&pid_list, sched_type)`. -/
def Shell.init (sched_type : Int) : Shell :=
  { mem := Mem.empty, pid_list := initqueue sched_type, sched_type := sched_type,
    curr_proc_pid := NO_CURR_PID, curr_proc_node := none, io_occupied := false,
    fg_suspended := false, run := true, exited := false, out := [] }

/-- A signal the shell handles.  `chld` carries what the handler will get from
`wait` (`dead_pid`, `status`) and from `fork` should it start the next job. -/
inductive Signal where
  | chld (dead_pid status fork_ret : Int)
  | tstp
  | quit
deriving DecidableEq, Repr

/-- The inputs the shell consumes while a command runs: the characters `scanf`
reads, the values successive `kill` calls return, and the signals delivered at
successive `pause` calls. -/
structure World where
  stdin : List Char
  kills : List Int
  signals : List Signal
deriving DecidableEq, Repr

/-- The macro `WEXITSTATUS(status)`, that is `(status & 0xff00) >> 8`. -/
def WEXITSTATUS (status : Int) : Int := (status % 65536) / 256

/-! ## shell.c : operations -/

/-- The rows the loop of `ps` prints from pointer `p` on: pid and name of every
node whose pid is not `NO_PID`. -/
def ps.loop (m : Mem) : Nat → Option Nat → Option (List (Int × String))
  | _, none => some []
  | 0, some _ => none
  | fuel + 1, some a =>
    match m.cell a with
    | none => none
    | some n =>
      (ps.loop m fuel n.next).map (fun r => if n.pid ≠ NO_PID then (n.pid, n.name) :: r else r)

/-- The `ps` of shell.c: the rows it prints under the header, the shell itself
(`my_pid` is `getpid()`) first. -/
def ps (my_pid : Int) (s : Shell) : Option (List (Int × String)) :=
  (ps.loop s.mem (s.mem.brk + 1) s.pid_list.head).map (fun r => (my_pid, "NEW SHELL") :: r)

/-- The `runprocess` of shell.c.  `fork_ret` is what `fork()` returns in the
shell (the child's pid, or `-1`); the child itself is recorded as an event. -/
def runprocess (fork_ret : Int) (s : Shell) : Option Shell :=
  if s.pid_list.head = none then some s
  else if s.curr_proc_pid ≠ NO_CURR_PID then some s
  else
    match s.pid_list.head with
    | none => none
    | some a =>
      match s.mem.cell a with
      | none => none
      | some n =>
        let detached := decide (n.args[3]? = some "&")
        let io := decide (n.args[3]? = none)
        let s1 := { s with
          mem := s.mem.write a { n with pid := fork_ret },
          curr_proc_node := some a,
          curr_proc_pid := fork_ret,
          io_occupied := io,
          out := s.out ++ [Event.fork fork_ret n.name n.args detached] }
        if io then some s1
        else some { s1 with out := s1.out ++ [Event.print (Msg.background n.name fork_ret)] }

/-- The `childdead` of shell.c, the handler of `SIGCHLD`.  `dead_pid` and
`status` are what `wait(&status)` gives. -/
def childdead (dead_pid status fork_ret : Int) (s : Shell) : Option Shell :=
  let out1 := s.out ++ [Event.print (Msg.childIsDead dead_pid)]
  let exit_status := WEXITSTATUS status
  let out2 :=
    if exit_status ≠ 0 then
      out1 ++ [Event.print Msg.errorOccured, Event.print (Msg.exitCode dead_pid exit_status)]
    else out1
  match delete dead_pid s.mem s.pid_list with
  | none => none
  | some (m1, q1) =>
    let s1 := { s with mem := m1, pid_list := q1, out := out2 }
    let s2 :=
      if dead_pid = s1.curr_proc_pid then
        { s1 with curr_proc_pid := NO_CURR_PID, curr_proc_node := none }
      else s1
    if s2.pid_list.head ≠ none ∧ s2.run = true then
      runprocess fork_ret { s2 with out := s2.out ++ [Event.print Msg.newline] }
    else some { s2 with io_occupied := false }

/-- The `susp` of shell.c, the handler of `SIGTSTP`. -/
def susp (s : Shell) : Shell :=
  { s with fg_suspended := true, out := s.out ++ [Event.print Msg.suspended] }

mutual
/-- Run the handler of one signal; `sigs` are the signals that follow it. -/
def handle : Nat → Signal → List Signal → Shell → Option (Shell × List Signal)
  | 0, _, _, _ => none
  | fuel + 1, sg, sigs, s =>
    match sg with
    | .chld dead_pid status fork_ret => (childdead dead_pid status fork_ret s).map (fun r => (r, sigs))
    | .tstp => some (susp s, sigs)
    | .quit =>
      cont.loop fuel sigs
        { s with fg_suspended := false, out := s.out ++ [Event.print Msg.waking] }
/-- The loop of `cont`: `pause()` while a job is current and `fg_suspended != 1`;
each `pause` returns after the handler of the next signal has run. -/
def cont.loop : Nat → List Signal → Shell → Option (Shell × List Signal)
  | 0, _, _ => none
  | fuel + 1, sigs, s =>
    if s.curr_proc_pid ≠ NO_CURR_PID ∧ s.fg_suspended ≠ true then
      match sigs with
      | [] => none
      | sg :: rest =>
        match handle fuel sg rest s with
        | none => none
        | some (s1, rest1) => cont.loop fuel rest1 s1
    else some (s, sigs)
end

/-- The `cont` of shell.c, the handler of `SIGQUIT`. -/
def cont (fuel : Nat) (sigs : List Signal) (s : Shell) : Option (Shell × List Signal) :=
  cont.loop fuel sigs
    { s with fg_suspended := false, out := s.out ++ [Event.print Msg.waking] }

/-- A `pause()`: the shell sleeps until the next signal and its handler has run.
`none` when no signal comes. -/
def pause (fuel : Nat) (w : World) (s : Shell) : Option (Shell × World) :=
  match w.signals with
  | [] => none
  | sg :: rest =>
    match handle fuel sg rest s with
    | none => none
    | some (s1, rest1) => some (s1, { w with signals := rest1 })

/-- The loop `do { printf(prompt); scanf(" %c", &answer); } while (answer is
neither y nor n)`: the answer, the input left and the number of prompts.
`lower` applies `tolower` to each answer, as `myexit` does.  `none` when the
input ends before an answer. -/
def ask (lower : Bool) : List Char → Option (Char × List Char × Nat)
  | [] => none
  | c :: cs =>
    if isspace c then ask lower cs
    else
      let answer := if lower then c.toLower else c
      if answer = 'y' ∨ answer = 'n' then some (answer, cs, 1)
      else (ask lower cs).map (fun r => (r.1, r.2.1, r.2.2 + 1))

/-- The second half of `mykill`: refuse a pid that is not positive, else send
`SIGTERM`; on success unlink the node and `pause()` until a signal has been handled. -/
def mykill.terminate (pid : Int) (fuel : Nat) (w : World) (s : Shell) : Option (Shell × World) :=
  if pid ≤ 0 then
    some ({ s with out := s.out ++ [Event.print (Msg.unableToKill pid)] }, w)
  else
    match w.kills with
    | [] => none
    | ret :: kills =>
      let w1 := { w with kills := kills }
      let s1 := { s with out := s.out ++ [Event.kill pid ret] }
      if ret ≠ 0 then
        some ({ s1 with out := s1.out ++ [Event.print (Msg.unableToKill pid)] }, w1)
      else
        match delete pid s1.mem s1.pid_list with
        | none => none
        | some (m1, q1) =>
          pause fuel w1
            { s1 with mem := m1, pid_list := q1,
                      out := s1.out ++ [Event.print (Msg.killed pid)] }

/-- The `mykill` of shell.c.  `my_pid` is `getpid()`: killing the shell itself
is asked to be confirmed. -/
def mykill (my_pid pid : Int) (fuel : Nat) (w : World) (s : Shell) : Option (Shell × World) :=
  if my_pid = pid then
    match ask false w.stdin with
    | none => none
    | some (answer, rest, n) =>
      let w1 := { w with stdin := rest }
      let s1 := { s with out := s.out ++ List.replicate n (Event.print Msg.askKillShell) }
      if answer = 'y' then some ({ s1 with run := false }, w1)
      else if answer = 'n' then some (s1, w1)
      else mykill.terminate pid fuel w1 s1
  else mykill.terminate pid fuel w s

/-- The loop of `myexit`: while the queue is not empty, drop the head when it
was never started, else `mykill` it. -/
def myexit.loop (my_pid : Int) : Nat → World → Shell → Option (Shell × World)
  | 0, _, _ => none
  | fuel + 1, w, s =>
    match s.pid_list.head with
    | none => some (s, w)
    | some a =>
      match s.mem.cell a with
      | none => none
      | some hn =>
        if hn.pid = NO_PID then
          match dequeue s.mem s.pid_list with
          | none => none
          | some (_, m1, q1) => myexit.loop my_pid fuel w { s with mem := m1, pid_list := q1 }
        else
          match mykill my_pid hn.pid fuel w s with
          | none => none
          | some (s1, w1) => myexit.loop my_pid fuel w1 s1

/-- The `myexit` of shell.c.  With an empty queue the shell exits at once. -/
def myexit (my_pid : Int) (fuel : Nat) (w : World) (s : Shell) : Option (Shell × World) :=
  if s.pid_list.head = none then some ({ s with exited := true }, w)
  else
    match ask true w.stdin with
    | none => none
    | some (answer, rest, n) =>
      let w1 := { w with stdin := rest }
      let s1 := { s with run := false,
                         out := s.out ++ List.replicate n (Event.print Msg.askKillAll) }
      let s2 :=
        if answer = 'n' then
          { s1 with out := s1.out ++ [Event.print Msg.exitingWithoutKilling] }
        else s1
      if answer = 'y' then myexit.loop my_pid fuel w1 s2 else some (s2, w1)

/-! ## Invariants and reachable states -/

/-- The invariant of a duration-ordered queue: well formed, bound to SJF, sorted. -/
structure SJFInv (m : Mem) (q : queue) (l : List (Nat × Job)) : Prop where
  linked : Linked m q l
  sjf : q.sched_type = SJF
  sorted : (l.map Prod.snd).Pairwise ByTime

/-- A job holds an assigned process id. -/
def Job.assigned (j : Job) : Bool := decide (j.pid ≠ NO_PID)

/-- The invariant of the shell state, for the cells `l` of its queue: the queue
is well formed (and sorted under SJF), every assigned pid is that of the current
process and is not `NO_CURR_PID`, and at most one queued job has an assigned pid. -/
structure Inv (s : Shell) (l : List (Nat × Job)) : Prop where
  linked : Linked s.mem s.pid_list l
  sorted : s.pid_list.sched_type = SJF → (l.map Prod.snd).Pairwise ByTime
  current : ∀ x ∈ l, x.2.assigned = true → x.2.pid = s.curr_proc_pid
  nonzero : ∀ x ∈ l, x.2.pid ≠ NO_CURR_PID
  single : (l.filter (fun x => x.2.assigned)).length ≤ 1

/-- In the shell `fork()` never returns `0`: every `SIGCHLD` of the list carries
a non-zero fork result. -/
def ForkOK (sigs : List Signal) : Prop :=
  ∀ d st f, Signal.chld d st f ∈ sigs → f ≠ 0

/-- One step of the shell: an enqueue, `runprocess`, a signal handler, `mykill`
or `myexit`, whenever the function returns. -/
inductive Step : Shell → Shell → Prop where
  | enqueue {s : Shell} (name : String) (args : List String) {m1 : Mem} {q1 : queue} :
      enqueue name args s.mem s.pid_list = some (m1, q1) →
      Step s { s with mem := m1, pid_list := q1 }
  | runprocess {s s1 : Shell} (f : Int) :
      f ≠ 0 → runprocess f s = some s1 → Step s s1
  | childdead {s s1 : Shell} (dead_pid status f : Int) :
      f ≠ 0 → childdead dead_pid status f s = some s1 → Step s s1
  | signal {s s1 : Shell} (fuel : Nat) (sg : Signal) (sigs rest : List Signal) :
      ForkOK (sg :: sigs) → handle fuel sg sigs s = some (s1, rest) → Step s s1
  | mykill {s s1 : Shell} (my_pid pid : Int) (fuel : Nat) (w w1 : World) :
      ForkOK w.signals → mykill my_pid pid fuel w s = some (s1, w1) → Step s s1
  | myexit {s s1 : Shell} (my_pid : Int) (fuel : Nat) (w w1 : World) :
      ForkOK w.signals → myexit my_pid fuel w s = some (s1, w1) → Step s s1

/-- The states the shell reaches from its initial state. -/
inductive Reachable : Shell → Prop where
  | init (sched_type : Int) : Reachable (Shell.init sched_type)
  | step {s s1 : Shell} : Reachable s → Step s s1 → Reachable s1

/-- The state `childdead` has reached when it decides whether to start the next
job: the death (and a non-zero exit status) reported, the heap and queue as
`delete` left them, the current process cleared when it is the dead one. -/
def afterDeath (dead_pid status : Int) (m1 : Mem) (q1 : queue) (s : Shell) : Shell :=
  { s with
    mem := m1,
    pid_list := q1,
    curr_proc_pid := if dead_pid = s.curr_proc_pid then NO_CURR_PID else s.curr_proc_pid,
    curr_proc_node := if dead_pid = s.curr_proc_pid then none else s.curr_proc_node,
    out := s.out ++ Event.print (Msg.childIsDead dead_pid) ::
      (if WEXITSTATUS status ≠ 0 then
        [Event.print Msg.errorOccured, Event.print (Msg.exitCode dead_pid (WEXITSTATUS status))]
      else []) }

/-- A sample state: under SJF, job "a" runs in the foreground as process 100 and
job "b" waits behind it. -/
def Shell.sample : Shell :=
  { Shell.init SJF with
    mem := (Mem.empty.malloc ⟨100, "a", ["a", "1", "2"], some 1⟩).malloc
      ⟨NO_PID, "b", ["b", "3", "2"], none⟩,
    pid_list := ⟨some 0, some 1, SJF⟩,
    curr_proc_pid := 100,
    curr_proc_node := some 0,
    io_occupied := true }

/-- The cells of the queue of `Shell.sample`. -/
def Shell.sampleCells : List (Nat × Job) :=
  [(0, ⟨100, "a", ["a", "1", "2"]⟩), (1, ⟨NO_PID, "b", ["b", "3", "2"]⟩)]

/-- The state without its record of effects. -/
def Shell.dropOut (s : Shell) : Shell := { s with out := [] }

/-! ## shell.c : the `exec` command -/

/-- One call of `strtok` with the single delimiter `delim`, on the characters
`s` still to be scanned: leading delimiters are skipped; the result is `none`
(`NULL`) when nothing is left, else the token up to the next delimiter together
with the characters after that delimiter, where the next call resumes. -/
def strtok (delim : Char) (s : List Char) : Option (List Char × List Char) :=
  match s.dropWhile (fun c => c == delim) with
  | [] => none
  | c :: s1 =>
    some ((c :: s1).takeWhile (fun c => c != delim),
      ((c :: s1).dropWhile (fun c => c != delim)).drop 1)

/-- The `for` loop of `exec`: the tokens that `strtok(NULL, ",")` returns until
it returns `NULL`. -/
def exec.tokens : Nat → List Char → List (List Char)
  | 0, _ => []
  | fuel + 1, s =>
    match strtok ',' s with
    | none => []
    | some (tok, rest) => tok :: exec.tokens fuel rest

/-- The parsing of `exec`: `args[0]` is the token before the first "(", the next
arguments are the tokens between commas, and the last argument is cut at ")"
(and is dropped when nothing is left of it).  The result is the name and the
argument vector passed to `enqueue`; `none` when `args[0]` is `NULL`.  The
source puts the tokens in a local array of ten slots without a check; the
capacity is not modelled. -/
def exec.parse (input : String) : Option (String × List String) :=
  match strtok '(' input.toList with
  | none => none
  | some (name, rest) =>
    let toks := exec.tokens (rest.length + 1) rest
    let args := name :: toks
    let args1 :=
      match strtok ')' (toks.getLastD name) with
      | none => args.dropLast
      | some (tok, _) => args.dropLast ++ [tok]
    match args1 with
    | [] => none
    | name1 :: _ => some (String.mk name1, args1.map String.mk)

/-- The `exec` of shell.c: parse the job spec and enqueue the job. -/
def exec (input : String) (s : Shell) : Option Shell :=
  match exec.parse input with
  | none => none
  | some (name, args) =>
    match enqueue name args s.mem s.pid_list with
    | none => none
    | some (m1, q1) => some { s with mem := m1, pid_list := q1 }

/-- The test of `main` on a job spec: it starts with "(", or holds no "(", or
its last character is not ")". -/
def main.invalid (input : String) : Bool :=
  input.toList.head? == some '(' || !input.toList.contains '(' ||
    input.toList.getLast? != some ')'

/-- The loop of `main` over the job specs of an `exec` command, `i` being the
index of the first one: an invalid spec is reported, a valid one is handed to
`exec`. -/
def main.execLoop : Nat → List String → Shell → Option Shell
  | _, [], s => some s
  | i, spec :: specs, s =>
    if main.invalid spec then
      main.execLoop (i + 1) specs
        { s with out := s.out ++ [Event.print (Msg.invalidExec i)] }
    else
      match exec spec s with
      | none => none
      | some s1 => main.execLoop (i + 1) specs s1

/-- The branch of `main` for the command `exec spec1 spec2 ...`: the loop over
the specs, then one call of `runprocess`. -/
def main.execBranch (specs : List String) (fork_ret : Int) (s : Shell) : Option Shell :=
  match main.execLoop 1 specs s with
  | none => none
  | some s1 => runprocess fork_ret s1

/-- The job a valid spec stands for: what `exec.parse` reads, with no pid yet. -/
def specJob (spec : String) : Option Job :=
  (exec.parse spec).map (fun r => { pid := NO_PID, name := r.1, args := r.2 })

/-- The error lines of the specs that `main` rejects, `i` being the index of
the first spec. -/
def rejections (i : Nat) (specs : List String) : List Event :=
  (specs.enumFrom i).filterMap (fun p =>
    if main.invalid p.2 then some (Event.print (Msg.invalidExec p.1)) else none)

/-! ## Decimal numerals -/

/-- The character of a decimal digit. -/
def digitChar (d : Fin 10) : Char := Char.ofNat (48 + d.val)

/-- A decimal numeral: a minus sign when `neg`, then the digits, the most
significant first. -/
def numeral (neg : Bool) (ds : List (Fin 10)) : String :=
  String.mk ((if neg then ['-'] else []) ++ ds.map digitChar)

/-- The integer a decimal numeral denotes. -/
def numeralValue (neg : Bool) (ds : List (Fin 10)) : Int :=
  if neg then -Int.ofNat (Nat.ofDigits 10 (ds.reverse.map Fin.val))
  else Int.ofNat (Nat.ofDigits 10 (ds.reverse.map Fin.val))

/-! # Lemmas: heap and chains -/

/-! ## Heap lemmas -/

@[simp] theorem Mem.write_cell_same (m : Mem) (a : Nat) (n : node) :
    (m.write a n).cell a = some n := by simp [Mem.write]

theorem Mem.write_cell_ne (m : Mem) {a b : Nat} (n : node) (h : b ≠ a) :
    (m.write a n).cell b = m.cell b := by simp [Mem.write, h]

@[simp] theorem Mem.write_brk (m : Mem) (a : Nat) (n : node) : (m.write a n).brk = m.brk := rfl

@[simp] theorem Mem.free_cell_same (m : Mem) (a : Nat) : (m.free a).cell a = none := by
  simp [Mem.free]

theorem Mem.free_cell_ne (m : Mem) {a b : Nat} (h : b ≠ a) :
    (m.free a).cell b = m.cell b := by simp [Mem.free, h]

@[simp] theorem Mem.free_brk (m : Mem) (a : Nat) : (m.free a).brk = m.brk := rfl

@[simp] theorem Mem.write_freed (m : Mem) (a : Nat) (n : node) :
    (m.write a n).freed = m.freed := rfl

theorem Mem.top_fresh {m : Mem} (hf : m.freed = []) : m.top = m.brk := by
  simp [Mem.top, hf]

theorem Mem.stale_fresh {m : Mem} (hf : m.freed = []) :
    m.stale = { pid := 0, name := "", args := [], next := none } := by
  simp [Mem.stale, hf]

theorem Mem.malloc_cell_same {m : Mem} (hf : m.freed = []) (n : node) :
    (m.malloc n).cell m.brk = some n := by simp [Mem.malloc, hf]

theorem Mem.malloc_cell_ne {m : Mem} (hf : m.freed = []) {b : Nat} (n : node) (h : b ≠ m.brk) :
    (m.malloc n).cell b = m.cell b := by simp [Mem.malloc, hf, h]

theorem Mem.malloc_brk {m : Mem} (hf : m.freed = []) (n : node) :
    (m.malloc n).brk = m.brk + 1 := by simp [Mem.malloc, hf]

theorem Mem.malloc_freed {m : Mem} (hf : m.freed = []) (n : node) :
    (m.malloc n).freed = [] := by simp [Mem.malloc, hf]

/-! ## Chains -/

theorem Seg.frame {m m1 : Mem} {l : List (Nat × Job)} :
    ∀ {p r : Option Nat}, Seg m p l r → (∀ x ∈ l, m1.cell x.1 = m.cell x.1) → Seg m1 p l r := by
  induction l with
  | nil => intro p r h _; exact h
  | cons x l ih =>
    intro p r h hm
    obtain ⟨hp, n, hn, hj, hs⟩ := h
    refine ⟨hp, n, ?_, hj, ih hs (fun y hy => hm y (List.mem_cons_of_mem _ hy))⟩
    rw [hm x (List.mem_cons_self _ _)]; exact hn

theorem Seg.append {m : Mem} {l1 l2 : List (Nat × Job)} :
    ∀ {p r : Option Nat}, Seg m p (l1 ++ l2) r ↔ ∃ mid, Seg m p l1 mid ∧ Seg m mid l2 r := by
  induction l1 with
  | nil =>
    intro p r
    constructor
    · intro h; exact ⟨p, rfl, h⟩
    · rintro ⟨mid, h1, h2⟩
      have : p = mid := h1
      subst this; exact h2
  | cons x l ih =>
    intro p r
    constructor
    · rintro ⟨hp, n, hn, hj, hs⟩
      obtain ⟨mid, h1, h2⟩ := ih.mp hs
      exact ⟨mid, ⟨hp, n, hn, hj, h1⟩, h2⟩
    · rintro ⟨mid, ⟨hp, n, hn, hj, h1⟩, h2⟩
      exact ⟨hp, n, hn, hj, ih.mpr ⟨mid, h1, h2⟩⟩

theorem Seg.single {m : Mem} {p r : Option Nat} {x : Nat × Job} :
    Seg m p [x] r ↔ p = some x.1 ∧ ∃ n, m.cell x.1 = some n ∧ n.job = x.2 ∧ n.next = r := by
  simp [Seg]

/-- A chain of `l` cells is walked with fuel `l.length`. -/
theorem walk_of_seg {m : Mem} {l : List (Nat × Job)} :
    ∀ {p : Option Nat} {fuel : Nat}, Seg m p l none → l.length ≤ fuel → walk m fuel p = some l := by
  induction l with
  | nil =>
    intro p fuel h _
    have : p = none := h
    subst this
    cases fuel <;> rfl
  | cons x l ih =>
    intro p fuel h hf
    obtain ⟨hp, n, hn, hj, hs⟩ := h
    subst hp
    cases fuel with
    | zero => simp at hf
    | succ fuel =>
      have hl : l.length ≤ fuel := by simpa using hf
      simp [walk, hn, ih hs hl, hj]

theorem seg_of_walk {m : Mem} :
    ∀ {fuel : Nat} {p : Option Nat} {l : List (Nat × Job)}, walk m fuel p = some l → Seg m p l none := by
  intro fuel
  induction fuel with
  | zero =>
    intro p l h
    cases p with
    | none => simp [walk] at h; subst h; rfl
    | some a => simp [walk] at h
  | succ fuel ih =>
    intro p l h
    cases p with
    | none => simp [walk] at h; subst h; rfl
    | some a =>
      simp only [walk] at h
      cases hc : m.cell a with
      | none => simp [hc] at h
      | some n =>
        simp only [hc, Option.map_eq_some'] at h
        obtain ⟨l1, h1, rfl⟩ := h
        exact ⟨rfl, n, hc, rfl, ih h1⟩

/-- Distinct addresses below `brk`: there are at most `brk` of them. -/
theorem length_le_of_nodup_bound {l : List Nat} {b : Nat} (hn : l.Nodup) (hb : ∀ a ∈ l, a < b) :
    l.length ≤ b := by
  have h1 : l.toFinset ⊆ Finset.range b := by
    intro a ha
    simp only [List.mem_toFinset] at ha
    simpa using hb a ha
  have h2 := Finset.card_le_card h1
  rw [List.toFinset_card_of_nodup hn] at h2
  simpa using h2

theorem Linked.length_le {m : Mem} {q : queue} {l : List (Nat × Job)} (h : Linked m q l) :
    l.length ≤ m.brk := by
  have := length_le_of_nodup_bound h.nodup (b := m.brk) (by
    intro a ha
    simp only [List.mem_map] at ha
    obtain ⟨x, hx, rfl⟩ := ha
    exact h.bound x hx)
  simpa using this

theorem Linked.jobs_eq {m : Mem} {q : queue} {l : List (Nat × Job)} (h : Linked m q l) :
    jobs m q = some (l.map Prod.snd) := by
  unfold jobs
  rw [walk_of_seg h.seg (by have := h.length_le; omega)]
  rfl

theorem Linked.head_eq {m : Mem} {q : queue} {l : List (Nat × Job)} (h : Linked m q l) :
    q.head = (l.map Prod.fst).head? := by
  have := h.seg
  cases l with
  | nil => exact this
  | cons x l => exact this.1

theorem Linked.head_none_iff {m : Mem} {q : queue} {l : List (Nat × Job)} (h : Linked m q l) :
    q.head = none ↔ l = [] := by
  rw [h.head_eq]; cases l <;> simp

theorem Linked.tail_none_iff {m : Mem} {q : queue} {l : List (Nat × Job)} (h : Linked m q l) :
    q.tail = none ↔ l = [] := by
  rw [h.last]; simp

theorem linked_init (t : Int) : Linked Mem.empty (initqueue t) [] :=
  ⟨rfl, rfl, List.nodup_nil, by simp⟩

theorem list_nil_or_snoc {α : Type} (l : List α) : l = [] ∨ ∃ l0 t, l = l0 ++ [t] := by
  rcases List.eq_nil_or_concat l with h | ⟨l0, t, h⟩
  · exact Or.inl h
  · exact Or.inr ⟨l0, t, by simpa using h⟩

theorem node_job_next (n : node) (p : Option Nat) : ({ n with next := p } : node).job = n.job := rfl

/-- The function `standardinsert` appends the node to a well-formed queue. -/
theorem standardinsert_spec {m : Mem} {q : queue} {l : List (Nat × Job)} (h : Linked m q l)
    {a : Nat} {n : node} (ha : m.cell a = some n) (hnx : n.next = none)
    (hfresh : a ∉ l.map Prod.fst) (hb : a < m.brk) :
    ∃ m1 q1, standardinsert a m q = some (m1, q1) ∧ Linked m1 q1 (l ++ [(a, n.job)]) ∧
      m1.brk = m.brk ∧ q1.sched_type = q.sched_type := by
  rcases list_nil_or_snoc l with rfl | ⟨l0, t, rfl⟩
  · have hh : q.head = none := h.head_none_iff.mpr rfl
    have ht : q.tail = none := h.tail_none_iff.mpr rfl
    refine ⟨m, { q with head := some a, tail := some a }, by simp [standardinsert, hh, ht],
      ?_, rfl, rfl⟩
    exact ⟨⟨rfl, n, ha, rfl, hnx⟩, by simp, by simp, by simpa using hb⟩
  · have ht : q.tail = some t.1 := by rw [h.last]; simp
    obtain ⟨mid, hs1, hs2⟩ := Seg.append.mp h.seg
    obtain ⟨hmid, tn, htn, htj, htnx⟩ := Seg.single.mp hs2
    have hnd := h.nodup
    simp only [List.map_append, List.map_cons, List.map_nil] at hnd hfresh
    have hnd0 : (l0.map Prod.fst).Nodup := (List.nodup_append.mp hnd).1
    have ht0 : t.1 ∉ l0.map Prod.fst := by
      intro hmem
      exact (List.nodup_append.mp hnd).2.2 hmem (by simp)
    have hat : a ≠ t.1 := by
      intro e; apply hfresh; simp [e]
    have ha0 : a ∉ l0.map Prod.fst := by
      intro hmem; apply hfresh; simp [hmem]
    refine ⟨m.write t.1 { tn with next := some a }, { q with tail := some a }, ?_, ?_, rfl, rfl⟩
    · simp [standardinsert, ht, htn]
    · refine ⟨?_, by simp, ?_, ?_⟩
      · rw [List.append_assoc]
        refine Seg.append.mpr ⟨mid, ?_, ?_⟩
        · refine hs1.frame ?_
          intro x hx
          apply Mem.write_cell_ne
          intro e; apply ht0; rw [← e]; exact List.mem_map_of_mem _ hx
        · refine ⟨hmid, _, Mem.write_cell_same _ _ _, htj, rfl, n, ?_, rfl, hnx⟩
          rw [Mem.write_cell_ne _ _ hat]; exact ha
      · simp only [List.map_append, List.map_cons, List.map_nil]
        rw [List.nodup_append]
        refine ⟨hnd, by simp, ?_⟩
        intro x hx1 hx2
        simp only [List.mem_singleton] at hx2
        subst hx2
        exact hfresh hx1
      · intro x hx
        rcases List.mem_append.mp hx with hx | hx
        · exact h.bound x hx
        · rw [List.mem_singleton.mp hx]; exact hb

/-- The function `dequeue` on a well-formed queue: `-1` when empty, else the front node is
unlinked and freed and its pid returned. -/
theorem dequeue_spec {m : Mem} {q : queue} {l : List (Nat × Job)} (h : Linked m q l) :
    (l = [] → dequeue m q = some (-1, m, q)) ∧
    (∀ x l1, l = x :: l1 → ∃ m1 q1, dequeue m q = some (x.2.pid, m1, q1) ∧ Linked m1 q1 l1 ∧
      m1.brk = m.brk ∧ q1.sched_type = q.sched_type) := by
  constructor
  · intro hl
    have hh : q.head = none := h.head_none_iff.mpr hl
    simp [dequeue, hh]
  · rintro x l1 rfl
    obtain ⟨hp, n, hn, hj, hs⟩ := h.seg
    have ht : q.tail ≠ none := fun e => by simpa using h.tail_none_iff.mp e
    have hnd := h.nodup
    simp only [List.map_cons, List.nodup_cons] at hnd
    have hfr : Seg (freenode x.1 m) n.next l1 none := by
      refine hs.frame ?_
      intro y hy
      apply Mem.free_cell_ne
      intro e; apply hnd.1; rw [← e]; exact List.mem_map_of_mem _ hy
    have hnext : n.next = (l1.map Prod.fst).head? := by
      cases l1 with
      | nil => exact hs
      | cons y l2 => exact hs.1
    refine ⟨freenode x.1 m, if n.next = none then { q with head := n.next, tail := none }
      else { q with head := n.next }, ?_, ?_, rfl, ?_⟩
    · have hh : q.head ≠ none := by rw [hp]; simp
      unfold dequeue
      rw [if_neg (by simp [hh, ht]), hp]
      simp only [hn, ← hj]
      rfl
    · by_cases hnn : n.next = none
      · simp only [hnn, if_true]
        have hl1 : l1 = [] := by
          rw [hnn] at hnext
          cases l1 with
          | nil => rfl
          | cons y l2 => simp at hnext
        subst hl1
        exact ⟨rfl, rfl, by simp, by simp⟩
      · simp only [hnn, if_false]
        refine ⟨hfr, ?_, hnd.2, fun y hy => h.bound y (List.mem_cons_of_mem _ hy)⟩
        have hl1 : l1 ≠ [] := by
          rintro rfl; exact hnn hs
        show q.tail = _
        rw [h.last]
        cases l1 with
        | nil => exact absurd rfl hl1
        | cons y l2 => simp
    · split <;> rfl

theorem search_notfound {m : Mem} {key : Int} {l : List (Nat × Job)} :
    ∀ {p : Option Nat} (prev : Option Nat) (fuel : Nat), Seg m p l none → (∀ x ∈ l, x.2.pid ≠ key) →
      l.length < fuel → ∃ pv, delete.search m key fuel p prev = some (none, pv) := by
  induction l with
  | nil =>
    intro p prev fuel h _ hf
    have hp : p = none := h
    subst hp
    cases fuel with
    | zero => simp at hf
    | succ fuel => exact ⟨prev, rfl⟩
  | cons x l ih =>
    intro p prev fuel h hk hf
    obtain ⟨hp, n, hn, hj, hs⟩ := h
    subst hp
    cases fuel with
    | zero => simp at hf
    | succ fuel =>
      have hpid : n.pid ≠ key := by
        have := hk x (List.mem_cons_self _ _)
        rw [← hj] at this; exact this
      obtain ⟨pv, hpv⟩ := ih (some x.1) fuel hs
        (fun y hy => hk y (List.mem_cons_of_mem _ hy)) (by simpa using hf)
      exact ⟨pv, by simp [delete.search, hn, hpid, hpv]⟩

theorem search_found {m : Mem} {key : Int} {c : Nat × Job} {l2 : List (Nat × Job)}
    {l1 : List (Nat × Job)} :
    ∀ {p : Option Nat} (prev : Option Nat) (fuel : Nat), Seg m p (l1 ++ c :: l2) none →
      (∀ x ∈ l1, x.2.pid ≠ key) → c.2.pid = key → l1.length < fuel →
      delete.search m key fuel p prev = some (some c.1, ((l1.map Prod.fst).getLast?).or prev) := by
  induction l1 with
  | nil =>
    intro p prev fuel h _ hc hf
    obtain ⟨hp, n, hn, hj, _⟩ := h
    subst hp
    cases fuel with
    | zero => simp at hf
    | succ fuel =>
      have hpid : n.pid = key := by rw [← hc, ← hj]; rfl
      simp [delete.search, hn, hpid]
  | cons x l1 ih =>
    intro p prev fuel h hk hc hf
    obtain ⟨hp, n, hn, hj, hs⟩ := h
    subst hp
    cases fuel with
    | zero => simp at hf
    | succ fuel =>
      have hpid : n.pid ≠ key := by
        have := hk x (List.mem_cons_self _ _)
        rw [← hj] at this; exact this
      have := ih (some x.1) fuel hs
        (fun y hy => hk y (List.mem_cons_of_mem _ hy)) hc (by simpa using hf)
      simp only [delete.search, hn, hpid, ne_eq, not_false_eq_true, if_true, this]
      simp only [List.map_cons, List.getLast?_cons]
      cases (l1.map Prod.fst).getLast? <;> rfl

/-- The function `delete` with a key no queued job carries returns the heap and the queue as they were. -/
theorem delete_absent {m : Mem} {q : queue} {l : List (Nat × Job)} (h : Linked m q l)
    {key : Int} (hk : ∀ x ∈ l, x.2.pid ≠ key) : delete key m q = some (m, q) := by
  obtain ⟨pv, hpv⟩ := search_notfound none (m.brk + 1) h.seg hk
    (by have := h.length_le; omega)
  simp [delete, hpv]

/-- The function `delete` on a well-formed queue unlinks the first node whose pid is `key`. -/
theorem delete_spec {m : Mem} {q : queue} {l : List (Nat × Job)} (h : Linked m q l) (key : Int) :
    ∃ m1 q1, delete key m q = some (m1, q1) ∧
      Linked m1 q1 (l.eraseP (fun x => decide (x.2.pid = key))) ∧
      m1.brk = m.brk ∧ q1.sched_type = q.sched_type := by
  by_cases hex : ∃ x ∈ l, x.2.pid = key
  swap
  · have hk : ∀ x ∈ l, x.2.pid ≠ key := fun x hx e => hex ⟨x, hx, e⟩
    refine ⟨m, q, delete_absent h hk, ?_, rfl, rfl⟩
    rw [List.eraseP_of_forall_not (by simpa using hk)]
    exact h
  · obtain ⟨x, hx, hxk⟩ := hex
    obtain ⟨c, l1, l2, hl1, hc, rfl, her⟩ :=
      List.exists_of_eraseP (p := fun x => decide (x.2.pid = key)) hx (by simpa using hxk)
    rw [her]
    have hl1k : ∀ x ∈ l1, x.2.pid ≠ key := by simpa using hl1
    have hck : c.2.pid = key := by simpa using hc
    have hlen : l1.length < m.brk + 1 := by
      have := h.length_le
      simp only [List.length_append, List.length_cons] at this
      omega
    have hsr := search_found none (m.brk + 1) h.seg hl1k hck hlen
    obtain ⟨mid, hs1, hs2⟩ := Seg.append.mp h.seg
    obtain ⟨hmid, cn, hcn, hcj, hs3⟩ := hs2
    have hnd := h.nodup
    simp only [List.map_append, List.map_cons] at hnd
    obtain ⟨hnd1, hnd2, hdis⟩ := List.nodup_append.mp hnd
    obtain ⟨hc2, hnd2⟩ := List.nodup_cons.mp hnd2
    have hc1 : c.1 ∉ l1.map Prod.fst := fun hm => hdis hm (List.mem_cons_self _ _)
    have h12 : ∀ a, a ∈ l1.map Prod.fst → a ∉ l2.map Prod.fst :=
      fun a h1 h2 => hdis h1 (List.mem_cons_of_mem _ h2)
    -- where `curr_node` sits relative to head and tail
    have htl : (some c.1 = q.tail) ↔ l2 = [] := by
      rw [h.last]
      simp only [List.map_append, List.map_cons, List.getLast?_append]
      cases l2 with
      | nil => simp
      | cons y l3 =>
        simp only [List.map_cons, List.getLast?_cons_cons, reduceCtorEq, iff_false]
        have : ((y :: l3).map Prod.fst).getLast? = some (((y :: l3).map Prod.fst).getLast (by simp)) :=
          List.getLast?_eq_getLast _ _
        simp only [List.map_cons] at this
        rw [this]
        simp only [Option.or_some, Option.some.injEq]
        intro e
        apply hc2
        rw [e]
        exact List.getLast_mem (l := (y.1 :: l3.map Prod.fst)) (by simp)
    have hnewtail : ∀ pv : Option Nat, l2 ≠ [] → q.tail = ((l1 ++ l2).map Prod.fst).getLast? := by
      intro _ hl2
      rw [h.last]
      simp only [List.map_append, List.map_cons, List.getLast?_append]
      cases l2 with
      | nil => exact absurd rfl hl2
      | cons y l3 =>
        simp only [List.map_cons, List.getLast?_cons_cons]
    have hfr2 : ∀ m1 : Mem, (∀ a, a ∈ l2.map Prod.fst → m1.cell a = m.cell a) →
        Seg m1 cn.next l2 none := fun m1 hm =>
      hs3.frame (fun y hy => hm y.1 (List.mem_map_of_mem _ hy))
    have hbound : ∀ y ∈ l1 ++ l2, y.1 < m.brk := by
      intro y hy
      apply h.bound
      rcases List.mem_append.mp hy with hy | hy
      · exact List.mem_append_left _ hy
      · exact List.mem_append_right _ (List.mem_cons_of_mem _ hy)
    have hnodup : ((l1 ++ l2).map Prod.fst).Nodup := by
      rw [List.map_append, List.nodup_append]
      exact ⟨hnd1, hnd2, fun a h1 h2 => h12 a h1 h2⟩
    rcases list_nil_or_snoc l1 with rfl | ⟨l0, pp, rfl⟩
    · -- the node is the head
      have hmid2 : q.head = some c.1 := hmid ▸ hs1
      have hfree : Seg (freenode c.1 m) cn.next l2 none := hfr2 _ (fun a ha =>
        Mem.free_cell_ne _ (fun e => hc2 (e ▸ ha)))
      simp only [List.map_nil, List.getLast?_nil, Option.or] at hsr
      by_cases hl2 : l2 = []
      · subst hl2
        have ht : some c.1 = q.tail := htl.mpr rfl
        refine ⟨freenode c.1 m, { q with head := cn.next, tail := none }, ?_, ?_, rfl, rfl⟩
        · unfold delete
          rw [hsr]
          simp only [hcn, if_pos hmid2.symm, if_pos ht]
        · exact ⟨hfree, rfl, by simp, by simp⟩
      · have ht : ¬ (some c.1 = q.tail) := fun e => hl2 (htl.mp e)
        refine ⟨freenode c.1 m, { q with head := cn.next }, ?_, ?_, rfl, rfl⟩
        · unfold delete
          rw [hsr]
          simp only [hcn, if_pos hmid2.symm, if_neg ht]
        · exact ⟨hfree, hnewtail none hl2, by simpa using hnodup, by simpa using hbound⟩
    · -- the node has a predecessor `pp`
      obtain ⟨mid0, hs0, hsp⟩ := Seg.append.mp hs1
      obtain ⟨hmid0, pn, hpn, hpj, hpnx⟩ := Seg.single.mp hsp
      simp only [List.map_append, List.map_cons, List.map_nil] at hnd1 hc1 h12
      have hp0 : pp.1 ∉ l0.map Prod.fst := fun hm =>
        (List.nodup_append.mp hnd1).2.2 hm (by simp)
      have hcp : c.1 ≠ pp.1 := fun e => hc1 (by simp [e])
      have hc0 : c.1 ∉ l0.map Prod.fst := fun hm => hc1 (by simp [hm])
      have hhd : ¬ (some c.1 = q.head) := by
        rw [h.head_eq]
        cases l0 with
        | nil => simpa using hcp
        | cons y l3 =>
          simp only [List.map_append, List.map_cons, List.cons_append, List.head?_cons,
            Option.some.injEq]
          intro e; exact hc0 (by simp [e])
      have hsr2 : delete.search m key (m.brk + 1) q.head none = some (some c.1, some pp.1) := by
        rw [hsr]; simp
      let m1 := freenode c.1 (m.write pp.1 { pn with next := cn.next })
      have hcell : ∀ a, a ≠ c.1 → a ≠ pp.1 → m1.cell a = m.cell a := by
        intro a h1 h2
        show (Mem.free _ _).cell a = _
        rw [Mem.free_cell_ne _ h1, Mem.write_cell_ne _ _ h2]
      have hseg : Seg m1 q.head (l0 ++ [pp] ++ l2) none := by
        refine Seg.append.mpr ⟨cn.next, Seg.append.mpr ⟨mid0, ?_, ?_⟩, ?_⟩
        · refine hs0.frame (fun y hy => hcell _ ?_ ?_)
          · intro e; exact hc0 (e ▸ List.mem_map_of_mem _ hy)
          · intro e; exact hp0 (e ▸ List.mem_map_of_mem _ hy)
        · refine Seg.single.mpr ⟨hmid0, { pn with next := cn.next }, ?_, hpj, rfl⟩
          show (Mem.free _ _).cell pp.1 = _
          rw [Mem.free_cell_ne _ (Ne.symm hcp), Mem.write_cell_same]
        · refine hfr2 _ (fun a ha => hcell _ ?_ ?_)
          · intro e; exact hc2 (e ▸ ha)
          · intro e; exact h12 pp.1 (by simp) (e ▸ ha)
      by_cases hl2 : l2 = []
      · subst hl2
        have ht : some c.1 = q.tail := htl.mpr rfl
        refine ⟨m1, { q with tail := some pp.1 }, ?_, ?_, rfl, rfl⟩
        · unfold delete
          rw [hsr2]
          simp only [hcn, if_neg hhd, if_pos ht, hpn, m1]
        · exact ⟨hseg, by simp, by simpa using hnodup, by simpa using hbound⟩
      · have ht : ¬ (some c.1 = q.tail) := fun e => hl2 (htl.mp e)
        refine ⟨m1, q, ?_, ?_, rfl, rfl⟩
        · unfold delete
          rw [hsr2]
          simp only [hcn, if_neg hhd, if_neg ht, hpn, m1]
        · exact ⟨hseg, hnewtail none hl2, by simpa using hnodup, by simpa using hbound⟩

theorem evaltime_eq_time (n : node) : evaltime n = n.job.time := rfl

theorem Job.time_eq_dur {j : Job} {t : Int} (h : j.time = some t) : j.dur = t := by
  simp [Job.dur, h]

/-- Linking a new node behind the tail of a non-empty well-formed queue. -/
theorem Linked.link_tail {m : Mem} {q : queue} {l0 : List (Nat × Job)} {t : Nat × Job}
    (h : Linked m q (l0 ++ [t])) {a : Nat} {n : node} (ha : m.cell a = some n)
    (hnx : n.next = none) (hfresh : a ∉ (l0 ++ [t]).map Prod.fst) (hb : a < m.brk) :
    ∃ tn, q.tail = some t.1 ∧ m.cell t.1 = some tn ∧
      Linked (m.write t.1 { tn with next := some a }) { q with tail := some a }
        (l0 ++ [t] ++ [(a, n.job)]) := by
  have ht : q.tail = some t.1 := by rw [h.last]; simp
  obtain ⟨mid, hs1, hs2⟩ := Seg.append.mp h.seg
  obtain ⟨hmid, tn, htn, htj, htnx⟩ := Seg.single.mp hs2
  have hnd := h.nodup
  simp only [List.map_append, List.map_cons, List.map_nil] at hnd hfresh
  have ht0 : t.1 ∉ l0.map Prod.fst := by
    intro hmem
    exact (List.nodup_append.mp hnd).2.2 hmem (by simp)
  have hat : a ≠ t.1 := by
    intro e; apply hfresh; simp [e]
  refine ⟨tn, ht, htn, ?_, by simp, ?_, ?_⟩
  · rw [List.append_assoc]
    refine Seg.append.mpr ⟨mid, ?_, ?_⟩
    · refine hs1.frame ?_
      intro x hx
      apply Mem.write_cell_ne
      intro e; apply ht0; rw [← e]; exact List.mem_map_of_mem _ hx
    · refine ⟨hmid, _, Mem.write_cell_same _ _ _, htj, rfl, n, ?_, rfl, hnx⟩
      rw [Mem.write_cell_ne _ _ hat]; exact ha
  · simp only [List.map_append, List.map_cons, List.map_nil]
    rw [List.nodup_append]
    refine ⟨hnd, by simp, ?_⟩
    intro x hx1 hx2
    simp only [List.mem_singleton] at hx2
    subst hx2
    exact hfresh hx1
  · intro x hx
    rcases List.mem_append.mp hx with hx | hx
    · exact h.bound x hx
    · rw [List.mem_singleton.mp hx]; exact hb

/-- The scan of `sortedinsert` stops at the last cell of the head followed by
its run of strictly shorter successors. -/
theorem scan_spec {m : Mem} {e : Int} {rest : List (Nat × Job)} :
    ∀ (x : Nat × Job) (fuel : Nat), Seg m (some x.1) (x :: rest) none →
      (∀ y ∈ rest, ∃ t, y.2.time = some t) → rest.length < fuel →
      ∃ pre c post, x :: rest = pre ++ c :: post ∧
        pre ++ [c] = x :: rest.takeWhile (fun y => decide (y.2.dur < e)) ∧
        post = rest.dropWhile (fun y => decide (y.2.dur < e)) ∧
        sortedinsert.scan m e fuel x.1 = some c.1 := by
  induction rest with
  | nil =>
    intro x fuel h _ hf
    obtain ⟨_, n, hn, _, hs⟩ := h
    have hnx : n.next = none := hs
    cases fuel with
    | zero => simp at hf
    | succ fuel =>
      exact ⟨[], x, [], rfl, rfl, rfl, by simp [sortedinsert.scan, hn, hnx]⟩
  | cons y rest ih =>
    intro x fuel h ht hf
    obtain ⟨_, n, hn, _, hs⟩ := h
    have hs' := hs
    obtain ⟨hnx, yn, hyn, hyj, _⟩ := hs'
    obtain ⟨t, hyt⟩ := ht y (List.mem_cons_self _ _)
    have hev : evaltimeAt m (some y.1) = some t := by
      simp [evaltimeAt, hyn, evaltime_eq_time, hyj, hyt]
    have hdur : y.2.dur = t := Job.time_eq_dur hyt
    cases fuel with
    | zero => simp at hf
    | succ fuel =>
      by_cases hlt : t < e
      · rw [hnx] at hs
        obtain ⟨pre, c, post, h1, h2, h3, h4⟩ := ih y fuel hs
          (fun z hz => ht z (List.mem_cons_of_mem _ hz)) (by simpa using hf)
        refine ⟨x :: pre, c, post, by simp [h1], ?_, ?_, ?_⟩
        · simp [List.takeWhile_cons, hdur, hlt, h2]
        · simp [List.dropWhile_cons, hdur, hlt, h3]
        · simp [sortedinsert.scan, hn, hnx, hev, hlt, h4]
      · refine ⟨[], x, y :: rest, rfl, ?_, ?_, ?_⟩
        · simp [List.takeWhile_cons, hdur, hlt]
        · simp [List.dropWhile_cons, hdur, hlt]
        · simp [sortedinsert.scan, hn, hnx, hev, hlt]

theorem getLastD_of_snoc {α : Type} {hd : α} {rest l0 : List α} {t : α}
    (h : hd :: rest = l0 ++ [t]) : rest.getLastD hd = t := by
  have h1 : (hd :: rest).getLast? = some t := by rw [h]; simp
  rw [List.getLast?_cons] at h1
  rw [List.getLastD_eq_getLast?]
  exact Option.some.inj h1

/-- The function `sortedinsert` on a well-formed queue whose jobs have durations: it succeeds
and the cells end up as `placeSJF` says. -/
theorem sortedinsert_spec {m : Mem} {q : queue} {l : List (Nat × Job)} (h : Linked m q l)
    {a : Nat} {ni : node} (ha : m.cell a = some ni) (hnx : ni.next = none)
    (hfresh : a ∉ l.map Prod.fst) (hb : a < m.brk)
    (htimes : ∀ y ∈ l, ∃ t, y.2.time = some t) (hnew : l ≠ [] → ∃ e, ni.job.time = some e) :
    ∃ m1 q1, sortedinsert a m q = some (m1, q1) ∧
      Linked m1 q1 (placeSJF (fun x : Nat × Job => x.2.dur) (a, ni.job) l) ∧
      m1.brk = m.brk ∧ q1.sched_type = q.sched_type := by
  cases l with
  | nil =>
    have hh : q.head = none := h.head_none_iff.mpr rfl
    have ht : q.tail = none := h.tail_none_iff.mpr rfl
    refine ⟨m, { q with head := some a, tail := some a }, by simp [sortedinsert, hh, ht],
      ?_, rfl, rfl⟩
    show Linked _ _ [(a, ni.job)]
    exact ⟨⟨rfl, ni, ha, rfl, hnx⟩, by simp, by simp, by simpa using hb⟩
  | cons hd rest =>
    obtain ⟨e, he⟩ := hnew (by simp)
    have hdx : ni.job.dur = e := Job.time_eq_dur he
    obtain ⟨hp, hn, hhn, hhj, hsrest⟩ := h.seg
    obtain ⟨th, hth⟩ := htimes hd (List.mem_cons_self _ _)
    have hdh : hd.2.dur = th := Job.time_eq_dur hth
    have hevh : evaltimeAt m q.head = some th := by
      simp [hp, evaltimeAt, hhn, evaltime_eq_time, hhj, hth]
    have heva : evaltimeAt m (some a) = some e := by
      simp [evaltimeAt, ha, evaltime_eq_time, he]
    have hne : ¬ (q.head = none ∧ q.tail = none) := by rw [hp]; simp
    have hnd := h.nodup
    have hstart : sortedinsert a m q =
        (if th > e then
          some (m.write a { ni with next := q.head }, { q with head := some a })
        else
          match q.tail, evaltimeAt m q.tail with
          | some t, some et =>
            if et ≤ e then
              match m.cell t with
              | none => none
              | some tn =>
                some (m.write t { tn with next := some a }, { q with tail := some a })
            else
              match q.head with
              | none => none
              | some h =>
                match sortedinsert.scan m e (m.brk + 1) h with
                | none => none
                | some c =>
                  match m.cell c with
                  | none => none
                  | some cn =>
                    let m1 := m.write a { ni with next := cn.next }
                    some (m1.write c { cn with next := some a }, q)
          | _, _ => none) := by
      unfold sortedinsert
      rw [if_neg hne]
      simp only [ha, hevh, heva]
    rw [hstart]
    by_cases hgt : th > e
    · -- new head
      rw [if_pos hgt]
      refine ⟨_, _, rfl, ?_, rfl, rfl⟩
      have hpl : placeSJF (fun x : Nat × Job => x.2.dur) (a, ni.job) (hd :: rest) =
          (a, ni.job) :: hd :: rest := by
        simp [placeSJF, hdh, hdx, hgt]
      rw [hpl]
      refine ⟨⟨rfl, _, Mem.write_cell_same _ _ _, rfl, ?_⟩, ?_, ?_, ?_⟩
      · refine h.seg.frame (fun y hy => Mem.write_cell_ne _ _ ?_)
        intro e1; exact hfresh (e1 ▸ List.mem_map_of_mem _ hy)
      · show q.tail = _
        rw [h.last]; simp
      · simp only [List.map_cons, List.nodup_cons] at hnd hfresh ⊢
        exact ⟨by simpa using hfresh, hnd⟩
      · intro y hy
        rcases List.mem_cons.mp hy with rfl | hy
        · exact hb
        · exact h.bound y hy
    · rw [if_neg hgt]
      rcases list_nil_or_snoc (hd :: rest) with hnil | ⟨l0, t, hsn⟩
      · simp at hnil
      · have hlast : rest.getLastD hd = t := getLastD_of_snoc hsn
        obtain ⟨tt, htt⟩ := htimes t (by rw [hsn]; simp)
        have hdt : t.2.dur = tt := Job.time_eq_dur htt
        have h' : Linked m q (l0 ++ [t]) := hsn ▸ h
        obtain ⟨tn, htl, htn, hlk⟩ := h'.link_tail ha hnx (hsn ▸ hfresh) hb
        have hevt : evaltimeAt m (some t.1) = some tt := by
          obtain ⟨mid, _, hs2⟩ := Seg.append.mp h'.seg
          obtain ⟨_, tn', htn', htj, _⟩ := Seg.single.mp hs2
          simp [evaltimeAt, htn', evaltime_eq_time, htj, htt]
        simp only [htl, hevt]
        by_cases hle : tt ≤ e
        · -- new tail
          rw [if_pos hle]
          simp only [htn]
          refine ⟨_, _, rfl, ?_, rfl, rfl⟩
          have hpl : placeSJF (fun x : Nat × Job => x.2.dur) (a, ni.job) (hd :: rest) =
              hd :: rest ++ [(a, ni.job)] := by
            simp only [placeSJF, hdh, hdx, hlast, hdt, if_neg hgt, if_pos hle]
          rw [hpl, hsn]
          exact hlk
        · -- in the middle
          rw [if_neg hle, hp]
          obtain ⟨pre, c, post, h1, h2, h3, h4⟩ := scan_spec (e := e) hd (m.brk + 1) (hp ▸ h.seg)
            (fun y hy => htimes y (List.mem_cons_of_mem _ hy))
            (by have := h.length_le; simp only [List.length_cons] at this; omega)
          have hpost : post ≠ [] := by
            intro hpe
            rw [hpe] at h1
            have hct : c = t := by
              have := h1.symm.trans hsn
              exact (List.append_inj' this rfl).2 |> List.singleton_inj.mp
            have hcm : c ∈ hd :: rest.takeWhile (fun y => decide (y.2.dur < e)) := by
              rw [← h2]; simp
            rcases List.mem_cons.mp hcm with hc | hc
            · apply hle; rw [← hdt, ← hct, hc, hdh]; omega
            · have := List.mem_takeWhile_imp hc
              simp only [decide_eq_true_eq] at this
              apply hle; rw [← hdt, ← hct]; omega
          have hl : Linked m q (pre ++ c :: post) := h1 ▸ h
          obtain ⟨midc, hsp, hsc⟩ := Seg.append.mp hl.seg
          obtain ⟨hmidc, cn, hcn, hcj, hspost⟩ := hsc
          simp only [h4, hcn]
          refine ⟨_, _, rfl, ?_, rfl, rfl⟩
          have hpl : placeSJF (fun x : Nat × Job => x.2.dur) (a, ni.job) (hd :: rest) =
              pre ++ c :: (a, ni.job) :: post := by
            simp only [placeSJF, hdh, hdx, hgt, hlast, hdt, hle, if_false]
            rw [h3, ← List.cons_append, ← h2]
            simp
          rw [hpl]
          have hfr : a ∉ (pre ++ c :: post).map Prod.fst := h1 ▸ hfresh
          have hnd' := hl.nodup
          simp only [List.map_append, List.map_cons] at hfr hnd'
          obtain ⟨hnd1, hnd2, hdis⟩ := List.nodup_append.mp hnd'
          obtain ⟨hc2, hnd2⟩ := List.nodup_cons.mp hnd2
          have hac : a ≠ c.1 := fun e1 => hfr (by simp [e1])
          have hcell : ∀ b, b ≠ a → b ≠ c.1 →
              ((m.write a { ni with next := cn.next }).write c.1
                { cn with next := some a }).cell b = m.cell b := by
            intro b hb1 hb2
            rw [Mem.write_cell_ne _ _ hb2, Mem.write_cell_ne _ _ hb1]
          refine ⟨?_, ?_, ?_, ?_⟩
          · refine Seg.append.mpr ⟨midc, ?_, hmidc, _, Mem.write_cell_same _ _ _, hcj, rfl,
              { ni with next := cn.next }, ?_, rfl, ?_⟩
            · refine hsp.frame (fun y hy => hcell _ ?_ ?_)
              · intro e1; exact hfr (by simp [← e1, List.mem_map_of_mem Prod.fst hy])
              · intro e1; exact hdis (List.mem_map_of_mem Prod.fst hy) (by simp [e1])
            · rw [Mem.write_cell_ne _ _ hac, Mem.write_cell_same]
            · refine hspost.frame (fun y hy => hcell _ ?_ ?_)
              · intro e1; exact hfr (by simp [← e1, List.mem_map_of_mem Prod.fst hy])
              · intro e1; exact hc2 (e1 ▸ List.mem_map_of_mem Prod.fst hy)
          · show q.tail = _
            rw [hl.last]
            cases post with
            | nil => exact absurd rfl hpost
            | cons z post' => simp
          · simp only [List.map_append, List.map_cons]
            rw [List.nodup_append]
            refine ⟨hnd1, ?_, ?_⟩
            · rw [List.nodup_cons, List.nodup_cons]
              refine ⟨?_, ⟨fun hm => hfr (by simp [hm]), hnd2⟩⟩
              simp only [List.mem_cons, not_or]
              exact ⟨fun e1 => hac e1.symm, hc2⟩
            · intro b hb1 hb2
              rcases List.mem_cons.mp hb2 with rfl | hb2
              · exact hdis hb1 (by simp)
              · rcases List.mem_cons.mp hb2 with rfl | hb2
                · exact hfr (by simp [hb1])
                · exact hdis hb1 (by simp [hb2])
          · intro y hy
            rcases List.mem_append.mp hy with hy | hy
            · exact hl.bound y (List.mem_append_left _ hy)
            · rcases List.mem_cons.mp hy with rfl | hy
              · exact hl.bound _ (by simp)
              · rcases List.mem_cons.mp hy with rfl | hy
                · exact hb
                · exact hl.bound y (by simp [hy])

/-- When `sortedinsert` returns on a non-empty queue, the head and the new node
have durations. -/
theorem sortedinsert_defined {m : Mem} {q : queue} {hd : Nat × Job} {rest : List (Nat × Job)}
    (h : Linked m q (hd :: rest)) {a : Nat} {ni : node} (ha : m.cell a = some ni)
    {r : Mem × queue} (hr : sortedinsert a m q = some r) :
    (∃ t, hd.2.time = some t) ∧ (∃ e, ni.job.time = some e) := by
  obtain ⟨hp, hn, hhn, hhj, _⟩ := h.seg
  have hne : ¬ (q.head = none ∧ q.tail = none) := by rw [hp]; simp
  have hevh : evaltimeAt m q.head = hd.2.time := by
    simp [hp, evaltimeAt, hhn, evaltime_eq_time, hhj]
  have heva : evaltimeAt m (some a) = ni.job.time := by
    simp [evaltimeAt, ha, evaltime_eq_time]
  unfold sortedinsert at hr
  rw [if_neg hne, ha, hevh, heva] at hr
  cases h1 : hd.2.time with
  | none => rw [h1] at hr; simp at hr
  | some t =>
    cases h2 : ni.job.time with
    | none => rw [h1, h2] at hr; simp at hr
    | some e => exact ⟨⟨t, rfl⟩, ⟨e, rfl⟩⟩

/-! ## enqueue -/

theorem Linked.fresh_brk {m : Mem} {q : queue} {l : List (Nat × Job)} (h : Linked m q l) :
    m.brk ∉ l.map Prod.fst := by
  intro hm
  obtain ⟨x, hx, hx1⟩ := List.mem_map.mp hm
  have := h.bound x hx
  omega

theorem Linked.malloc {m : Mem} {q : queue} {l : List (Nat × Job)} (h : Linked m q l)
    (hf : m.freed = []) (n : node) : Linked (m.malloc n) q l := by
  refine ⟨h.seg.frame (fun x hx => Mem.malloc_cell_ne hf _ ?_), h.last, h.nodup, ?_⟩
  · have := h.bound x hx; omega
  · intro x hx
    have := h.bound x hx
    rw [Mem.malloc_brk hf]
    omega

theorem time_of_args {j : Job} (h : 3 ≤ j.args.length) : ∃ t, j.time = some t := by
  obtain ⟨pid, name, args⟩ := j
  match args, h with
  | a0 :: a1 :: a2 :: rest, _ => exact ⟨wrap32 (atoi a1 * atoi a2), by simp [Job.time, evaltime]⟩

/-- The function `standardinsert` frees and allocates nothing. -/
theorem standardinsert_freed {a : Nat} {m m1 : Mem} {q q1 : queue}
    (hr : standardinsert a m q = some (m1, q1)) : m1.freed = m.freed := by
  unfold standardinsert at hr
  split at hr
  · simp only [Option.some.injEq, Prod.mk.injEq] at hr
    rw [← hr.1]
  · split at hr
    · simp at hr
    · split at hr
      · simp at hr
      · simp only [Option.some.injEq, Prod.mk.injEq] at hr
        rw [← hr.1]; rfl

/-- The function `sortedinsert` frees and allocates nothing. -/
theorem sortedinsert_freed {a : Nat} {m m1 : Mem} {q q1 : queue}
    (hr : sortedinsert a m q = some (m1, q1)) : m1.freed = m.freed := by
  unfold sortedinsert at hr
  split at hr
  · simp only [Option.some.injEq, Prod.mk.injEq] at hr
    rw [← hr.1]
  · split at hr
    · split at hr
      · simp only [Option.some.injEq, Prod.mk.injEq] at hr
        rw [← hr.1]; rfl
      · split at hr
        · split at hr
          · split at hr
            · simp at hr
            · simp only [Option.some.injEq, Prod.mk.injEq] at hr
              rw [← hr.1]; rfl
          · split at hr
            · simp at hr
            · split at hr
              · simp at hr
              · split at hr
                · simp at hr
                · simp only [Option.some.injEq, Prod.mk.injEq] at hr
                  rw [← hr.1]; rfl
        · simp at hr
    · simp at hr

/-- On a heap where no freed chunk waits to be handed out, `enqueue` takes the
new chunk at `brk`, which reads as zeroed: the node it links has no successor
and exactly the given arguments. -/
theorem enqueue_fresh {m : Mem} (hf : m.freed = []) (name : String) (args : List String)
    (q : queue) :
    enqueue name args m q =
      if q.sched_type = FCFS then
        standardinsert m.brk
          (m.malloc { pid := NO_PID, name := name, args := args, next := none }) q
      else if q.sched_type = SJF then
        sortedinsert m.brk
          (m.malloc { pid := NO_PID, name := name, args := args, next := none }) q
      else
        standardinsert m.brk
          (m.malloc { pid := NO_PID, name := name, args := args, next := none }) q := by
  unfold enqueue
  rw [Mem.top_fresh hf, Mem.stale_fresh hf]
  simp

/-- After `enqueue` on a heap where no freed chunk waits, none waits. -/
theorem enqueue_freed {m m1 : Mem} {q q1 : queue} (hf : m.freed = []) {name : String}
    {args : List String} (hr : enqueue name args m q = some (m1, q1)) : m1.freed = [] := by
  rw [enqueue_fresh hf] at hr
  have hm := Mem.malloc_freed hf { pid := NO_PID, name := name, args := args, next := none }
  split at hr
  · rw [standardinsert_freed hr, hm]
  · split at hr
    · rw [sortedinsert_freed hr, hm]
    · rw [standardinsert_freed hr, hm]

/-- The function `enqueue` under a scheduling type other than SJF appends the new job,
when no freed chunk waits to be handed out. -/
theorem enqueue_fcfs {m : Mem} {q : queue} {l : List (Nat × Job)} (h : Linked m q l)
    (hf : m.freed = []) (hq : q.sched_type ≠ SJF) (name : String) (args : List String) :
    ∃ m1 q1, enqueue name args m q = some (m1, q1) ∧
      Linked m1 q1 (l ++ [(m.brk, { pid := NO_PID, name := name, args := args })]) ∧
      m1.brk = m.brk + 1 ∧ q1.sched_type = q.sched_type := by
  have hsp := standardinsert_spec
    (h.malloc hf { pid := NO_PID, name := name, args := args, next := none })
    (a := m.brk) (Mem.malloc_cell_same hf _) rfl h.fresh_brk (by rw [Mem.malloc_brk hf]; omega)
  obtain ⟨m1, q1, h1, h2, h3, h4⟩ := hsp
  refine ⟨m1, q1, ?_, h2, by rw [h3, Mem.malloc_brk hf], h4⟩
  rw [enqueue_fresh hf]
  by_cases hfc : q.sched_type = FCFS
  · simp only [hfc, if_true]; exact h1
  · simp only [hfc, hq, if_false]; exact h1

/-- The function `enqueue` under SJF places the new job as `placeSJF` says, when the queued
jobs and (if the queue is not empty) the new job have durations and no freed chunk
waits to be handed out. -/
theorem enqueue_sjf {m : Mem} {q : queue} {l : List (Nat × Job)} (h : Linked m q l)
    (hf : m.freed = []) (hq : q.sched_type = SJF) (name : String) (args : List String)
    (htimes : ∀ y ∈ l, ∃ t, y.2.time = some t)
    (hnew : l ≠ [] → ∃ e, Job.time { pid := NO_PID, name := name, args := args } = some e) :
    ∃ m1 q1, enqueue name args m q = some (m1, q1) ∧
      Linked m1 q1 (placeSJF (fun x : Nat × Job => x.2.dur)
        (m.brk, { pid := NO_PID, name := name, args := args }) l) ∧
      m1.brk = m.brk + 1 ∧ q1.sched_type = q.sched_type := by
  have hsp := sortedinsert_spec
    (h.malloc hf { pid := NO_PID, name := name, args := args, next := none })
    (a := m.brk) (Mem.malloc_cell_same hf _) rfl h.fresh_brk
    (by rw [Mem.malloc_brk hf]; omega) htimes hnew
  obtain ⟨m1, q1, h1, h2, h3, h4⟩ := hsp
  refine ⟨m1, q1, ?_, h2, by rw [h3, Mem.malloc_brk hf], h4⟩
  rw [enqueue_fresh hf]
  have hfc : q.sched_type ≠ FCFS := by rw [hq]; decide
  simp only [hfc, hq, if_false, if_true]; exact h1

/-- When `enqueue` under SJF returns on a non-empty queue, with no freed chunk
waiting, the head and the new job have durations. -/
theorem enqueue_sjf_defined {m : Mem} {q : queue} {hd : Nat × Job} {rest : List (Nat × Job)}
    (h : Linked m q (hd :: rest)) (hf : m.freed = []) (hq : q.sched_type = SJF)
    {name : String} {args : List String}
    {r : Mem × queue} (hr : enqueue name args m q = some r) :
    (∃ t, hd.2.time = some t) ∧
      (∃ e, Job.time { pid := NO_PID, name := name, args := args } = some e) := by
  have hfc : q.sched_type ≠ FCFS := by rw [hq]; decide
  rw [enqueue_fresh hf] at hr
  simp only [hfc, hq, if_false, if_true] at hr
  exact sortedinsert_defined
    (h.malloc hf { pid := NO_PID, name := name, args := args, next := none })
    (Mem.malloc_cell_same hf _) hr

/-! ## Order of the duration-sorted list -/

theorem dropWhile_head_not {α : Type} (p : α → Bool) :
    ∀ (l : List α) {d : α} {r : List α}, l.dropWhile p = d :: r → p d = false := by
  intro l
  induction l with
  | nil => intro d r h; simp at h
  | cons x l ih =>
    intro d r h
    by_cases hx : p x = true
    · rw [List.dropWhile_cons_of_pos hx] at h; exact ih h
    · rw [List.dropWhile_cons_of_neg hx] at h
      simp only [List.cons.injEq] at h
      rw [← h.1]; simpa using hx

theorem placeSJF_cons {α : Type} (key : α → Int) (x h : α) (rest : List α) :
    placeSJF key x (h :: rest) =
      if key h > key x then x :: h :: rest
      else if key (rest.getLastD h) ≤ key x then h :: rest ++ [x]
      else h :: (rest.takeWhile (fun y => decide (key y < key x)) ++
        x :: rest.dropWhile (fun y => decide (key y < key x))) := rfl

/-- The placement `placeSJF` inserts the element somewhere and keeps the others in their order. -/
theorem placeSJF_split {α : Type} (key : α → Int) (x : α) (l : List α) :
    ∃ l1 l2, l = l1 ++ l2 ∧ placeSJF key x l = l1 ++ x :: l2 := by
  cases l with
  | nil => exact ⟨[], [], rfl, rfl⟩
  | cons h rest =>
    rw [placeSJF_cons]
    by_cases h1 : key h > key x
    · exact ⟨[], h :: rest, rfl, by rw [if_pos h1]; rfl⟩
    · by_cases h2 : key (rest.getLastD h) ≤ key x
      · exact ⟨h :: rest, [], by simp, by rw [if_neg h1, if_pos h2]⟩
      · refine ⟨h :: rest.takeWhile (fun y => decide (key y < key x)),
          rest.dropWhile (fun y => decide (key y < key x)), by simp, ?_⟩
        rw [if_neg h1, if_neg h2]; rfl

/-- The placement `placeSJF` keeps a list sorted by `key`. -/
theorem placeSJF_sorted {α : Type} (key : α → Int) (x : α) (l : List α)
    (hs : l.Pairwise (fun a b => key a ≤ key b)) :
    (placeSJF key x l).Pairwise (fun a b => key a ≤ key b) := by
  cases l with
  | nil => simp [placeSJF]
  | cons h rest =>
    obtain ⟨hh, hrest⟩ := List.pairwise_cons.mp hs
    rw [placeSJF_cons]
    by_cases h1 : key h > key x
    · rw [if_pos h1]
      refine List.pairwise_cons.mpr ⟨?_, hs⟩
      intro y hy
      rcases List.mem_cons.mp hy with rfl | hy
      · omega
      · have := hh y hy; omega
    · rw [if_neg h1]
      by_cases h2 : key (rest.getLastD h) ≤ key x
      · rw [if_pos h2]
        refine List.pairwise_append.mpr ⟨hs, by simp, ?_⟩
        intro a ha b hb
        rw [List.mem_singleton.mp hb]
        rcases list_nil_or_snoc (h :: rest) with hnil | ⟨l0, t, hsn⟩
        · simp at hnil
        · have ht : rest.getLastD h = t := getLastD_of_snoc hsn
          rw [ht] at h2
          rw [hsn] at hs ha
          rcases List.mem_append.mp ha with ha | ha
          · have := (List.pairwise_append.mp hs).2.2 a ha t (by simp)
            omega
          · rw [List.mem_singleton.mp ha]; exact h2
      · rw [if_neg h2]
        have hsplit : rest.takeWhile (fun y => decide (key y < key x)) ++
            rest.dropWhile (fun y => decide (key y < key x)) = rest :=
          List.takeWhile_append_dropWhile _ _
        rw [← hsplit] at hrest hh
        obtain ⟨htw, hdw, hcross⟩ := List.pairwise_append.mp hrest
        have hxd : ∀ z ∈ rest.dropWhile (fun y => decide (key y < key x)), key x ≤ key z := by
          intro z hz
          cases hd : rest.dropWhile (fun y => decide (key y < key x)) with
          | nil => rw [hd] at hz; simp at hz
          | cons d r =>
            have hnot := dropWhile_head_not _ rest hd
            simp only [decide_eq_false_iff_not, not_lt] at hnot
            rw [hd] at hz hdw
            rcases List.mem_cons.mp hz with rfl | hz
            · exact hnot
            · have := (List.pairwise_cons.mp hdw).1 z hz
              omega
        refine List.pairwise_cons.mpr ⟨?_, List.pairwise_append.mpr ⟨htw, ?_, ?_⟩⟩
        · intro y hy
          rcases List.mem_append.mp hy with hy | hy
          · exact hh y (List.mem_append_left _ hy)
          · rcases List.mem_cons.mp hy with rfl | hy
            · omega
            · exact hh y (List.mem_append_right _ hy)
        · exact List.pairwise_cons.mpr ⟨hxd, hdw⟩
        · intro a ha b hb
          rcases List.mem_cons.mp hb with rfl | hb
          · have := List.mem_takeWhile_imp ha
            simp only [decide_eq_true_eq] at this
            omega
          · exact hcross a ha b hb

theorem byTime_of_dur {a b : Job} (ha : ∃ t, a.time = some t) (hb : ∃ t, b.time = some t)
    (h : a.dur ≤ b.dur) : ByTime a b := by
  obtain ⟨x, hx⟩ := ha
  obtain ⟨y, hy⟩ := hb
  refine ⟨x, y, hx, hy, ?_⟩
  rw [← Job.time_eq_dur hx, ← Job.time_eq_dur hy]; exact h

theorem dur_of_byTime {a b : Job} (h : ByTime a b) : a.dur ≤ b.dur := by
  obtain ⟨x, y, hx, hy, hxy⟩ := h
  rw [Job.time_eq_dur hx, Job.time_eq_dur hy]; exact hxy

/-- In a duration-sorted list whose head has a duration, every job has one. -/
theorem defined_of_sorted {hd : Job} {rest : List Job} (hs : (hd :: rest).Pairwise ByTime)
    (hh : ∃ t, hd.time = some t) : ∀ y ∈ hd :: rest, ∃ t, y.time = some t := by
  intro y hy
  rcases List.mem_cons.mp hy with rfl | hy
  · exact hh
  · obtain ⟨_, t, _, ht, _⟩ := (List.pairwise_cons.mp hs).1 y hy
    exact ⟨t, ht⟩

/-- The placement of `sortedinsert` keeps the cells sorted by duration. -/
theorem placeSJF_byTime {l : List (Nat × Job)} {x : Nat × Job}
    (hs : (l.map Prod.snd).Pairwise ByTime) (hl : ∀ y ∈ l, ∃ t, y.2.time = some t)
    (hx : l ≠ [] → ∃ t, x.2.time = some t) :
    ((placeSJF (fun y : Nat × Job => y.2.dur) x l).map Prod.snd).Pairwise ByTime := by
  cases l with
  | nil => simp [placeSJF]
  | cons h rest =>
    have hx' := hx (by simp)
    have hs1 : (h :: rest).Pairwise (fun a b : Nat × Job => a.2.dur ≤ b.2.dur) := by
      rw [List.pairwise_map] at hs
      exact hs.imp (fun hab => dur_of_byTime hab)
    have hs2 := placeSJF_sorted (fun y : Nat × Job => y.2.dur) x (h :: rest) hs1
    obtain ⟨l1, l2, e1, e2⟩ := placeSJF_split (fun y : Nat × Job => y.2.dur) x (h :: rest)
    have hall : ∀ y ∈ placeSJF (fun y : Nat × Job => y.2.dur) x (h :: rest),
        ∃ t, y.2.time = some t := by
      intro y hy
      rw [e2] at hy
      rcases List.mem_append.mp hy with hy | hy
      · exact hl y (by rw [e1]; exact List.mem_append_left _ hy)
      · rcases List.mem_cons.mp hy with rfl | hy
        · exact hx'
        · exact hl y (by rw [e1]; exact List.mem_append_right _ hy)
    rw [List.pairwise_map]
    exact hs2.imp_of_mem (fun ha hb hab => byTime_of_dur (hall _ ha) (hall _ hb) hab)

/-! ## Draining the queue -/

theorem SJFInv.defined {m : Mem} {q : queue} {hd : Nat × Job} {rest : List (Nat × Job)}
    (h : SJFInv m q (hd :: rest)) (hh : ∃ t, hd.2.time = some t) :
    ∀ y ∈ hd :: rest, ∃ t, y.2.time = some t := by
  intro y hy
  exact @defined_of_sorted hd.2 (rest.map Prod.snd) (by simpa using h.sorted) hh
    y.2 (by simpa using List.mem_map_of_mem Prod.snd hy)

/-! ## enqueue, whatever the scheduling type -/

/-- When `enqueue` returns on a well-formed queue (sorted, under SJF) with no
freed chunk waiting to be handed out, the new job stands somewhere among the old
cells, which keep their order. -/
theorem enqueue_some {m : Mem} {q : queue} {l : List (Nat × Job)} (h : Linked m q l)
    (hs : q.sched_type = SJF → (l.map Prod.snd).Pairwise ByTime) (hf : m.freed = [])
    {name : String} {args : List String} {m1 : Mem} {q1 : queue}
    (hr : enqueue name args m q = some (m1, q1)) :
    ∃ l1 l2, l = l1 ++ l2 ∧
      Linked m1 q1 (l1 ++ (m.brk, { pid := NO_PID, name := name, args := args }) :: l2) ∧
      q1.sched_type = q.sched_type ∧ m1.brk = m.brk + 1 ∧
      (q.sched_type = SJF →
        ((l1 ++ (m.brk, ({ pid := NO_PID, name := name, args := args } : Job)) :: l2).map
          Prod.snd).Pairwise ByTime) := by
  by_cases hq : q.sched_type = SJF
  · have hinv : SJFInv m q l := ⟨h, hq, hs hq⟩
    have hall : (∀ y ∈ l, ∃ t, y.2.time = some t) ∧
        (l ≠ [] → ∃ e, Job.time { pid := NO_PID, name := name, args := args } = some e) := by
      cases l with
      | nil => exact ⟨by simp, by simp⟩
      | cons hd rest =>
        obtain ⟨hh, hn⟩ := enqueue_sjf_defined h hf hq hr
        exact ⟨hinv.defined hh, fun _ => hn⟩
    obtain ⟨m2, q2, h1, h2, h3, h4⟩ := enqueue_sjf h hf hq name args hall.1 hall.2
    rw [hr] at h1
    simp only [Option.some.injEq, Prod.mk.injEq] at h1
    obtain ⟨rfl, rfl⟩ := h1
    have hsorted := placeSJF_byTime (x := (m.brk, ({ pid := NO_PID, name := name, args := args } : Job)))
      (hs hq) hall.1 hall.2
    obtain ⟨l1, l2, e1, e2⟩ := placeSJF_split (fun y : Nat × Job => y.2.dur)
      (m.brk, ({ pid := NO_PID, name := name, args := args } : Job)) l
    rw [e2] at h2 hsorted
    exact ⟨l1, l2, e1, h2, h4, h3, fun _ => hsorted⟩
  · obtain ⟨m2, q2, h1, h2, h3, h4⟩ := enqueue_fcfs h hf hq name args
    rw [hr] at h1
    simp only [Option.some.injEq, Prod.mk.injEq] at h1
    obtain ⟨rfl, rfl⟩ := h1
    exact ⟨l, [], by simp, h2, h4, h3, fun e => absurd e hq⟩

/-! ## runprocess -/

/-- Writing a pid into the head node keeps the queue well formed. -/
theorem Linked.set_head_pid {m : Mem} {q : queue} {x : Nat × Job} {rest : List (Nat × Job)}
    (h : Linked m q (x :: rest)) {n : node} (hn : m.cell x.1 = some n) (f : Int) :
    Linked (m.write x.1 { n with pid := f }) q
      ((x.1, { pid := f, name := x.2.name, args := x.2.args }) :: rest) := by
  obtain ⟨hp, n', hn', hj, hs⟩ := h.seg
  have hnn : n' = n := by rw [hn] at hn'; exact (Option.some.inj hn').symm
  subst hnn
  have hnd := h.nodup
  simp only [List.map_cons, List.nodup_cons] at hnd
  refine ⟨⟨hp, _, Mem.write_cell_same _ _ _, ?_, ?_⟩, h.last, h.nodup, ?_⟩
  · rw [← hj]; rfl
  · refine hs.frame (fun y hy => Mem.write_cell_ne _ _ ?_)
    intro e; exact hnd.1 (e ▸ List.mem_map_of_mem Prod.fst hy)
  · intro y hy
    rcases List.mem_cons.mp hy with rfl | hy
    · exact h.bound x (List.mem_cons_self _ _)
    · exact h.bound y (List.mem_cons_of_mem _ hy)

/-- The function `runprocess` does nothing when a process is current or the queue is empty. -/
theorem runprocess_noop (f : Int) (s : Shell)
    (h : s.curr_proc_pid ≠ NO_CURR_PID ∨ s.pid_list.head = none) : runprocess f s = some s := by
  unfold runprocess
  by_cases hh : s.pid_list.head = none
  · rw [if_pos hh]
  · rw [if_neg hh]
    rcases h with h | h
    · rw [if_pos h]
    · exact absurd h hh

/-- The function `runprocess` in an idle state with a non-empty well-formed queue: the head
node gets the pid `fork` returned and becomes the current process. -/
theorem runprocess_idle (f : Int) {s : Shell} {x : Nat × Job} {rest : List (Nat × Job)}
    (h : Linked s.mem s.pid_list (x :: rest)) (hc : s.curr_proc_pid = NO_CURR_PID) :
    ∃ n s1, s.mem.cell x.1 = some n ∧ n.job = x.2 ∧ runprocess f s = some s1 ∧
      s1.mem = s.mem.write x.1 { n with pid := f } ∧ s1.pid_list = s.pid_list ∧
      s1.sched_type = s.sched_type ∧
      s1.curr_proc_pid = f ∧ s1.curr_proc_node = some x.1 ∧
      s1.io_occupied = decide (x.2.args[3]? = none) ∧
      s1.fg_suspended = s.fg_suspended ∧ s1.run = s.run ∧ s1.exited = s.exited ∧
      s1.out = s.out ++ Event.fork f x.2.name x.2.args (decide (x.2.args[3]? = some "&")) ::
        (if x.2.args[3]? = none then [] else [Event.print (Msg.background x.2.name f)]) := by
  obtain ⟨hp, n, hn, hj, _⟩ := h.seg
  have hh : s.pid_list.head ≠ none := by rw [hp]; simp
  have hrun : runprocess f s = some { s with
      mem := s.mem.write x.1 { n with pid := f },
      curr_proc_node := some x.1,
      curr_proc_pid := f,
      io_occupied := decide (n.args[3]? = none),
      out := s.out ++ Event.fork f n.name n.args (decide (n.args[3]? = some "&")) ::
        (if n.args[3]? = none then [] else [Event.print (Msg.background n.name f)]) } := by
    unfold runprocess
    rw [if_neg hh, if_neg (by simp [hc]), hp]
    simp only [hn]
    by_cases hio : n.args[3]? = none
    · simp [hio]
    · simp [hio]
  rw [← hj]
  exact ⟨n, _, hn, rfl, hrun, rfl, rfl, rfl, rfl, rfl, rfl, rfl, rfl, rfl, rfl⟩

/-! ## The shell invariant -/

theorem Inv.of_eq {s s1 : Shell} {l : List (Nat × Job)} (h : Inv s l) (hm : s1.mem = s.mem)
    (hq : s1.pid_list = s.pid_list) (hc : s1.curr_proc_pid = s.curr_proc_pid) : Inv s1 l :=
  ⟨by rw [hm, hq]; exact h.linked, by rw [hq]; exact h.sorted, by rw [hc]; exact h.current,
    h.nonzero, h.single⟩

theorem inv_init (t : Int) : Inv (Shell.init t) [] :=
  ⟨linked_init t, fun _ => by simp, by simp, by simp, by simp⟩

theorem no_pid_not_assigned (name : String) (args : List String) :
    Job.assigned { pid := NO_PID, name := name, args := args } = false := by
  simp [Job.assigned]

theorem inv_enqueue {s : Shell} {l : List (Nat × Job)} (h : Inv s l)
    (hfr : s.mem.freed = []) {name : String}
    {args : List String} {m1 : Mem} {q1 : queue}
    (hr : enqueue name args s.mem s.pid_list = some (m1, q1)) :
    ∃ l1, Inv { s with mem := m1, pid_list := q1 } l1 := by
  obtain ⟨l1, l2, e, h1, h2, _, h4⟩ := enqueue_some h.linked h.sorted hfr hr
  refine ⟨_, ⟨h1, fun hq => h4 (h2 ▸ hq), ?_, ?_, ?_⟩⟩
  · intro x hx ha
    rcases List.mem_append.mp hx with hx | hx
    · exact h.current x (by rw [e]; exact List.mem_append_left _ hx) ha
    · rcases List.mem_cons.mp hx with rfl | hx
      · simp [no_pid_not_assigned] at ha
      · exact h.current x (by rw [e]; exact List.mem_append_right _ hx) ha
  · intro x hx
    rcases List.mem_append.mp hx with hx | hx
    · exact h.nonzero x (by rw [e]; exact List.mem_append_left _ hx)
    · rcases List.mem_cons.mp hx with rfl | hx
      · show NO_PID ≠ NO_CURR_PID
        decide
      · exact h.nonzero x (by rw [e]; exact List.mem_append_right _ hx)
  · have := h.single
    rw [e, List.filter_append] at this
    rw [List.filter_append, List.filter_cons_of_neg (by simp [no_pid_not_assigned])]
    exact this

theorem inv_runprocess {s : Shell} {l : List (Nat × Job)} (h : Inv s l) {f : Int} (hf : f ≠ 0)
    {s1 : Shell} (hr : runprocess f s = some s1) : ∃ l1, Inv s1 l1 := by
  by_cases hno : s.curr_proc_pid ≠ NO_CURR_PID ∨ s.pid_list.head = none
  · rw [runprocess_noop f s hno] at hr
    exact ⟨l, (Option.some.inj hr) ▸ h⟩
  · simp only [not_or, not_not] at hno
    obtain ⟨hc, hh⟩ := hno
    cases l with
    | nil => exact absurd (h.linked.head_none_iff.mpr rfl) hh
    | cons x rest =>
      obtain ⟨n, s2, hn, hj, hrun, hm, hq, _, hcp, _⟩ := runprocess_idle f h.linked hc
      rw [hrun] at hr
      have hs : s2 = s1 := Option.some.inj hr
      subst hs
      have hnone : ∀ y ∈ x :: rest, y.2.assigned = false := by
        intro y hy
        by_contra ha
        have ha' : y.2.assigned = true := by simpa using ha
        exact h.nonzero y hy ((h.current y hy ha').trans hc)
      refine ⟨(x.1, { pid := f, name := x.2.name, args := x.2.args }) :: rest, ?_, ?_, ?_, ?_, ?_⟩
      · rw [hm, hq]; exact h.linked.set_head_pid hn f
      · intro hsjf
        have := h.sorted (hq ▸ hsjf)
        simp only [List.map_cons] at this ⊢
        obtain ⟨h1, h2⟩ := List.pairwise_cons.mp this
        exact List.pairwise_cons.mpr ⟨fun b hb => h1 b hb, h2⟩
      · intro y hy ha
        rcases List.mem_cons.mp hy with rfl | hy
        · exact hcp.symm
        · rw [hnone y (List.mem_cons_of_mem _ hy)] at ha; simp at ha
      · intro y hy
        rcases List.mem_cons.mp hy with rfl | hy
        · exact hf
        · exact h.nonzero y (List.mem_cons_of_mem _ hy)
      · have hrest : rest.filter (fun y => y.2.assigned) = [] := by
          rw [List.filter_eq_nil_iff]
          intro y hy
          simp [hnone y (List.mem_cons_of_mem _ hy)]
        rw [List.filter_cons]
        split <;> simp [hrest]

/-! ## childdead -/

/-- The function `childdead`, once `delete` has returned: start the next job from the state
`afterDeath` when the queue is not empty and the shell still runs, else free
the terminal. -/
theorem childdead_eq (dead_pid status f : Int) (s : Shell) {m1 : Mem} {q1 : queue}
    (hd : delete dead_pid s.mem s.pid_list = some (m1, q1)) :
    childdead dead_pid status f s =
      if q1.head ≠ none ∧ s.run = true then
        runprocess f { afterDeath dead_pid status m1 q1 s with
          out := (afterDeath dead_pid status m1 q1 s).out ++ [Event.print Msg.newline] }
      else some { afterDeath dead_pid status m1 q1 s with io_occupied := false } := by
  unfold childdead afterDeath
  simp only [hd]
  by_cases hc : dead_pid = s.curr_proc_pid <;> by_cases hw : WEXITSTATUS status ≠ 0 <;>
    simp [hc, hw]

theorem inv_delete {s : Shell} {l : List (Nat × Job)} (h : Inv s l) (key : Int) :
    ∃ m1 q1, delete key s.mem s.pid_list = some (m1, q1) ∧
      Inv { s with mem := m1, pid_list := q1 } (l.eraseP (fun x => decide (x.2.pid = key))) := by
  obtain ⟨m1, q1, h1, h2, _, h4⟩ := delete_spec h.linked key
  refine ⟨m1, q1, h1, h2, ?_, ?_, ?_, ?_⟩
  · intro hq
    exact (h.sorted (h4 ▸ hq)).sublist ((List.eraseP_sublist l).map Prod.snd)
  · intro x hx ha
    exact h.current x (List.mem_of_mem_eraseP hx) ha
  · intro x hx
    exact h.nonzero x (List.mem_of_mem_eraseP hx)
  · exact le_trans ((List.eraseP_sublist l).filter _).length_le h.single

/-- After the current process has been deleted no queued job has an assigned pid. -/
theorem inv_none_assigned_after_delete {s : Shell} {l : List (Nat × Job)} (h : Inv s l) :
    ∀ x ∈ l.eraseP (fun x => decide (x.2.pid = s.curr_proc_pid)), x.2.assigned = false := by
  intro x hx
  by_contra ha
  have ha' : x.2.assigned = true := by simpa using ha
  have hxl : x ∈ l := List.mem_of_mem_eraseP hx
  have hxp : x.2.pid = s.curr_proc_pid := h.current x hxl ha'
  obtain ⟨a, l1, l2, hl1, hpa, e1, e2⟩ :=
    List.exists_of_eraseP (p := fun x => decide (x.2.pid = s.curr_proc_pid)) hxl (by simpa using hxp)
  rw [e2] at hx
  have hx2 : x ∈ l2 := by
    rcases List.mem_append.mp hx with hx | hx
    · exact absurd (by simpa using hxp) (hl1 x hx)
    · exact hx
  have haa : a.2.assigned = true := by
    have hap : a.2.pid = s.curr_proc_pid := by simpa using hpa
    have : x.2.pid ≠ NO_PID := by simpa [Job.assigned] using ha'
    simp only [Job.assigned, decide_eq_true_eq, hap, ← hxp]
    exact this
  have hs := h.single
  simp only [e1, List.filter_append, List.filter_cons, haa, if_true, List.length_append,
    List.length_cons] at hs
  have hx3 : x ∈ l2.filter (fun y => y.2.assigned) := List.mem_filter.mpr ⟨hx2, ha'⟩
  have hpos : 0 < (l2.filter (fun y => y.2.assigned)).length := List.length_pos_of_mem hx3
  omega

theorem inv_afterDeath {s : Shell} {l : List (Nat × Job)} (h : Inv s l) (dead_pid status : Int) :
    ∃ m1 q1, delete dead_pid s.mem s.pid_list = some (m1, q1) ∧
      Inv (afterDeath dead_pid status m1 q1 s)
        (l.eraseP (fun x => decide (x.2.pid = dead_pid))) := by
  obtain ⟨m1, q1, h1, h2⟩ := inv_delete h dead_pid
  refine ⟨m1, q1, h1, h2.linked, h2.sorted, ?_, h2.nonzero, h2.single⟩
  intro x hx ha
  by_cases hc : dead_pid = s.curr_proc_pid
  · subst hc
    rw [inv_none_assigned_after_delete h x hx] at ha
    simp at ha
  · show x.2.pid = if dead_pid = s.curr_proc_pid then NO_CURR_PID else s.curr_proc_pid
    rw [if_neg hc]
    exact h2.current x hx ha

theorem inv_childdead {s : Shell} {l : List (Nat × Job)} (h : Inv s l) (dead_pid status : Int)
    {f : Int} (hf : f ≠ 0) {s1 : Shell} (hr : childdead dead_pid status f s = some s1) :
    ∃ l1, Inv s1 l1 := by
  obtain ⟨m1, q1, h1, h2⟩ := inv_afterDeath h dead_pid status
  rw [childdead_eq dead_pid status f s h1] at hr
  split at hr
  · exact inv_runprocess (s := { afterDeath dead_pid status m1 q1 s with
      out := (afterDeath dead_pid status m1 q1 s).out ++ [Event.print Msg.newline] })
      (h2.of_eq rfl rfl rfl) hf hr
  · rw [← Option.some.inj hr]
    exact ⟨_, h2.of_eq rfl rfl rfl⟩

/-! ## Signal handlers -/

theorem ForkOK.tail {sg : Signal} {sigs : List Signal} (h : ForkOK (sg :: sigs)) : ForkOK sigs :=
  fun d st f hm => h d st f (List.mem_cons_of_mem _ hm)

theorem inv_handle (fuel : Nat) :
    (∀ (sg : Signal) (sigs : List Signal) (s : Shell) (l : List (Nat × Job)) (s1 : Shell)
        (rest : List Signal), Inv s l → ForkOK (sg :: sigs) →
        handle fuel sg sigs s = some (s1, rest) → (∃ l1, Inv s1 l1) ∧ ForkOK rest) ∧
    (∀ (sigs : List Signal) (s : Shell) (l : List (Nat × Job)) (s1 : Shell)
        (rest : List Signal), Inv s l → ForkOK sigs →
        cont.loop fuel sigs s = some (s1, rest) → (∃ l1, Inv s1 l1) ∧ ForkOK rest) := by
  induction fuel with
  | zero =>
    constructor
    · intro sg sigs s l s1 rest _ _ hr; simp [handle] at hr
    · intro sigs s l s1 rest _ _ hr; simp [cont.loop] at hr
  | succ fuel ih =>
    constructor
    · intro sg sigs s l s1 rest h hok hr
      cases sg with
      | chld d st f =>
        simp only [handle, Option.map_eq_some', Prod.mk.injEq] at hr
        obtain ⟨r, hr1, rfl, rfl⟩ := hr
        exact ⟨inv_childdead h d st (hok d st f (List.mem_cons_self _ _)) hr1, hok.tail⟩
      | tstp =>
        simp only [handle, Option.some.injEq, Prod.mk.injEq] at hr
        obtain ⟨rfl, rfl⟩ := hr
        exact ⟨⟨l, h.of_eq rfl rfl rfl⟩, hok.tail⟩
      | quit =>
        simp only [handle] at hr
        exact ih.2 sigs { s with fg_suspended := false, out := s.out ++ [Event.print Msg.waking] }
          l s1 rest (h.of_eq rfl rfl rfl) hok.tail hr
    · intro sigs s l s1 rest h hok hr
      simp only [cont.loop] at hr
      split at hr
      · cases sigs with
        | nil => simp at hr
        | cons sg rest0 =>
          simp only at hr
          cases hh : handle fuel sg rest0 s with
          | none => simp [hh] at hr
          | some r =>
            obtain ⟨s2, rest2⟩ := r
            simp only [hh] at hr
            obtain ⟨⟨l2, hl2⟩, hok2⟩ := ih.1 sg rest0 s l s2 rest2 h hok hh
            exact ih.2 rest2 s2 l2 s1 rest hl2 hok2 hr
      · simp only [Option.some.injEq, Prod.mk.injEq] at hr
        obtain ⟨rfl, rfl⟩ := hr
        exact ⟨⟨l, h⟩, hok⟩

theorem inv_pause {s s1 : Shell} {fuel : Nat} {w w1 : World}
    (hr : pause fuel w s = some (s1, w1)) {l : List (Nat × Job)} (h : Inv s l)
    (hok : ForkOK w.signals) :
    (∃ l1, Inv s1 l1) ∧ ForkOK w1.signals := by
  unfold pause at hr
  cases hs : w.signals with
  | nil => simp [hs] at hr
  | cons sg rest =>
    simp only [hs] at hr
    cases hh : handle fuel sg rest s with
    | none => simp [hh] at hr
    | some r =>
      obtain ⟨s2, rest2⟩ := r
      simp only [hh, Option.some.injEq, Prod.mk.injEq] at hr
      obtain ⟨rfl, rfl⟩ := hr
      exact (inv_handle fuel).1 sg rest s l s2 rest2 h (hs ▸ hok) hh

/-! ## mykill and myexit -/

theorem inv_terminate {s s1 : Shell} {pid : Int} {fuel : Nat} {w w1 : World}
    (hr : mykill.terminate pid fuel w s = some (s1, w1)) {l : List (Nat × Job)} (h : Inv s l)
    (hok : ForkOK w.signals) :
    (∃ l1, Inv s1 l1) ∧ ForkOK w1.signals := by
  unfold mykill.terminate at hr
  split at hr
  · simp only [Option.some.injEq, Prod.mk.injEq] at hr
    obtain ⟨rfl, rfl⟩ := hr
    exact ⟨⟨l, h.of_eq rfl rfl rfl⟩, hok⟩
  · cases hk : w.kills with
    | nil => simp [hk] at hr
    | cons ret kills =>
      simp only [hk] at hr
      split at hr
      · simp only [Option.some.injEq, Prod.mk.injEq] at hr
        obtain ⟨rfl, rfl⟩ := hr
        exact ⟨⟨l, h.of_eq rfl rfl rfl⟩, hok⟩
      · obtain ⟨m1, q1, h1, h2⟩ := inv_delete h pid
        simp only [h1] at hr
        exact inv_pause hr (h2.of_eq rfl rfl rfl) hok

theorem inv_mykill {s : Shell} {l : List (Nat × Job)} (h : Inv s l) {my_pid pid : Int}
    {fuel : Nat} {w w1 : World} (hok : ForkOK w.signals) {s1 : Shell}
    (hr : mykill my_pid pid fuel w s = some (s1, w1)) :
    (∃ l1, Inv s1 l1) ∧ ForkOK w1.signals := by
  unfold mykill at hr
  split at hr
  · cases ha : ask false w.stdin with
    | none => simp [ha] at hr
    | some r =>
      obtain ⟨answer, rest, n⟩ := r
      simp only [ha] at hr
      split at hr
      · simp only [Option.some.injEq, Prod.mk.injEq] at hr
        obtain ⟨rfl, rfl⟩ := hr
        exact ⟨⟨l, h.of_eq rfl rfl rfl⟩, hok⟩
      · split at hr
        · simp only [Option.some.injEq, Prod.mk.injEq] at hr
          obtain ⟨rfl, rfl⟩ := hr
          exact ⟨⟨l, h.of_eq rfl rfl rfl⟩, hok⟩
        · exact inv_terminate hr (h.of_eq rfl rfl rfl) hok
  · exact inv_terminate hr h hok

theorem inv_myexit_loop (my_pid : Int) (fuel : Nat) :
    ∀ {w : World} {s s1 : Shell} {w1 : World}, myexit.loop my_pid fuel w s = some (s1, w1) →
      ∀ {l : List (Nat × Job)}, Inv s l → ForkOK w.signals →
      (∃ l1, Inv s1 l1) ∧ ForkOK w1.signals := by
  induction fuel with
  | zero => intro w s s1 w1 hr; simp [myexit.loop] at hr
  | succ fuel ih =>
    intro w s s1 w1 hr l h hok
    simp only [myexit.loop] at hr
    cases l with
    | nil =>
      have hh : s.pid_list.head = none := h.linked.head_none_iff.mpr rfl
      simp only [hh, Option.some.injEq, Prod.mk.injEq] at hr
      obtain ⟨rfl, rfl⟩ := hr
      exact ⟨⟨[], h⟩, hok⟩
    | cons x rest =>
      obtain ⟨hp, n, hn, hj, _⟩ := h.linked.seg
      simp only [hp, hn] at hr
      split at hr
      · obtain ⟨m1, q1, h1, h2, _, h4⟩ := (dequeue_spec h.linked).2 x rest rfl
        simp only [h1] at hr
        refine ih hr (l := rest) ⟨h2, ?_, ?_, ?_, ?_⟩ hok
        · intro hq
          have := h.sorted (h4 ▸ hq)
          simp only [List.map_cons] at this
          exact (List.pairwise_cons.mp this).2
        · intro y hy ha
          exact h.current y (List.mem_cons_of_mem _ hy) ha
        · intro y hy
          exact h.nonzero y (List.mem_cons_of_mem _ hy)
        · exact le_trans ((List.sublist_cons_self x rest).filter _).length_le h.single
      · cases hm : mykill my_pid n.pid fuel w s with
        | none => simp [hm] at hr
        | some r =>
          obtain ⟨s2, w2⟩ := r
          simp only [hm] at hr
          obtain ⟨⟨l2, hl2⟩, hok2⟩ := inv_mykill h hok hm
          exact ih hr hl2 hok2

theorem inv_myexit {s : Shell} {l : List (Nat × Job)} (h : Inv s l) {my_pid : Int}
    {fuel : Nat} {w w1 : World} (hok : ForkOK w.signals) {s1 : Shell}
    (hr : myexit my_pid fuel w s = some (s1, w1)) :
    (∃ l1, Inv s1 l1) ∧ ForkOK w1.signals := by
  unfold myexit at hr
  split at hr
  · simp only [Option.some.injEq, Prod.mk.injEq] at hr
    obtain ⟨rfl, rfl⟩ := hr
    exact ⟨⟨l, h.of_eq rfl rfl rfl⟩, hok⟩
  · cases ha : ask true w.stdin with
    | none => simp [ha] at hr
    | some r =>
      obtain ⟨answer, rest, n⟩ := r
      simp only [ha] at hr
      split at hr
      · by_cases hn : answer = 'n'
        · simp only [hn, if_true] at hr
          exact inv_myexit_loop my_pid fuel hr (h.of_eq rfl rfl rfl) hok
        · simp only [hn, if_false] at hr
          exact inv_myexit_loop my_pid fuel hr (h.of_eq rfl rfl rfl) hok
      · simp only [Option.some.injEq, Prod.mk.injEq] at hr
        obtain ⟨rfl, rfl⟩ := hr
        refine ⟨⟨l, ?_⟩, hok⟩
        split
        · exact h.of_eq rfl rfl rfl
        · exact h.of_eq rfl rfl rfl

/-! ## ps -/

/-- On a chain, the loop of `ps` prints the jobs that have an assigned pid. -/
theorem ps_loop_spec {m : Mem} {l : List (Nat × Job)} :
    ∀ {p : Option Nat} (fuel : Nat), Seg m p l none → l.length ≤ fuel →
      ps.loop m fuel p = some (((l.map Prod.snd).filter Job.assigned).map
        (fun j => (j.pid, j.name))) := by
  induction l with
  | nil =>
    intro p fuel h _
    have : p = none := h
    subst this
    cases fuel <;> rfl
  | cons x l ih =>
    intro p fuel h hf
    obtain ⟨hp, n, hn, hj, hs⟩ := h
    subst hp
    cases fuel with
    | zero => simp at hf
    | succ fuel =>
      have hl : l.length ≤ fuel := by simpa using hf
      have hpid : n.pid = x.2.pid := by rw [← hj]; rfl
      have hname : n.name = x.2.name := by rw [← hj]; rfl
      simp only [ps.loop, hn, ih fuel hs hl, Option.map_some', List.map_cons, List.filter_cons,
        Job.assigned, hpid, hname]
      by_cases ha : x.2.pid ≠ NO_PID
      · simp [ha]
      · simp [ha]

theorem linked_sample : Linked Shell.sample.mem Shell.sample.pid_list Shell.sampleCells :=
  ⟨⟨rfl, ⟨100, "a", ["a", "1", "2"], some 1⟩, rfl, rfl, rfl,
      ⟨NO_PID, "b", ["b", "3", "2"], none⟩, rfl, rfl, rfl⟩, rfl, by decide, by decide⟩

/-- The function `runprocess` returns on every well-formed queue. -/
theorem runprocess_total (f : Int) {s : Shell} {l : List (Nat × Job)}
    (h : Linked s.mem s.pid_list l) : ∃ s1, runprocess f s = some s1 := by
  by_cases hno : s.curr_proc_pid ≠ NO_CURR_PID ∨ s.pid_list.head = none
  · exact ⟨s, runprocess_noop f s hno⟩
  · simp only [not_or, not_not] at hno
    cases l with
    | nil => exact absurd (h.head_none_iff.mpr rfl) hno.2
    | cons x rest =>
      obtain ⟨n, s1, _, _, h1, _⟩ := runprocess_idle f h hno.1
      exact ⟨s1, h1⟩

/-- The function `runprocess` only appends to the record of effects. -/
theorem runprocess_with_out (f : Int) (s : Shell) (o : List Event) :
    runprocess f { s with out := o } =
      (runprocess f { s with out := [] }).map (fun r => { r with out := o ++ r.out }) := by
  unfold runprocess
  by_cases hh : s.pid_list.head = none
  · simp [hh]
  · by_cases hc : s.curr_proc_pid ≠ NO_CURR_PID
    · simp [hh, hc]
    · simp only [hh, hc, if_false]
      cases hhd : s.pid_list.head with
      | none => exact absurd hhd hh
      | some a =>
        simp only
        cases hn : s.mem.cell a with
        | none => simp
        | some n =>
          simp only
          by_cases hio : n.args[3]? = none
          · simp [hio]
          · simp [hio]

/-! ## mykill on a pid that is not the shell -/

/-- After the first node with an assigned pid `key` has been deleted, no queued
job carries `key`. -/
theorem inv_key_absent_after_delete {s : Shell} {l : List (Nat × Job)} (h : Inv s l) {key : Int}
    (hkey : key ≠ NO_PID) :
    ∀ x ∈ l.eraseP (fun x => decide (x.2.pid = key)), x.2.pid ≠ key := by
  intro x hx hxp
  have hxl : x ∈ l := List.mem_of_mem_eraseP hx
  have hxa : x.2.assigned = true := by simp [Job.assigned, hxp, hkey]
  obtain ⟨a, l1, l2, hl1, hpa, e1, e2⟩ :=
    List.exists_of_eraseP (p := fun x => decide (x.2.pid = key)) hxl (by simpa using hxp)
  rw [e2] at hx
  have hx2 : x ∈ l2 := by
    rcases List.mem_append.mp hx with hx | hx
    · exact absurd (by simpa using hxp) (hl1 x hx)
    · exact hx
  have haa : a.2.assigned = true := by
    have hap : a.2.pid = key := by simpa using hpa
    simp [Job.assigned, hap, hkey]
  have hs := h.single
  simp only [e1, List.filter_append, List.filter_cons, haa, if_true, List.length_append,
    List.length_cons] at hs
  have hx3 : x ∈ l2.filter (fun y => y.2.assigned) := List.mem_filter.mpr ⟨hx2, hxa⟩
  have hpos : 0 < (l2.filter (fun y => y.2.assigned)).length := List.length_pos_of_mem hx3
  omega

/-- The function `mykill` on a pid that is not the shell's skips the question. -/
theorem mykill_other {my_pid pid : Int} (hne : my_pid ≠ pid) (fuel : Nat) (w : World)
    (s : Shell) : mykill my_pid pid fuel w s = mykill.terminate pid fuel w s := by
  unfold mykill
  rw [if_neg hne]

/-- The function `mykill.terminate` when `kill` fails. -/
theorem terminate_fail {pid : Int} (hpos : 0 < pid) (fuel : Nat) {w : World} (s : Shell)
    {ret : Int} {kills : List Int} (hk : w.kills = ret :: kills) (hret : ret ≠ 0) :
    mykill.terminate pid fuel w s =
      some ({ s with out := s.out ++ [Event.kill pid ret, Event.print (Msg.unableToKill pid)] },
        { w with kills := kills }) := by
  unfold mykill.terminate
  rw [if_neg (by omega)]
  simp [hk, hret]

/-- The function `mykill.terminate` when `kill` succeeds and `delete` returns. -/
theorem terminate_ok {pid : Int} (hpos : 0 < pid) (fuel : Nat) {w : World} (s : Shell)
    {kills : List Int} (hk : w.kills = 0 :: kills) {m1 : Mem} {q1 : queue}
    (hd : delete pid s.mem s.pid_list = some (m1, q1)) :
    mykill.terminate pid fuel w s =
      pause fuel { w with kills := kills }
        { s with mem := m1, pid_list := q1,
                 out := s.out ++ [Event.kill pid 0, Event.print (Msg.killed pid)] } := by
  unfold mykill.terminate
  rw [if_neg (by omega)]
  simp [hk, hd]

/-! ## The flag `run` -/

theorem runprocess_run {f : Int} {s s1 : Shell} (hr : runprocess f s = some s1) :
    s1.run = s.run := by
  unfold runprocess at hr
  by_cases hh : s.pid_list.head = none
  · rw [if_pos hh] at hr
    rw [← Option.some.inj hr]
  · by_cases hc : s.curr_proc_pid ≠ NO_CURR_PID
    · rw [if_neg hh, if_pos hc] at hr
      rw [← Option.some.inj hr]
    · rw [if_neg hh, if_neg hc] at hr
      cases hhd : s.pid_list.head with
      | none => exact absurd hhd hh
      | some a =>
        simp only [hhd] at hr
        cases hn : s.mem.cell a with
        | none => simp [hn] at hr
        | some n =>
          simp only [hn] at hr
          by_cases hio : n.args[3]? = none
          · simp only [hio, decide_True, if_true, Option.some.injEq] at hr
            rw [← hr]
          · simp only [hio, decide_False, Bool.false_eq_true, if_false, Option.some.injEq] at hr
            rw [← hr]

theorem childdead_run {d st f : Int} {s s1 : Shell} (hr : childdead d st f s = some s1) :
    s1.run = s.run := by
  cases hd : delete d s.mem s.pid_list with
  | none => simp [childdead, hd] at hr
  | some r =>
    obtain ⟨m1, q1⟩ := r
    rw [childdead_eq d st f s hd] at hr
    split at hr
    · have := runprocess_run hr
      exact this
    · rw [← Option.some.inj hr]; rfl

theorem run_handle (fuel : Nat) :
    (∀ (sg : Signal) (sigs : List Signal) (s s1 : Shell) (rest : List Signal),
        handle fuel sg sigs s = some (s1, rest) → s1.run = s.run) ∧
    (∀ (sigs : List Signal) (s s1 : Shell) (rest : List Signal),
        cont.loop fuel sigs s = some (s1, rest) → s1.run = s.run) := by
  induction fuel with
  | zero =>
    constructor
    · intro sg sigs s s1 rest hr; simp [handle] at hr
    · intro sigs s s1 rest hr; simp [cont.loop] at hr
  | succ fuel ih =>
    constructor
    · intro sg sigs s s1 rest hr
      cases sg with
      | chld d st f =>
        simp only [handle, Option.map_eq_some', Prod.mk.injEq] at hr
        obtain ⟨r, hr1, rfl, rfl⟩ := hr
        exact childdead_run hr1
      | tstp =>
        simp only [handle, Option.some.injEq, Prod.mk.injEq] at hr
        obtain ⟨rfl, rfl⟩ := hr
        rfl
      | quit =>
        simp only [handle] at hr
        have := ih.2 sigs _ s1 rest hr
        exact this
    · intro sigs s s1 rest hr
      simp only [cont.loop] at hr
      split at hr
      · cases sigs with
        | nil => simp at hr
        | cons sg rest0 =>
          simp only at hr
          cases hh : handle fuel sg rest0 s with
          | none => simp [hh] at hr
          | some r =>
            obtain ⟨s2, rest2⟩ := r
            simp only [hh] at hr
            exact (ih.2 rest2 s2 s1 rest hr).trans (ih.1 sg rest0 s s2 rest2 hh)
      · simp only [Option.some.injEq, Prod.mk.injEq] at hr
        obtain ⟨rfl, rfl⟩ := hr
        rfl

theorem pause_run {fuel : Nat} {w w1 : World} {s s1 : Shell}
    (hr : pause fuel w s = some (s1, w1)) : s1.run = s.run := by
  unfold pause at hr
  cases hs : w.signals with
  | nil => simp [hs] at hr
  | cons sg rest =>
    simp only [hs] at hr
    cases hh : handle fuel sg rest s with
    | none => simp [hh] at hr
    | some r =>
      obtain ⟨s2, rest2⟩ := r
      simp only [hh, Option.some.injEq, Prod.mk.injEq] at hr
      obtain ⟨rfl, rfl⟩ := hr
      exact (run_handle fuel).1 sg rest s s2 rest2 hh

theorem terminate_run {pid : Int} {fuel : Nat} {w w1 : World} {s s1 : Shell}
    (hr : mykill.terminate pid fuel w s = some (s1, w1)) : s1.run = s.run := by
  unfold mykill.terminate at hr
  split at hr
  · simp only [Option.some.injEq, Prod.mk.injEq] at hr
    obtain ⟨rfl, rfl⟩ := hr
    rfl
  · cases hk : w.kills with
    | nil => simp [hk] at hr
    | cons ret kills =>
      simp only [hk] at hr
      split at hr
      · simp only [Option.some.injEq, Prod.mk.injEq] at hr
        obtain ⟨rfl, rfl⟩ := hr
        rfl
      · split at hr
        · simp at hr
        · have := pause_run hr
          exact this

/-- The functions called by `myexit` never set `run` again. -/
theorem mykill_run_false {my_pid pid : Int} {fuel : Nat} {w w1 : World} {s s1 : Shell}
    (hr : mykill my_pid pid fuel w s = some (s1, w1)) (h : s.run = false) : s1.run = false := by
  unfold mykill at hr
  split at hr
  · cases ha : ask false w.stdin with
    | none => simp [ha] at hr
    | some r =>
      obtain ⟨answer, rest, n⟩ := r
      simp only [ha] at hr
      split at hr
      · simp only [Option.some.injEq, Prod.mk.injEq] at hr
        obtain ⟨rfl, rfl⟩ := hr
        rfl
      · split at hr
        · simp only [Option.some.injEq, Prod.mk.injEq] at hr
          obtain ⟨rfl, rfl⟩ := hr
          exact h
        · exact (terminate_run hr).trans h
  · exact (terminate_run hr).trans h

theorem myexit_loop_run_false (my_pid : Int) (fuel : Nat) :
    ∀ {w : World} {s s1 : Shell} {w1 : World}, myexit.loop my_pid fuel w s = some (s1, w1) →
      s.run = false → s1.run = false := by
  induction fuel with
  | zero => intro w s s1 w1 hr; simp [myexit.loop] at hr
  | succ fuel ih =>
    intro w s s1 w1 hr h
    simp only [myexit.loop] at hr
    split at hr
    · simp only [Option.some.injEq, Prod.mk.injEq] at hr
      obtain ⟨rfl, rfl⟩ := hr
      exact h
    · split at hr
      · simp at hr
      · split at hr
        · split at hr
          · simp at hr
          · exact ih hr h
        · split at hr
          · simp at hr
          · rename_i s2 w2 hm
            exact ih hr (mykill_run_false hm h)

/-- While `kill` fails on the launched job at the head, the loop of `myexit`
does not return, whatever the fuel. -/
theorem myexit_loop_kill_fails (fuel : Nat) :
    ∀ (k : Nat) (w : World) (s : Shell), s.mem = Shell.sample.mem →
      s.pid_list = Shell.sample.pid_list → w.kills = List.replicate k (-1) →
      myexit.loop 7 fuel w s = none := by
  induction fuel with
  | zero => intro k w s _ _ _; rfl
  | succ fuel ih =>
    intro k w s hm hq hk
    have hhead : s.pid_list.head = some 0 := by rw [hq]; rfl
    have hcell : s.mem.cell 0 = some ⟨100, "a", ["a", "1", "2"], some 1⟩ := by rw [hm]; rfl
    simp only [myexit.loop, hhead, hcell]
    rw [if_neg (by decide), mykill_other (by decide)]
    cases k with
    | zero =>
      have hk0 : w.kills = [] := by simpa using hk
      simp [mykill.terminate, hk0]
    | succ k =>
      have hk1 : w.kills = (-1) :: List.replicate k (-1) := by
        simpa [List.replicate_succ] using hk
      rw [terminate_fail (by decide) fuel s hk1 (by decide)]
      exact ih k _ _ hm hq rfl

theorem ask_answer (lower : Bool) :
    ∀ (cs : List Char) {a : Char} {rest : List Char} {n : Nat},
      ask lower cs = some (a, rest, n) → a = 'y' ∨ a = 'n' := by
  intro cs
  induction cs with
  | nil => intro a rest n h; simp [ask] at h
  | cons c cs ih =>
    intro a rest n h
    simp only [ask] at h
    split at h
    · exact ih h
    · generalize (if lower = true then c.toLower else c) = ans at h
      split at h
      · rename_i hyn
        simp only [Option.some.injEq, Prod.mk.injEq] at h
        rw [← h.1]; exact hyn
      · simp only [Option.map_eq_some'] at h
        obtain ⟨r, hr, he⟩ := h
        obtain ⟨a', rest', n'⟩ := r
        simp only [Prod.mk.injEq] at he
        rw [← he.1]
        exact ih hr

/-! ## atoi on decimal numerals -/

theorem digitChar_toNat : ∀ d : Fin 10, (digitChar d).toNat = 48 + d.val := by decide

theorem digitChar_not_space : ∀ d : Fin 10, isspace (digitChar d) = false := by decide

theorem digitChar_not_sign : ∀ d : Fin 10, digitChar d ≠ '-' ∧ digitChar d ≠ '+' := by decide

/-- The digits of a numeral are read by Horner's rule. -/
theorem digitsVal_map (ds : List (Fin 10)) :
    ∀ acc : Nat, digitsVal (ds.map digitChar) acc =
      acc * 10 ^ ds.length + Nat.ofDigits 10 (ds.reverse.map Fin.val) := by
  induction ds with
  | nil => intro acc; simp [digitsVal]
  | cons d ds ih =>
    intro acc
    have hd := digitChar_toNat d
    simp only [List.map_cons, digitsVal, hd]
    rw [if_pos (by omega), ih]
    simp only [List.reverse_cons, List.map_append, List.map_cons, List.map_nil,
      Nat.ofDigits_append, Nat.ofDigits_singleton, List.length_map, List.length_reverse,
      List.length_cons]
    have : 48 + d.val - 48 = d.val := by omega
    rw [this]
    ring

theorem atoi_mk_of_digit (c : Char) (cs : List Char) (hsp : isspace c = false)
    (hm : c ≠ '-') (hp : c ≠ '+') :
    atoi (String.mk (c :: cs)) = wrap32 (clamp64 (digitsVal (c :: cs) 0 : Int)) := by
  unfold atoi
  simp only [List.dropWhile, hsp]
  split
  · rename_i h; simp only [List.cons.injEq] at h; exact absurd h.1 hm
  · rename_i h; simp only [List.cons.injEq] at h; exact absurd h.1 hp
  · rfl

theorem atoi_mk_minus (cs : List Char) :
    atoi (String.mk ('-' :: cs)) = wrap32 (clamp64 (-(digitsVal cs 0 : Int))) := by
  unfold atoi
  have : isspace '-' = false := by decide
  simp only [List.dropWhile, this]

/-- The function `atoi` reads a decimal numeral as its value, clamped and truncated. -/
theorem atoi_numeral (neg : Bool) (ds : List (Fin 10)) :
    atoi (numeral neg ds) = wrap32 (clamp64 (numeralValue neg ds)) := by
  cases neg with
  | true =>
    have := digitsVal_map ds 0
    simp only [numeral, numeralValue, if_true, List.singleton_append, atoi_mk_minus, this]
    simp
  | false =>
    cases ds with
    | nil => simp [numeral, numeralValue, atoi, digitsVal, Nat.ofDigits]
    | cons d ds =>
      have := digitsVal_map (d :: ds) 0
      simp only [List.map_cons] at this
      simp only [numeral, numeralValue, Bool.false_eq_true, if_false, List.nil_append,
        List.map_cons]
      rw [atoi_mk_of_digit _ _ (digitChar_not_space d) (digitChar_not_sign d).1
        (digitChar_not_sign d).2, this]
      simp

theorem wrap32_of_range {v : Int} (h1 : -2 ^ 31 ≤ v) (h2 : v < 2 ^ 31) : wrap32 v = v := by
  unfold wrap32
  have : (v + 2 ^ 31) % 2 ^ 32 = v + 2 ^ 31 := Int.emod_eq_of_lt (by omega) (by omega)
  omega

theorem clamp64_of_range {v : Int} (h1 : -2 ^ 31 ≤ v) (h2 : v < 2 ^ 31) : clamp64 v = v := by
  unfold clamp64
  rw [if_neg (by omega), if_neg (by omega)]

theorem evaltime_args (pid : Int) (name a0 a1 a2 : String) (rest : List String)
    (next : Option Nat) :
    evaltime ⟨pid, name, a0 :: a1 :: a2 :: rest, next⟩ = some (wrap32 (atoi a1 * atoi a2)) := by
  simp [evaltime]

/-! ## Queue operations under either policy -/

/-- Whatever the heap holds, the queue `initqueue` returns is well formed and empty. -/
theorem linked_initqueue (m : Mem) (t : Int) : Linked m (initqueue t) [] :=
  ⟨rfl, rfl, List.nodup_nil, by simp⟩

/-- The function `enqueue` on an empty queue, under either policy and with no
freed chunk waiting: head and tail are the new node. -/
theorem enqueue_empty {m : Mem} {q : queue} (h : Linked m q []) (hf : m.freed = [])
    (name : String) (args : List String) :
    ∃ m1 q1, enqueue name args m q = some (m1, q1) ∧ q1.head = some m.brk ∧
      q1.tail = some m.brk ∧
      Linked m1 q1 [(m.brk, { pid := NO_PID, name := name, args := args })] := by
  by_cases hq : q.sched_type = SJF
  · obtain ⟨m1, q1, h1, h2, _, _⟩ := enqueue_sjf h hf hq name args (by simp) (by simp)
    have h2' : Linked m1 q1 [(m.brk, { pid := NO_PID, name := name, args := args })] := h2
    exact ⟨m1, q1, h1, h2'.head_eq, h2'.last, h2'⟩
  · obtain ⟨m1, q1, h1, h2, _, _⟩ := enqueue_fcfs h hf hq name args
    have h2' : Linked m1 q1 [(m.brk, { pid := NO_PID, name := name, args := args })] := h2
    exact ⟨m1, q1, h1, h2'.head_eq, h2'.last, h2'⟩

/-! ## cont -/

/-- When the loop of `cont` returns, no process is current or the flag
`fg_suspended` is set. -/
theorem cont_loop_exit (fuel : Nat) :
    ∀ (sigs : List Signal) (s s1 : Shell) (rest : List Signal),
      cont.loop fuel sigs s = some (s1, rest) →
      s1.curr_proc_pid = NO_CURR_PID ∨ s1.fg_suspended = true := by
  induction fuel with
  | zero => intro sigs s s1 rest hr; simp [cont.loop] at hr
  | succ fuel ih =>
    intro sigs s s1 rest hr
    simp only [cont.loop] at hr
    split at hr
    · cases sigs with
      | nil => simp at hr
      | cons sg rest0 =>
        simp only at hr
        cases hh : handle fuel sg rest0 s with
        | none => simp [hh] at hr
        | some r =>
          obtain ⟨s2, rest2⟩ := r
          simp only [hh] at hr
          exact ih rest2 s2 s1 rest hr
    · rename_i hc
      simp only [Option.some.injEq, Prod.mk.injEq] at hr
      obtain ⟨rfl, rfl⟩ := hr
      by_cases h0 : s.curr_proc_pid = NO_CURR_PID
      · exact Or.inl h0
      · right
        by_contra hf
        exact hc ⟨h0, hf⟩

/-! ## enqueue on any well-formed queue -/

/-- When the scan of `sortedinsert` returns a cell, that cell is one of the
chain, and it is the start of the scan or a cell with a duration below `e`. -/
theorem scan_some {m : Mem} {e : Int} {c1 : Nat} {rest : List (Nat × Job)} :
    ∀ (x : Nat × Job) (fuel : Nat), Seg m (some x.1) (x :: rest) none →
      sortedinsert.scan m e fuel x.1 = some c1 →
      ∃ pre c post, x :: rest = pre ++ c :: post ∧ c.1 = c1 ∧ (pre = [] ∨ c.2.dur < e) := by
  induction rest with
  | nil =>
    intro x fuel h hr
    obtain ⟨_, n, hn, _, hs⟩ := h
    have hnx : n.next = none := hs
    cases fuel with
    | zero => simp [sortedinsert.scan] at hr
    | succ fuel =>
      simp only [sortedinsert.scan, hn, hnx, Option.some.injEq] at hr
      exact ⟨[], x, [], rfl, hr, Or.inl rfl⟩
  | cons y rest ih =>
    intro x fuel h hr
    obtain ⟨_, n, hn, _, hs⟩ := h
    have hs1 := hs
    obtain ⟨hnx, yn, hyn, hyj, _⟩ := hs1
    have hev : evaltimeAt m (some y.1) = y.2.time := by
      simp [evaltimeAt, hyn, evaltime_eq_time, hyj]
    cases fuel with
    | zero => simp [sortedinsert.scan] at hr
    | succ fuel =>
      simp only [sortedinsert.scan, hn, hnx, hev] at hr
      cases ht : y.2.time with
      | none => simp [ht] at hr
      | some t =>
        simp only [ht] at hr
        by_cases hlt : t < e
        · rw [if_pos hlt] at hr
          obtain ⟨pre, c, post, h1, h2, h3⟩ := ih y fuel (hnx ▸ hs) hr
          refine ⟨x :: pre, c, post, by rw [h1]; rfl, h2, Or.inr ?_⟩
          rcases h3 with h3 | h3
          · subst h3
            have hc : c = y := by
              simp only [List.nil_append, List.cons.injEq] at h1
              exact h1.1.symm
            rw [hc, Job.time_eq_dur ht]; exact hlt
          · exact h3
        · rw [if_neg hlt] at hr
          exact ⟨[], x, y :: rest, rfl, Option.some.inj hr, Or.inl rfl⟩

/-- Linking a new node before the head of a well-formed queue that is not empty. -/
theorem Linked.link_front {m : Mem} {q : queue} {hd : Nat × Job} {rest : List (Nat × Job)}
    (h : Linked m q (hd :: rest)) {a : Nat} {ni : node} (hfresh : a ∉ (hd :: rest).map Prod.fst)
    (hb : a < m.brk) :
    Linked (m.write a { ni with next := q.head }) { q with head := some a }
      ((a, ni.job) :: hd :: rest) := by
  have hnd := h.nodup
  refine ⟨⟨rfl, _, Mem.write_cell_same _ _ _, rfl, ?_⟩, ?_, ?_, ?_⟩
  · refine h.seg.frame (fun y hy => Mem.write_cell_ne _ _ ?_)
    intro e1; exact hfresh (e1 ▸ List.mem_map_of_mem _ hy)
  · show q.tail = _
    rw [h.last]; simp
  · simp only [List.map_cons, List.nodup_cons] at hnd hfresh ⊢
    exact ⟨by simpa using hfresh, hnd⟩
  · intro y hy
    rcases List.mem_cons.mp hy with rfl | hy
    · exact hb
    · exact h.bound y hy

/-- Linking a new node behind a cell of a well-formed queue that is not the last. -/
theorem Linked.link_after {m : Mem} {q : queue} {pre post : List (Nat × Job)} {c : Nat × Job}
    (hl : Linked m q (pre ++ c :: post)) (hpost : post ≠ []) {a : Nat} {ni cn : node}
    (hcn : m.cell c.1 = some cn) (hfr : a ∉ (pre ++ c :: post).map Prod.fst) (hb : a < m.brk) :
    Linked ((m.write a { ni with next := cn.next }).write c.1 { cn with next := some a }) q
      (pre ++ c :: (a, ni.job) :: post) := by
  obtain ⟨midc, hsp, hsc⟩ := Seg.append.mp hl.seg
  obtain ⟨hmidc, cn1, hcn1, hcj, hspost⟩ := hsc
  have hcc : cn1 = cn := Option.some.inj (hcn1.symm.trans hcn)
  subst hcc
  have hnd1 := hl.nodup
  simp only [List.map_append, List.map_cons] at hfr hnd1
  obtain ⟨hnd1, hnd2, hdis⟩ := List.nodup_append.mp hnd1
  obtain ⟨hc2, hnd2⟩ := List.nodup_cons.mp hnd2
  have hac : a ≠ c.1 := fun e1 => hfr (by simp [e1])
  have hcell : ∀ b, b ≠ a → b ≠ c.1 →
      ((m.write a { ni with next := cn1.next }).write c.1
        { cn1 with next := some a }).cell b = m.cell b := by
    intro b hb1 hb2
    rw [Mem.write_cell_ne _ _ hb2, Mem.write_cell_ne _ _ hb1]
  refine ⟨?_, ?_, ?_, ?_⟩
  · refine Seg.append.mpr ⟨midc, ?_, hmidc, _, Mem.write_cell_same _ _ _, hcj, rfl,
      { ni with next := cn1.next }, ?_, rfl, ?_⟩
    · refine hsp.frame (fun y hy => hcell _ ?_ ?_)
      · intro e1; exact hfr (by simp [← e1, List.mem_map_of_mem Prod.fst hy])
      · intro e1; exact hdis (List.mem_map_of_mem Prod.fst hy) (by simp [e1])
    · rw [Mem.write_cell_ne _ _ hac, Mem.write_cell_same]
    · refine hspost.frame (fun y hy => hcell _ ?_ ?_)
      · intro e1; exact hfr (by simp [← e1, List.mem_map_of_mem Prod.fst hy])
      · intro e1; exact hc2 (e1 ▸ List.mem_map_of_mem Prod.fst hy)
  · show q.tail = _
    rw [hl.last]
    cases post with
    | nil => exact absurd rfl hpost
    | cons z post1 => simp
  · simp only [List.map_append, List.map_cons]
    rw [List.nodup_append]
    refine ⟨hnd1, ?_, ?_⟩
    · rw [List.nodup_cons, List.nodup_cons]
      refine ⟨?_, ⟨fun hm => hfr (by simp [hm]), hnd2⟩⟩
      simp only [List.mem_cons, not_or]
      exact ⟨fun e1 => hac e1.symm, hc2⟩
    · intro b hb1 hb2
      rcases List.mem_cons.mp hb2 with rfl | hb2
      · exact hdis hb1 (by simp)
      · rcases List.mem_cons.mp hb2 with rfl | hb2
        · exact hfr (by simp [hb1])
        · exact hdis hb1 (by simp [hb2])
  · intro y hy
    rcases List.mem_append.mp hy with hy | hy
    · exact hl.bound y (List.mem_append_left _ hy)
    · rcases List.mem_cons.mp hy with rfl | hy
      · exact hl.bound _ (by simp)
      · rcases List.mem_cons.mp hy with rfl | hy
        · exact hb
        · exact hl.bound y (by simp [hy])

/-- When `sortedinsert` returns on a well-formed queue, sorted or not, the new
node stands somewhere among the old cells, which keep their order. -/
theorem sortedinsert_some {m : Mem} {q : queue} {l : List (Nat × Job)} (h : Linked m q l)
    {a : Nat} {ni : node} (ha : m.cell a = some ni) (hnx : ni.next = none)
    (hfresh : a ∉ l.map Prod.fst) (hb : a < m.brk) {m1 : Mem} {q1 : queue}
    (hr : sortedinsert a m q = some (m1, q1)) :
    ∃ l1 l2, l = l1 ++ l2 ∧ Linked m1 q1 (l1 ++ (a, ni.job) :: l2) ∧ m1.brk = m.brk ∧
      q1.sched_type = q.sched_type := by
  cases l with
  | nil =>
    obtain ⟨m2, q2, h1, h2, h3, h4⟩ :=
      sortedinsert_spec h ha hnx hfresh hb (by simp) (by simp)
    rw [hr] at h1
    simp only [Option.some.injEq, Prod.mk.injEq] at h1
    obtain ⟨rfl, rfl⟩ := h1
    exact ⟨[], [], rfl, h2, h3, h4⟩
  | cons hd rest =>
    obtain ⟨hp, hn, hhn, hhj, hsrest⟩ := h.seg
    have hne : ¬ (q.head = none ∧ q.tail = none) := by rw [hp]; simp
    have hevh : evaltimeAt m q.head = hd.2.time := by
      simp [hp, evaltimeAt, hhn, evaltime_eq_time, hhj]
    have heva : evaltimeAt m (some a) = ni.job.time := by
      simp [evaltimeAt, ha, evaltime_eq_time]
    unfold sortedinsert at hr
    rw [if_neg hne, ha, hevh, heva] at hr
    cases h1 : hd.2.time with
    | none => rw [h1] at hr; simp at hr
    | some th =>
      cases h2 : ni.job.time with
      | none => rw [h1, h2] at hr; simp at hr
      | some e =>
        rw [h1, h2] at hr
        simp only at hr
        by_cases hgt : th > e
        · rw [if_pos hgt] at hr
          simp only [Option.some.injEq, Prod.mk.injEq] at hr
          obtain ⟨rfl, rfl⟩ := hr
          exact ⟨[], hd :: rest, rfl, h.link_front hfresh hb, rfl, rfl⟩
        · rw [if_neg hgt] at hr
          rcases list_nil_or_snoc (hd :: rest) with hnil | ⟨l0, t, hsn⟩
          · simp at hnil
          · have h0 : Linked m q (l0 ++ [t]) := hsn ▸ h
            obtain ⟨tn, htl, htn, hlk⟩ := h0.link_tail ha hnx (hsn ▸ hfresh) hb
            have hevt : evaltimeAt m (some t.1) = t.2.time := by
              obtain ⟨mid, _, hs2⟩ := Seg.append.mp h0.seg
              obtain ⟨_, tn1, htn1, htj, _⟩ := Seg.single.mp hs2
              simp [evaltimeAt, htn1, evaltime_eq_time, htj]
            rw [htl, hevt] at hr
            cases h3 : t.2.time with
            | none => rw [h3] at hr; simp at hr
            | some tt =>
              rw [h3] at hr
              simp only at hr
              by_cases hle : tt ≤ e
              · rw [if_pos hle, htn] at hr
                simp only [Option.some.injEq, Prod.mk.injEq] at hr
                obtain ⟨rfl, rfl⟩ := hr
                refine ⟨hd :: rest, [], by simp, ?_, rfl, rfl⟩
                rw [hsn]
                simpa using hlk
              · rw [if_neg hle, hp] at hr
                simp only at hr
                cases hsc : sortedinsert.scan m e (m.brk + 1) hd.1 with
                | none => rw [hsc] at hr; simp at hr
                | some c1 =>
                  rw [hsc] at hr
                  simp only at hr
                  obtain ⟨pre, c, post, g1, g2, g3⟩ := scan_some hd (m.brk + 1) (hp ▸ h.seg) hsc
                  subst g2
                  have hpost : post ≠ [] := by
                    intro hpe
                    rw [hpe] at g1
                    have hct : c = t := by
                      have := g1.symm.trans hsn
                      exact (List.append_inj' this rfl).2 |> List.singleton_inj.mp
                    rcases g3 with g3 | g3
                    · subst g3
                      have hch : c = hd := by
                        simp only [List.nil_append, List.cons.injEq] at g1
                        exact g1.1.symm
                      have : th = tt := by
                        have e1 : hd.2.time = t.2.time := by rw [← hct, hch]
                        rw [h1, h3] at e1
                        exact Option.some.inj e1
                      omega
                    · rw [hct, Job.time_eq_dur h3] at g3
                      omega
                  have hl : Linked m q (pre ++ c :: post) := g1 ▸ h
                  cases hcc : m.cell c.1 with
                  | none => rw [hcc] at hr; simp at hr
                  | some cn =>
                    rw [hcc] at hr
                    simp only [Option.some.injEq, Prod.mk.injEq] at hr
                    obtain ⟨rfl, rfl⟩ := hr
                    exact ⟨pre ++ [c], post, by rw [g1]; simp,
                      by simpa using hl.link_after hpost hcc (g1 ▸ hfresh) hb, rfl, rfl⟩

/-- When `enqueue` returns on a well-formed queue with no freed chunk waiting to
be handed out, under any scheduling type and sorted or not, the new job stands
somewhere among the old cells, which keep their order; under a type other than
SJF it stands last. -/
theorem enqueue_returns {m : Mem} {q : queue} {l : List (Nat × Job)} (h : Linked m q l)
    (hf : m.freed = []) {name : String} {args : List String} {m1 : Mem} {q1 : queue}
    (hr : enqueue name args m q = some (m1, q1)) :
    ∃ l1 l2, l = l1 ++ l2 ∧
      Linked m1 q1 (l1 ++ (m.brk, { pid := NO_PID, name := name, args := args }) :: l2) ∧
      q1.sched_type = q.sched_type ∧ m1.brk = m.brk + 1 ∧ (q.sched_type ≠ SJF → l2 = []) := by
  by_cases hq : q.sched_type = SJF
  · have hfc : q.sched_type ≠ FCFS := by rw [hq]; decide
    rw [enqueue_fresh hf] at hr
    simp only [hfc, hq, if_false, if_true] at hr
    obtain ⟨l1, l2, g1, g2, g3, g4⟩ := sortedinsert_some
      (h.malloc hf { pid := NO_PID, name := name, args := args, next := none })
      (Mem.malloc_cell_same hf _) rfl h.fresh_brk (by rw [Mem.malloc_brk hf]; omega) hr
    exact ⟨l1, l2, g1, g2, g4, by rw [g3, Mem.malloc_brk hf], fun hn => absurd hq hn⟩
  · obtain ⟨m2, q2, g1, g2, g3, g4⟩ := enqueue_fcfs h hf hq name args
    rw [hr] at g1
    simp only [Option.some.injEq, Prod.mk.injEq] at g1
    obtain ⟨rfl, rfl⟩ := g1
    exact ⟨l, [], by simp, g2, g4, g3, fun _ => rfl⟩

/-! ## Parsing a job spec -/

/-- The test of `main`, in words. -/
theorem main_invalid_iff (spec : String) :
    main.invalid spec = true ↔
      (spec.toList.head? = some '(' ∨ '(' ∉ spec.toList ∨ spec.toList.getLast? ≠ some ')') := by
  simp [main.invalid, or_assoc]

theorem dropWhile_ne_of_mem {x : Char} :
    ∀ {l : List Char}, x ∈ l →
      ∃ r, l.dropWhile (fun c => c != x) = x :: r ∧ l = l.takeWhile (fun c => c != x) ++ x :: r := by
  intro l
  induction l with
  | nil => intro h; simp at h
  | cons c l ih =>
    intro h
    by_cases hc : c = x
    · subst hc
      exact ⟨l, by simp [List.dropWhile], by simp [List.takeWhile]⟩
    · have hm : x ∈ l := by
        rcases List.mem_cons.mp h with h | h
        · exact absurd h.symm hc
        · exact h
      obtain ⟨r, h1, h2⟩ := ih hm
      have hcx : (c != x) = true := by simpa using hc
      refine ⟨r, ?_, ?_⟩
      · rw [List.dropWhile_cons]
        simp only [hcx, if_true]
        exact h1
      · rw [List.takeWhile_cons]
        simp only [hcx, if_true]
        rw [List.cons_append, ← h2]

/-- The first `strtok` of `exec` on a valid spec: the name is not empty and the
characters after the first "(" end with ")". -/
theorem strtok_paren_of_valid {cs : List Char} (hhead : cs.head? ≠ some '(')
    (hmem : '(' ∈ cs) (hlast : cs.getLast? = some ')') :
    ∃ c name rest, strtok '(' cs = some (c :: name, rest) ∧ rest.getLast? = some ')' := by
  cases cs with
  | nil => simp at hmem
  | cons c cs1 =>
    have hc : c ≠ '(' := by
      intro e; apply hhead; simp [e]
    have hcb : (c == '(') = false := by simpa using hc
    obtain ⟨r, h1, h2⟩ := dropWhile_ne_of_mem hmem
    have hr : r.getLast? = some ')' := by
      rw [h2, List.getLast?_append] at hlast
      cases r with
      | nil => simp at hlast
      | cons y r1 =>
        simpa using hlast
    refine ⟨c, cs1.takeWhile (fun c => c != '('), r, ?_, hr⟩
    have hd : (c :: cs1).dropWhile (fun c => c == '(') = c :: cs1 :=
      List.dropWhile_cons_of_neg (by simpa using hc)
    unfold strtok
    rw [hd]
    simp only [h1, List.drop_succ_cons, List.drop_zero]
    rw [List.takeWhile_cons_of_pos (by simpa using hc)]

/-- The loop of `exec` finds a token when a character other than "," is left. -/
theorem tokens_ne_nil {rest : List Char} (hlast : rest.getLast? = some ')') (fuel : Nat) :
    ∃ tok more, exec.tokens (fuel + 1) rest = tok :: more := by
  have hne : rest.dropWhile (fun c => c == ',') ≠ [] := by
    intro e
    rw [List.dropWhile_eq_nil_iff] at e
    have hm : ')' ∈ rest := List.mem_of_getLast?_eq_some hlast
    have := e _ hm
    simp at this
  cases hd : rest.dropWhile (fun c => c == ',') with
  | nil => exact absurd hd hne
  | cons c s1 =>
    simp only [exec.tokens, strtok, hd]
    exact ⟨_, _, rfl⟩

/-- Every spec that `main` accepts is parsed by `exec`. -/
theorem parse_of_valid {spec : String} (hv : main.invalid spec = false) :
    ∃ name args, exec.parse spec = some (name, args) := by
  have hv' : ¬ (main.invalid spec = true) := by simp [hv]
  rw [main_invalid_iff] at hv'
  simp only [not_or, not_not] at hv'
  obtain ⟨hhead, hmem, hlast⟩ := hv'
  obtain ⟨c, name, rest, h1, h2⟩ := strtok_paren_of_valid hhead hmem hlast
  obtain ⟨tok, more, h3⟩ := tokens_ne_nil h2 rest.length
  unfold exec.parse
  simp only [h1, h3]
  cases strtok ')' ((tok :: more).getLastD (c :: name)) with
  | none => exact ⟨_, _, rfl⟩
  | some r => exact ⟨_, _, rfl⟩

theorem specJob_of_valid {spec : String} (hv : main.invalid spec = false) :
    ∃ j, specJob spec = some j ∧ j.pid = NO_PID := by
  obtain ⟨name, args, h⟩ := parse_of_valid hv
  exact ⟨⟨NO_PID, name, args⟩, by simp [specJob, h], rfl⟩

theorem specJob_length (specs : List String) :
    ((specs.filter (fun sp => !main.invalid sp)).filterMap specJob).length =
      (specs.filter (fun sp => !main.invalid sp)).length := by
  induction specs with
  | nil => rfl
  | cons spec specs ih =>
    by_cases hv : main.invalid spec = true
    · simp [hv, ih]
    · have hv' : main.invalid spec = false := by simpa using hv
      obtain ⟨j, hj, _⟩ := specJob_of_valid hv'
      simp [hv', hj, ih]

/-- The function `exec` parses the spec and enqueues the job it stands for. -/
theorem exec_eq (spec : String) (s : Shell) :
    exec spec s =
      match specJob spec with
      | none => none
      | some j =>
        (enqueue j.name j.args s.mem s.pid_list).map
          (fun r => { s with mem := r.1, pid_list := r.2 }) := by
  unfold exec specJob
  cases exec.parse spec with
  | none => rfl
  | some r =>
    obtain ⟨name, args⟩ := r
    simp only [Option.map_some']
    cases enqueue name args s.mem s.pid_list with
    | none => rfl
    | some r1 => rfl

/-! ## The loop over the job specs -/

theorem specJob_pid {spec : String} {j : Job} (h : specJob spec = some j) : j.pid = NO_PID := by
  unfold specJob at h
  simp only [Option.map_eq_some'] at h
  obtain ⟨r, _, rfl⟩ := h
  rfl

/-- The function `exec`, when it returns on a well-formed queue with no freed
chunk waiting to be handed out: the job of the spec stands somewhere among the
old cells, which keep their order, and last under a policy other than SJF. -/
theorem exec_spec {s : Shell} {l : List (Nat × Job)} (h : Linked s.mem s.pid_list l)
    (hf : s.mem.freed = []) {spec : String} {s1 : Shell} (hr : exec spec s = some s1) :
    ∃ j l1 l2, specJob spec = some j ∧ l = l1 ++ l2 ∧
      Linked s1.mem s1.pid_list (l1 ++ (s.mem.brk, j) :: l2) ∧
      s1.mem.freed = [] ∧
      (s.pid_list.sched_type ≠ SJF → l2 = []) ∧
      s1.pid_list.sched_type = s.pid_list.sched_type ∧
      s1.out = s.out ∧ s1.curr_proc_pid = s.curr_proc_pid ∧
      s1.curr_proc_node = s.curr_proc_node ∧ s1.io_occupied = s.io_occupied ∧
      s1.fg_suspended = s.fg_suspended ∧ s1.run = s.run ∧ s1.exited = s.exited := by
  rw [exec_eq] at hr
  cases hj : specJob spec with
  | none => simp [hj] at hr
  | some j =>
    simp only [hj, Option.map_eq_some'] at hr
    obtain ⟨r, hr1, rfl⟩ := hr
    obtain ⟨m1, q1⟩ := r
    have hpid := specJob_pid hj
    have hjeq : ({ pid := NO_PID, name := j.name, args := j.args } : Job) = j := by
      rw [← hpid]
    obtain ⟨a, b, e, h1, h2, _, h4⟩ := enqueue_returns h hf hr1
    rw [hjeq] at h1
    exact ⟨j, a, b, rfl, e, h1, enqueue_freed hf hr1, h4, h2, rfl, rfl, rfl, rfl, rfl, rfl, rfl⟩

theorem rejections_cons_invalid {i : Nat} {spec : String} (specs : List String)
    (hv : main.invalid spec = true) :
    rejections i (spec :: specs) =
      Event.print (Msg.invalidExec i) :: rejections (i + 1) specs := by
  simp [rejections, List.enumFrom, hv]

theorem rejections_cons_valid {i : Nat} {spec : String} (specs : List String)
    (hv : main.invalid spec = false) :
    rejections i (spec :: specs) = rejections (i + 1) specs := by
  simp [rejections, List.enumFrom, hv]

/-- The loop of `main` over the specs, when it returns on a well-formed queue
with no freed chunk waiting: the queue holds the old jobs, in their order, and
the jobs of the accepted specs, the rejected specs have been reported, and
nothing else has changed. -/
theorem execLoop_spec (specs : List String) :
    ∀ (i : Nat) {s : Shell} {l : List (Nat × Job)}, Linked s.mem s.pid_list l →
      s.mem.freed = [] →
      ∀ {s1 : Shell}, main.execLoop i specs s = some s1 →
      ∃ l1, Linked s1.mem s1.pid_list l1 ∧ s1.mem.freed = [] ∧
        (l1.map Prod.snd).Perm (l.map Prod.snd ++
          (specs.filter (fun sp => !main.invalid sp)).filterMap specJob) ∧
        (l.map Prod.snd).Sublist (l1.map Prod.snd) ∧
        (s.pid_list.sched_type ≠ SJF → l1.map Prod.snd = l.map Prod.snd ++
          (specs.filter (fun sp => !main.invalid sp)).filterMap specJob) ∧
        s1.out = s.out ++ rejections i specs ∧
        s1.curr_proc_pid = s.curr_proc_pid ∧ s1.curr_proc_node = s.curr_proc_node ∧
        s1.io_occupied = s.io_occupied ∧ s1.fg_suspended = s.fg_suspended ∧
        s1.run = s.run ∧ s1.exited = s.exited := by
  induction specs with
  | nil =>
    intro i s l h hf s1 hr
    simp only [main.execLoop, Option.some.injEq] at hr
    subst hr
    exact ⟨l, h, hf, by simp, List.Sublist.refl _, fun _ => by simp, by simp [rejections],
      rfl, rfl, rfl, rfl, rfl, rfl⟩
  | cons spec specs ih =>
    intro i s l h hf s1 hr
    simp only [main.execLoop] at hr
    by_cases hv : main.invalid spec = true
    · rw [if_pos hv] at hr
      obtain ⟨l1, h1, hf1, h2, hsub, h3, h4, h5, h6, h7, h8, h9, h10⟩ :=
        ih (i + 1) (s := { s with out := s.out ++ [Event.print (Msg.invalidExec i)] })
          h hf hr
      refine ⟨l1, h1, hf1, ?_, hsub, ?_, ?_, h5, h6, h7, h8, h9, h10⟩
      · simpa [hv] using h2
      · intro hq; simpa [hv] using h3 hq
      · rw [h4, rejections_cons_invalid specs hv]; simp
    · have hv' : main.invalid spec = false := by simpa using hv
      rw [if_neg hv] at hr
      cases he : exec spec s with
      | none => simp [he] at hr
      | some s2 =>
        simp only [he] at hr
        obtain ⟨j, a, b, hj, e, g1, gf, g4, g6, g7, g8, g9, g10, g11, g12, g13⟩ :=
          exec_spec h hf he
        obtain ⟨l1, h1, hf1, h2, hsub, h3, h4, h5, h6, h7, h8, h9, h10⟩ := ih (i + 1) g1 gf hr
        have hnew : (List.filter (fun sp => !main.invalid sp) (spec :: specs)).filterMap
            specJob =
            j :: (List.filter (fun sp => !main.invalid sp) specs).filterMap specJob := by
          simp [hv', hj]
        refine ⟨l1, h1, hf1, ?_, ?_, ?_, ?_, h5.trans g8, h6.trans g9, h7.trans g10,
          h8.trans g11, h9.trans g12, h10.trans g13⟩
        · rw [hnew]
          refine h2.trans ?_
          rw [e]
          simp only [List.map_append, List.map_cons, List.append_assoc, List.cons_append]
          refine List.Perm.append_left _ ?_
          exact (List.perm_middle).symm
        · refine List.Sublist.trans ?_ hsub
          rw [e]
          simp only [List.map_append, List.map_cons]
          exact List.Sublist.append (List.Sublist.refl _) (List.sublist_cons_self _ _)
        · intro hq
          have hb : b = [] := g4 hq
          subst hb
          rw [hnew, h3 (by rw [g6]; exact hq), e]
          simp
        · rw [h4, g7, rejections_cons_valid specs hv']

/-- The loop of `main` over the specs returns on a well-formed queue with no
freed chunk waiting: always under a policy other than SJF, and under SJF when the
queued jobs and the jobs of the accepted specs have their two numeric
arguments. -/
theorem execLoop_total (specs : List String) :
    ∀ (i : Nat) {s : Shell} {l : List (Nat × Job)}, Linked s.mem s.pid_list l →
      s.mem.freed = [] →
      (s.pid_list.sched_type = SJF → (∀ x ∈ l, 3 ≤ x.2.args.length) ∧
        ∀ spec ∈ specs, ∀ j, specJob spec = some j → main.invalid spec = false →
          3 ≤ j.args.length) →
      ∃ s1, main.execLoop i specs s = some s1 := by
  induction specs with
  | nil => intro i s l _ _ _; exact ⟨s, rfl⟩
  | cons spec specs ih =>
    intro i s l h hf hargs
    simp only [main.execLoop]
    by_cases hv : main.invalid spec = true
    · rw [if_pos hv]
      exact ih (i + 1) (s := { s with out := s.out ++ [Event.print (Msg.invalidExec i)] })
        h hf
        (fun hq => ⟨(hargs hq).1, fun sp hsp => (hargs hq).2 sp (List.mem_cons_of_mem _ hsp)⟩)
    · have hv' : main.invalid spec = false := by simpa using hv
      rw [if_neg hv]
      obtain ⟨j, hj, _⟩ := specJob_of_valid hv'
      have henq : ∃ m1 q1, enqueue j.name j.args s.mem s.pid_list = some (m1, q1) := by
        by_cases hq : s.pid_list.sched_type = SJF
        · obtain ⟨m1, q1, h1, _⟩ := enqueue_sjf h hf hq j.name j.args
            (fun y hy => time_of_args ((hargs hq).1 y hy))
            (fun _ => time_of_args (j := { pid := NO_PID, name := j.name, args := j.args })
              ((hargs hq).2 spec (List.mem_cons_self _ _) j hj hv'))
          exact ⟨m1, q1, h1⟩
        · obtain ⟨m1, q1, h1, _⟩ := enqueue_fcfs h hf hq j.name j.args
          exact ⟨m1, q1, h1⟩
      obtain ⟨m1, q1, h1⟩ := henq
      have he : exec spec s = some { s with mem := m1, pid_list := q1 } := by
        rw [exec_eq, hj]; simp [h1]
      rw [he]
      obtain ⟨j1, a, b, hj1, e, g1, gf, _, g6, _⟩ := exec_spec h hf he
      have hjj : j1 = j := by rw [hj] at hj1; exact (Option.some.inj hj1).symm
      subst hjj
      refine ih (i + 1) g1 gf ?_
      intro hq
      have hq0 : s.pid_list.sched_type = SJF := g6 ▸ hq
      refine ⟨?_, fun sp hsp => (hargs hq0).2 sp (List.mem_cons_of_mem _ hsp)⟩
      intro x hx
      rcases List.mem_append.mp hx with hx | hx
      · exact (hargs hq0).1 x (by rw [e]; exact List.mem_append_left _ hx)
      · rcases List.mem_cons.mp hx with rfl | hx
        · exact (hargs hq0).2 spec (List.mem_cons_self _ _) j1 hj hv'
        · exact (hargs hq0).1 x (by rw [e]; exact List.mem_append_right _ hx)

/-! ## Two nodes linked to each other -/

/-- Following the links between two nodes that point at each other never
reaches `NULL`, whatever the number of steps allowed. -/
theorem walk_two_cycle {m : Mem} {a b : Nat} {na nb : node} (ha : m.cell a = some na)
    (hb : m.cell b = some nb) (hab : na.next = some b) (hba : nb.next = some a) :
    ∀ fuel, walk m fuel (some a) = none ∧ walk m fuel (some b) = none := by
  intro fuel
  induction fuel with
  | zero => exact ⟨rfl, rfl⟩
  | succ n ih =>
    constructor
    · simp [walk, ha, hab, ih.2]
    · simp [walk, hb, hba, ih.1]

/-- The loop of `ps` over two nodes that point at each other never ends. -/
theorem ps_loop_two_cycle {m : Mem} {a b : Nat} {na nb : node} (ha : m.cell a = some na)
    (hb : m.cell b = some nb) (hab : na.next = some b) (hba : nb.next = some a) :
    ∀ fuel, ps.loop m fuel (some a) = none ∧ ps.loop m fuel (some b) = none := by
  intro fuel
  induction fuel with
  | zero => exact ⟨rfl, rfl⟩
  | succ n ih =>
    constructor
    · simp [ps.loop, ha, hab, ih.2]
    · simp [ps.loop, hb, hba, ih.1]

/-- Repeated `dequeue` on a queue of two nodes that point at each other removes
both and then reads a freed node: it has no defined result, whatever the number
of calls allowed. -/
theorem drain_two_cycle {m : Mem} {q : queue} {a b : Nat} {na nb : node} (hne : a ≠ b)
    (hh : q.head = some a) (ht : q.tail = some b) (ha : m.cell a = some na)
    (hb : m.cell b = some nb) (hab : na.next = some b) (hba : nb.next = some a) :
    ∀ fuel, drain fuel m q = none := by
  intro fuel
  cases fuel with
  | zero => rfl
  | succ f1 =>
    have hd1 : dequeue m q = some (na.pid, freenode a m, { q with head := some b }) := by
      simp [dequeue, hh, ht, ha, hab]
    cases f1 with
    | zero => simp [drain, hh, ha, hd1]
    | succ f2 =>
      have hb1 : (freenode a m).cell b = some nb := by
        rw [freenode, Mem.free_cell_ne _ (Ne.symm hne)]; exact hb
      have hd2 : dequeue (freenode a m) { q with head := some b } =
          some (nb.pid, freenode b (freenode a m), { q with head := some a }) := by
        simp [dequeue, ht, hb1, hba]
      have ha2 : (freenode b (freenode a m)).cell a = none := by
        rw [freenode, Mem.free_cell_ne _ hne]
        exact Mem.free_cell_same _ _
      cases f2 with
      | zero => simp [drain, hh, ha, hd1, hb1, hd2]
      | succ f3 => simp [drain, hh, ha, hd1, hb1, hd2, ha2]

/-- The function `exec` is an enqueue: it leads from a reachable state to a
reachable state. -/
theorem reachable_exec {s s1 : Shell} {spec : String} (h : Reachable s)
    (hr : exec spec s = some s1) : Reachable s1 := by
  unfold exec at hr
  cases hp : exec.parse spec with
  | none => simp [hp] at hr
  | some r =>
    obtain ⟨name, args⟩ := r
    simp only [hp] at hr
    cases he : enqueue name args s.mem s.pid_list with
    | none => simp [he] at hr
    | some r1 =>
      obtain ⟨m1, q1⟩ := r1
      simp only [he, Option.some.injEq] at hr
      subst hr
      exact Reachable.step h (Step.enqueue name args he)

/-! # The claims about the queue -/

/-- C1 (the code at the failing input). Under SJF: enqueue a(1,1), enqueue
b(2,2), dequeue, enqueue c(3,3).  The dequeue frees the node of a with its link
still at b; `malloc` hands that node out again for c, `enqueue` does not write
its link, and `sortedinsert` links c behind the tail b without writing it
either.  So the head is b, the link of b is c, and the link of c is b again:
after c of duration 9 comes b of duration 4.  Following the links from the head
never reaches `NULL`, and repeated `dequeue` removes b and c and then reads the
freed node of b, whatever the number of steps allowed. -/
theorem sjf_enqueue_after_dequeue_not_sorted :
    (runOps [Op.enq "a" ["a", "1", "1"], Op.enq "b" ["b", "2", "2"], Op.deq,
        Op.enq "c" ["c", "3", "3"]] Mem.empty (initqueue SJF)).map (fun r => (r.2.head, r.2.tail)) =
      some (some 1, some 0) ∧
    (runOps [Op.enq "a" ["a", "1", "1"], Op.enq "b" ["b", "2", "2"], Op.deq,
        Op.enq "c" ["c", "3", "3"]] Mem.empty (initqueue SJF)).bind (fun r => r.1.cell 1) =
      some { pid := NO_PID, name := "b", args := ["b", "2", "2"], next := some 0 } ∧
    (runOps [Op.enq "a" ["a", "1", "1"], Op.enq "b" ["b", "2", "2"], Op.deq,
        Op.enq "c" ["c", "3", "3"]] Mem.empty (initqueue SJF)).bind (fun r => r.1.cell 0) =
      some { pid := NO_PID, name := "c", args := ["c", "3", "3"], next := some 1 } ∧
    (∀ fuel, (runOps [Op.enq "a" ["a", "1", "1"], Op.enq "b" ["b", "2", "2"], Op.deq,
        Op.enq "c" ["c", "3", "3"]] Mem.empty (initqueue SJF)).bind (fun r => walk r.1 fuel r.2.head) = none) ∧
    (∀ fuel, (runOps [Op.enq "a" ["a", "1", "1"], Op.enq "b" ["b", "2", "2"], Op.deq,
        Op.enq "c" ["c", "3", "3"]] Mem.empty (initqueue SJF)).bind (fun r => drain fuel r.1 r.2) = none) := by
  have hq : (runOps [Op.enq "a" ["a", "1", "1"], Op.enq "b" ["b", "2", "2"], Op.deq,
        Op.enq "c" ["c", "3", "3"]] Mem.empty (initqueue SJF)).map (fun r => (r.2.head, r.2.tail)) =
      some (some 1, some 0) := by decide
  have h1 : (runOps [Op.enq "a" ["a", "1", "1"], Op.enq "b" ["b", "2", "2"], Op.deq,
        Op.enq "c" ["c", "3", "3"]] Mem.empty (initqueue SJF)).bind (fun r => r.1.cell 1) =
      some { pid := NO_PID, name := "b", args := ["b", "2", "2"], next := some 0 } := by decide
  have h0 : (runOps [Op.enq "a" ["a", "1", "1"], Op.enq "b" ["b", "2", "2"], Op.deq,
        Op.enq "c" ["c", "3", "3"]] Mem.empty (initqueue SJF)).bind (fun r => r.1.cell 0) =
      some { pid := NO_PID, name := "c", args := ["c", "3", "3"], next := some 1 } := by decide
  refine ⟨hq, h1, h0, ?_, ?_⟩
  · intro fuel
    cases hr : (runOps [Op.enq "a" ["a", "1", "1"], Op.enq "b" ["b", "2", "2"], Op.deq,
        Op.enq "c" ["c", "3", "3"]] Mem.empty (initqueue SJF)) with
    | none => rfl
    | some r =>
      rw [hr] at hq h1 h0
      simp only [Option.map_some', Option.some.injEq, Prod.mk.injEq] at hq
      simp only [Option.some_bind] at h1 h0 ⊢
      rw [hq.1]
      exact (walk_two_cycle h1 h0 rfl rfl fuel).1
  · intro fuel
    cases hr : (runOps [Op.enq "a" ["a", "1", "1"], Op.enq "b" ["b", "2", "2"], Op.deq,
        Op.enq "c" ["c", "3", "3"]] Mem.empty (initqueue SJF)) with
    | none => rfl
    | some r =>
      rw [hr] at hq h1 h0
      simp only [Option.map_some', Option.some.injEq, Prod.mk.injEq] at hq
      simp only [Option.some_bind] at h1 h0 ⊢
      exact drain_two_cycle (by decide) hq.1 hq.2 h1 h0 rfl rfl fuel

/-- C2 (the code at the failing input). Under SJF, enqueueing a(1,2), b(2,2),
c(3,2) and then d(2,2) leaves the queue a, d, b, c: the new job d stands before
the already queued job b of equal duration 4, and is dequeued before it. -/
theorem sortedinsert_equal_duration_before_older :
    (enqueueAll [("a", ["a", "1", "2"]), ("b", ["b", "2", "2"]), ("c", ["c", "3", "2"]),
        ("d", ["d", "2", "2"])] Mem.empty (initqueue SJF)).bind (fun r => drain 5 r.1 r.2)
      = some [{ pid := NO_PID, name := "a", args := ["a", "1", "2"] },
              { pid := NO_PID, name := "d", args := ["d", "2", "2"] },
              { pid := NO_PID, name := "b", args := ["b", "2", "2"] },
              { pid := NO_PID, name := "c", args := ["c", "3", "2"] }] := by
  decide

/-- C5. On a well-formed queue, `delete` with a key that no queued job carries
returns (no failure) the very same heap and queue, so that deleting twice is
deleting once. -/
theorem delete_absent_id_unchanged {m : Mem} {q : queue} {l : List (Nat × Job)}
    (h : Linked m q l) (key : Int) (hk : ∀ x ∈ l, x.2.pid ≠ key) :
    delete key m q = some (m, q) ∧
      (delete key m q).bind (fun r => delete key r.1 r.2) = delete key m q := by
  have h1 := delete_absent h hk
  exact ⟨h1, by rw [h1]; exact h1⟩

/-- C5 at a concrete queue: two pending jobs, key 7. -/
theorem delete_absent_id_unchanged_witness :
    delete 7 ((Mem.empty.malloc ⟨NO_PID, "a", ["a", "1", "2"], some 1⟩).malloc
        ⟨NO_PID, "b", ["b", "3", "2"], none⟩) ⟨some 0, some 1, SJF⟩
      = some ((Mem.empty.malloc ⟨NO_PID, "a", ["a", "1", "2"], some 1⟩).malloc
        ⟨NO_PID, "b", ["b", "3", "2"], none⟩, ⟨some 0, some 1, SJF⟩) :=
  (delete_absent_id_unchanged
    (l := [(0, ⟨NO_PID, "a", ["a", "1", "2"]⟩), (1, ⟨NO_PID, "b", ["b", "3", "2"]⟩)])
    ⟨⟨rfl, ⟨NO_PID, "a", ["a", "1", "2"], some 1⟩, rfl, rfl, rfl,
        ⟨NO_PID, "b", ["b", "3", "2"], none⟩, rfl, rfl, rfl⟩, rfl, by decide, by decide⟩
    7 (by decide)).1

/-- C6 (the code at the failing input). With one pending, never-launched job in
the queue, `delete` with the key `NO_PID` removes it: the queue is left empty. -/
theorem delete_no_pid_removes_pending :
    ((enqueue "a" ["a", "1", "2"] Mem.empty (initqueue SJF)).bind
        (fun r => jobs r.1 r.2) = some [{ pid := NO_PID, name := "a", args := ["a", "1", "2"] }]) ∧
    (((enqueue "a" ["a", "1", "2"] Mem.empty (initqueue SJF)).bind
        (fun r => delete NO_PID r.1 r.2)).bind (fun r => jobs r.1 r.2) = some []) := by
  decide

/-! # The claims about the process lifecycle -/

/-- C4 (the code at the failing input). Under SJF: `exec` enqueues a(1,1,&)
and b(2,2,&) and `runprocess` starts a as process 100; a dies, `childdead` frees
its node with the link still at b and starts b as process 101; then `exec`
enqueues c(3,3).  `malloc` hands out the node of a for c, `enqueue` does not
write its link and `sortedinsert` links c behind the tail b: in this reachable
state b and c point at each other, and the loop of `ps` goes round them without
end, coming to the row of process 101 again and again: `ps` does not return. -/
theorem ps_never_returns_after_recycled_node :
    ∃ s, ((((exec "a(1,1,&)" (Shell.init SJF)).bind (exec "b(2,2,&)")).bind (runprocess 100)).bind
        (childdead 100 0 101)).bind (exec "c(3,3)") = some s ∧
      Reachable s ∧ s.curr_proc_pid = 101 ∧ s.pid_list.head = some 1 ∧
      s.pid_list.tail = some 0 ∧
      s.mem.cell 1 =
        some { pid := 101, name := "b", args := ["b", "2", "2", "&"], next := some 0 } ∧
      s.mem.cell 0 =
        some { pid := NO_PID, name := "c", args := ["c", "3", "3", "&"], next := some 1 } ∧
      (∀ fuel, ps.loop s.mem fuel s.pid_list.head = none) ∧
      (∀ my_pid, ps my_pid s = none) := by
  have hsome : (((((exec "a(1,1,&)" (Shell.init SJF)).bind (exec "b(2,2,&)")).bind (runprocess 100)).bind
        (childdead 100 0 101)).bind (exec "c(3,3)")).isSome = true := by
    decide
  have hq : (((((exec "a(1,1,&)" (Shell.init SJF)).bind (exec "b(2,2,&)")).bind (runprocess 100)).bind
        (childdead 100 0 101)).bind (exec "c(3,3)")).map
      (fun s => (s.curr_proc_pid, s.pid_list.head, s.pid_list.tail)) =
      some (101, some 1, some 0) := by
    decide
  have h1 : (((((exec "a(1,1,&)" (Shell.init SJF)).bind (exec "b(2,2,&)")).bind (runprocess 100)).bind
        (childdead 100 0 101)).bind (exec "c(3,3)")).bind (fun s => s.mem.cell 1) =
      some { pid := 101, name := "b", args := ["b", "2", "2", "&"], next := some 0 } := by
    decide
  have h0 : (((((exec "a(1,1,&)" (Shell.init SJF)).bind (exec "b(2,2,&)")).bind (runprocess 100)).bind
        (childdead 100 0 101)).bind (exec "c(3,3)")).bind (fun s => s.mem.cell 0) =
      some { pid := NO_PID, name := "c", args := ["c", "3", "3", "&"], next := some 1 } := by
    decide
  obtain ⟨s, hs⟩ := Option.isSome_iff_exists.mp hsome
  rw [hs] at hq h1 h0
  simp only [Option.map_some', Option.some.injEq, Prod.mk.injEq] at hq
  simp only [Option.some_bind] at h1 h0
  have hreach : Reachable s := by
    simp only [Option.bind_eq_some] at hs
    obtain ⟨s4, ⟨s3, ⟨s2, ⟨s1, g1, g2⟩, g3⟩, g4⟩, g5⟩ := hs
    exact reachable_exec
      (Reachable.step
        (Reachable.step
          (reachable_exec (reachable_exec (Reachable.init SJF) g1) g2)
          (Step.runprocess 100 (by decide) g3))
        (Step.childdead 100 0 101 (by decide) g4)) g5
  have hloop := ps_loop_two_cycle h1 h0 rfl rfl
  refine ⟨s, hs, hreach, hq.1, hq.2.1, hq.2.2, h1, h0, ?_, ?_⟩
  · intro fuel
    rw [hq.2.1]
    exact (hloop fuel).1
  · intro my_pid
    unfold ps
    rw [hq.2.1, (hloop _).1]
    rfl

/-- C7. `childdead` for the pid `dead_pid`, on a well-formed queue: `delete`
unlinks the first job with that pid; the current process is cleared when
`dead_pid` is its pid and kept otherwise (`afterDeath`); then, when the queue is
not empty and `run` is set, the result is that of `runprocess` on that state
(which makes the front job current when the shell is idle), and otherwise
`io_occupied` is cleared.  When the dead job was the current one and the only one
queued, the shell ends idle with `io_occupied` false. -/
theorem childdead_effect {s : Shell} {l : List (Nat × Job)} (h : Linked s.mem s.pid_list l)
    (dead_pid status f : Int) :
    ∃ m1 q1, delete dead_pid s.mem s.pid_list = some (m1, q1) ∧
      Linked m1 q1 (l.eraseP (fun x => decide (x.2.pid = dead_pid))) ∧
      childdead dead_pid status f s =
        (if q1.head ≠ none ∧ s.run = true then
          runprocess f { afterDeath dead_pid status m1 q1 s with
            out := (afterDeath dead_pid status m1 q1 s).out ++ [Event.print Msg.newline] }
        else some { afterDeath dead_pid status m1 q1 s with io_occupied := false }) ∧
      (∀ y rest, l.eraseP (fun x => decide (x.2.pid = dead_pid)) = y :: rest →
        s.run = true → dead_pid = s.curr_proc_pid →
        ∃ s1, childdead dead_pid status f s = some s1 ∧ s1.curr_proc_pid = f ∧
          s1.curr_proc_node = some y.1 ∧
          jobs s1.mem s1.pid_list =
            some ({ pid := f, name := y.2.name, args := y.2.args } :: rest.map Prod.snd)) ∧
      (l.eraseP (fun x => decide (x.2.pid = dead_pid)) = [] → dead_pid = s.curr_proc_pid →
        ∃ s1, childdead dead_pid status f s = some s1 ∧ s1.curr_proc_pid = NO_CURR_PID ∧
          s1.curr_proc_node = none ∧ s1.io_occupied = false ∧
          jobs s1.mem s1.pid_list = some []) := by
  obtain ⟨m1, q1, h1, h2, _, _⟩ := delete_spec h dead_pid
  have heq := childdead_eq dead_pid status f s h1
  refine ⟨m1, q1, h1, h2, heq, ?_, ?_⟩
  · intro y rest hy hrun hcur
    rw [hy] at h2
    have hh : q1.head ≠ none := fun e => by simpa using h2.head_none_iff.mp e
    rw [if_pos ⟨hh, hrun⟩] at heq
    obtain ⟨n, s1, hn, _, hr1, hm, hq, _, hcp, hcn, _⟩ := runprocess_idle f
      (s := { afterDeath dead_pid status m1 q1 s with
        out := (afterDeath dead_pid status m1 q1 s).out ++ [Event.print Msg.newline] })
      h2 (by simp [afterDeath, hcur])
    refine ⟨s1, heq.trans hr1, hcp, hcn, ?_⟩
    rw [hm, hq]
    have := (Linked.set_head_pid h2 hn f).jobs_eq
    simpa using this
  · intro hnil hcur
    rw [hnil] at h2
    have hh : q1.head = none := h2.head_none_iff.mpr rfl
    rw [if_neg (by simp [hh])] at heq
    refine ⟨_, heq, by simp [afterDeath, hcur], by simp [afterDeath, hcur], rfl, ?_⟩
    exact h2.jobs_eq

/-- C7 at `Shell.sample`: the running job 100 dies with status 0 and the
waiting job "b" is started as process 101. -/
theorem childdead_effect_witness :
    ∃ s1, childdead 100 0 101 Shell.sample = some s1 ∧ s1.curr_proc_pid = 101 ∧
      s1.curr_proc_node = some 1 ∧
      jobs s1.mem s1.pid_list = some [{ pid := 101, name := "b", args := ["b", "3", "2"] }] := by
  obtain ⟨m1, q1, _, _, _, h4, _⟩ := childdead_effect linked_sample 100 0 101
  exact h4 (1, ⟨NO_PID, "b", ["b", "3", "2"]⟩) [] (by decide) rfl rfl

/-- C8. The exit status of the dead child changes nothing but the report: on a
well-formed queue `childdead` returns for any status, the resulting state is
that for status 0 apart from the printed lines, and the printed lines differ
exactly by the error report (naming the pid and the exit status) that follows
the death notice when `WEXITSTATUS(status)` is not 0. -/
theorem childdead_status_only_reported {s : Shell} {l : List (Nat × Job)}
    (h : Linked s.mem s.pid_list l) (dead_pid status f : Int) :
    ∃ r r0 tail, childdead dead_pid status f s = some r ∧
      childdead dead_pid 0 f s = some r0 ∧ r.dropOut = r0.dropOut ∧
      r0.out = s.out ++ Event.print (Msg.childIsDead dead_pid) :: tail ∧
      r.out = s.out ++ Event.print (Msg.childIsDead dead_pid) ::
        ((if WEXITSTATUS status ≠ 0 then
            [Event.print Msg.errorOccured,
             Event.print (Msg.exitCode dead_pid (WEXITSTATUS status))]
          else []) ++ tail) := by
  obtain ⟨m1, q1, h1, h2, _, _⟩ := delete_spec h dead_pid
  have hw0 : WEXITSTATUS 0 = 0 := by decide
  rw [childdead_eq dead_pid status f s h1, childdead_eq dead_pid 0 f s h1]
  by_cases hc : q1.head ≠ none ∧ s.run = true
  · rw [if_pos hc, if_pos hc, runprocess_with_out, runprocess_with_out f _
      ((afterDeath dead_pid 0 m1 q1 s).out ++ [Event.print Msg.newline])]
    obtain ⟨r1, hr1⟩ := runprocess_total f (s := { afterDeath dead_pid status m1 q1 s with
      out := [] }) (l := l.eraseP (fun x => decide (x.2.pid = dead_pid))) h2
    have hsame : ({ afterDeath dead_pid 0 m1 q1 s with out := [] } : Shell) =
        { afterDeath dead_pid status m1 q1 s with out := [] } := rfl
    rw [hsame, hr1]
    refine ⟨_, _, Event.print Msg.newline :: r1.out, rfl, rfl, rfl, ?_, ?_⟩
    · simp [afterDeath, hw0]
    · simp [afterDeath]
  · rw [if_neg hc, if_neg hc]
    refine ⟨_, _, [], rfl, rfl, rfl, ?_, ?_⟩
    · simp [afterDeath, hw0]
    · simp [afterDeath]

/-- C8 at `Shell.sample`: the running job 100 dies with exit status 2 (wait
status 512). -/
theorem childdead_status_only_reported_witness :
    ∃ r r0 tail, childdead 100 512 101 Shell.sample = some r ∧
      childdead 100 0 101 Shell.sample = some r0 ∧ r.dropOut = r0.dropOut ∧
      r0.out = Shell.sample.out ++ Event.print (Msg.childIsDead 100) :: tail ∧
      r.out = Shell.sample.out ++ Event.print (Msg.childIsDead 100) ::
        ((if WEXITSTATUS 512 ≠ 0 then
            [Event.print Msg.errorOccured, Event.print (Msg.exitCode 100 (WEXITSTATUS 512))]
          else []) ++ tail) :=
  childdead_status_only_reported linked_sample 100 512 101

/-- C9. `runprocess` starts a job only when idle: when a process is current
(`curr_proc_pid != NO_CURR_PID`) or the queue is empty it returns the state as it
is (nothing forked, no pid assigned); so after any enqueue made while a process
is current, `runprocess` leaves the current process in place. -/
theorem runprocess_only_when_idle (f : Int) (s : Shell)
    (h : s.curr_proc_pid ≠ NO_CURR_PID ∨ s.pid_list.head = none) :
    runprocess f s = some s ∧
      ∀ name args m1 q1, s.curr_proc_pid ≠ NO_CURR_PID →
        enqueue name args s.mem s.pid_list = some (m1, q1) →
        runprocess f { s with mem := m1, pid_list := q1 } =
          some { s with mem := m1, pid_list := q1 } :=
  ⟨runprocess_noop f s h, fun _ _ m1 q1 hc _ =>
    runprocess_noop f { s with mem := m1, pid_list := q1 } (Or.inl hc)⟩

/-- C9 at `Shell.sample`, where process 100 is current. -/
theorem runprocess_only_when_idle_witness :
    runprocess 101 Shell.sample = some Shell.sample :=
  (runprocess_only_when_idle 101 Shell.sample (Or.inl (by decide))).1

/-- C10 (the code at the failing input). The job `p(1,2,x)` has a fourth
argument that is not "&": `runprocess` starts it attached to the terminal (the
child is not detached) and yet leaves `io_occupied` false and announces a
background process. -/
theorem runprocess_fourth_arg_not_background_marker :
    ((enqueue "p" ["p", "1", "2", "x"] Mem.empty (initqueue SJF)).bind (fun r =>
        runprocess 100 { Shell.init SJF with mem := r.1, pid_list := r.2 })).map
        (fun s => (s.io_occupied, s.curr_proc_pid, s.out))
      = some (false, 100, [Event.fork 100 "p" ["p", "1", "2", "x"] false,
          Event.print (Msg.background "p" 100)]) := by
  decide

/-! # The claims about background jobs, kill and exit -/

/-- The sample state satisfies the shell invariant. -/
theorem inv_sample : Inv Shell.sample Shell.sampleCells :=
  ⟨linked_sample,
    fun _ => List.pairwise_cons.mpr ⟨fun b hb => by
      rw [List.mem_singleton.mp hb]
      exact ⟨2, 6, by decide, by decide, by decide⟩, by simp⟩,
    by decide, by decide, by decide⟩

/-- C11 (counterexample). The spec p(1,&) passes the test of `main` and `exec`
enqueues the job with the arguments "p", "1", "&": the background marker is its
trailing argument.  From that idle state `runprocess` launches the job with
`io_occupied` set and the child not detached: the marker is looked for in
`args[3]`, which is `NULL` here. -/
theorem trailing_marker_in_third_slot_blocks :
    main.invalid "p(1,&)" = false ∧
    (exec "p(1,&)" (Shell.init SJF)).bind (fun s => jobs s.mem s.pid_list) =
      some [{ pid := NO_PID, name := "p", args := ["p", "1", "&"] }] ∧
    (["p", "1", "&"] : List String).getLast? = some "&" ∧
    (exec "p(1,&)" (Shell.init SJF)).map (fun s => s.curr_proc_pid) = some NO_CURR_PID ∧
    ((exec "p(1,&)" (Shell.init SJF)).bind (runprocess 100)).map
        (fun s => (s.io_occupied, s.out)) =
      some (true, [Event.fork 100 "p" ["p", "1", "&"] false]) := by
  decide

/-- C11 (amended). Background jobs never block: from an idle state whose front
job has the background marker "&" as its fourth argument, in the slot behind the
two numeric arguments (`args[3]`), `runprocess` launches the job detached and
`io_occupied` is false right after. -/
theorem background_job_never_blocks (f : Int) {s : Shell} {x : Nat × Job}
    {rest : List (Nat × Job)} (h : Linked s.mem s.pid_list (x :: rest))
    (hc : s.curr_proc_pid = NO_CURR_PID) (hbg : x.2.args[3]? = some "&") :
    ∃ s1, runprocess f s = some s1 ∧ s1.curr_proc_pid = f ∧ s1.curr_proc_node = some x.1 ∧
      s1.io_occupied = false ∧
      s1.out = s.out ++ [Event.fork f x.2.name x.2.args true,
        Event.print (Msg.background x.2.name f)] := by
  obtain ⟨n, s1, _, _, hr, _, _, _, hcp, hcn, hio, _, _, _, hout⟩ := runprocess_idle f h hc
  refine ⟨s1, hr, hcp, hcn, ?_, ?_⟩
  · rw [hio, hbg]; decide
  · rw [hout, hbg]; simp

/-- C11 (amended) at a concrete state: the job `p(1,2,&)` alone in the queue, shell idle. -/
theorem background_job_never_blocks_witness :
    ∃ s1, runprocess 100 { Shell.init SJF with
        mem := Mem.empty.malloc ⟨NO_PID, "p", ["p", "1", "2", "&"], none⟩,
        pid_list := ⟨some 0, some 0, SJF⟩ } = some s1 ∧
      s1.curr_proc_pid = 100 ∧ s1.curr_proc_node = some 0 ∧ s1.io_occupied = false ∧
      s1.out = [] ++ [Event.fork 100 "p" ["p", "1", "2", "&"] true,
        Event.print (Msg.background "p" 100)] :=
  @background_job_never_blocks 100
    { Shell.init SJF with
        mem := Mem.empty.malloc ⟨NO_PID, "p", ["p", "1", "2", "&"], none⟩,
        pid_list := ⟨some 0, some 0, SJF⟩ }
    (0, ⟨NO_PID, "p", ["p", "1", "2", "&"]⟩) []
    ⟨⟨rfl, ⟨NO_PID, "p", ["p", "1", "2", "&"], none⟩, rfl, rfl, rfl⟩, rfl, by decide, by decide⟩
    rfl rfl

/-- C12. For a pid that is not positive (`my_pid`, the shell's own pid, is
positive), `mykill` prints the error and returns: no `kill` is issued, nothing
is read, and the state is unchanged but for the printed line. -/
theorem mykill_nonpositive_pid (my_pid pid : Int) (fuel : Nat) (w : World) (s : Shell)
    (hme : 0 < my_pid) (hpid : pid ≤ 0) :
    mykill my_pid pid fuel w s =
      some ({ s with out := s.out ++ [Event.print (Msg.unableToKill pid)] }, w) := by
  rw [mykill_other (by omega)]
  unfold mykill.terminate
  rw [if_pos hpid]

/-- C12 at `Shell.sample`: `kill 0` from the shell with pid 7. -/
theorem mykill_nonpositive_pid_witness :
    mykill 7 0 3 ⟨[], [0], []⟩ Shell.sample =
      some ({ Shell.sample with out := Shell.sample.out ++ [Event.print (Msg.unableToKill 0)] },
        ⟨[], [0], []⟩) :=
  mykill_nonpositive_pid 7 0 3 ⟨[], [0], []⟩ Shell.sample (by decide) (by decide)

/-- C13. For a positive pid other than the shell's, in a state satisfying the
invariant, with `ret` the value `kill` returns: when `ret` is not 0, `mykill`
reports and leaves queue, current process and flags as they were; when `ret` is
0, it unlinks the node with that pid and then pauses in a state `sp` whose
current process and flags are untouched and whose queue no longer holds the pid;
the notification for the pid, handled from `sp`, finds nothing to delete (heap
and queue stay as they are) and clears the current process when it is that pid
(`afterDeath`). -/
theorem mykill_other_pid {s : Shell} {l : List (Nat × Job)} (h : Inv s l) (my_pid pid : Int)
    (fuel : Nat) (w : World) (ret : Int) (kills : List Int) (hpos : 0 < pid)
    (hne : my_pid ≠ pid) (hk : w.kills = ret :: kills) :
    (ret ≠ 0 → mykill my_pid pid fuel w s =
      some ({ s with out := s.out ++ [Event.kill pid ret, Event.print (Msg.unableToKill pid)] },
        { w with kills := kills })) ∧
    (ret = 0 → ∃ sp, mykill my_pid pid fuel w s = pause fuel { w with kills := kills } sp ∧
      delete pid s.mem s.pid_list = some (sp.mem, sp.pid_list) ∧
      Linked sp.mem sp.pid_list (l.eraseP (fun x => decide (x.2.pid = pid))) ∧
      (∀ x ∈ l.eraseP (fun x => decide (x.2.pid = pid)), x.2.pid ≠ pid) ∧
      sp.curr_proc_pid = s.curr_proc_pid ∧ sp.curr_proc_node = s.curr_proc_node ∧
      sp.io_occupied = s.io_occupied ∧ sp.fg_suspended = s.fg_suspended ∧ sp.run = s.run ∧
      sp.out = s.out ++ [Event.kill pid 0, Event.print (Msg.killed pid)] ∧
      delete pid sp.mem sp.pid_list = some (sp.mem, sp.pid_list) ∧
      ∀ status f, childdead pid status f sp =
        if sp.pid_list.head ≠ none ∧ sp.run = true then
          runprocess f { afterDeath pid status sp.mem sp.pid_list sp with
            out := (afterDeath pid status sp.mem sp.pid_list sp).out ++
              [Event.print Msg.newline] }
        else some { afterDeath pid status sp.mem sp.pid_list sp with io_occupied := false }) := by
  rw [mykill_other hne]
  constructor
  · intro hret
    exact terminate_fail hpos fuel s hk hret
  · intro hret
    subst hret
    obtain ⟨m1, q1, h1, h2, _, _⟩ := delete_spec h.linked pid
    have habs := @inv_key_absent_after_delete s l h pid (by
      intro e; rw [e] at hpos; exact absurd hpos (by decide))
    have hd2 : delete pid m1 q1 = some (m1, q1) := delete_absent h2 habs
    refine ⟨{ s with mem := m1, pid_list := q1,
                     out := s.out ++ [Event.kill pid 0, Event.print (Msg.killed pid)] },
      terminate_ok hpos fuel s hk h1, h1, h2, habs, rfl, rfl, rfl, rfl, rfl, rfl, hd2, ?_⟩
    intro status f
    exact childdead_eq pid status f _ hd2

/-- C13 at `Shell.sample`: `kill 100` succeeds and the notification for 100 follows. -/
theorem mykill_other_pid_witness :
    ∃ sp, mykill 7 100 3 ⟨[], [0], [Signal.chld 100 0 101]⟩ Shell.sample =
        pause 3 ⟨[], [], [Signal.chld 100 0 101]⟩ sp ∧
      sp.curr_proc_pid = Shell.sample.curr_proc_pid ∧
      delete 100 sp.mem sp.pid_list = some (sp.mem, sp.pid_list) := by
  obtain ⟨sp, h1, _, _, _, h5, _, _, _, _, _, h11, _⟩ :=
    (mykill_other_pid inv_sample 7 100 3 ⟨[], [0], [Signal.chld 100 0 101]⟩ 0 []
      (by decide) (by decide) rfl).2 rfl
  exact ⟨sp, h1, h5, h11⟩

/-- C14 (the code at the failing input). In `Shell.sample` job "a" runs as
process 100 at the head of the queue and the user answers y.  When `kill` first
fails and then succeeds, `myexit` calls `kill` twice on the job; when `kill`
fails every time, `myexit` does not return, whatever the fuel and the signals. -/
theorem myexit_kill_failure_repeats :
    ((myexit 7 10 ⟨['y'], [-1, 0], [Signal.chld 100 0 101]⟩ Shell.sample).map
        (fun r => r.1.out) =
      some [Event.print Msg.askKillAll, Event.kill 100 (-1),
        Event.print (Msg.unableToKill 100), Event.kill 100 0, Event.print (Msg.killed 100),
        Event.print (Msg.childIsDead 100)]) ∧
    (∀ (fuel k : Nat) (sigs : List Signal),
      myexit 7 fuel ⟨['y'], List.replicate k (-1), sigs⟩ Shell.sample = none) := by
  refine ⟨by decide, ?_⟩
  intro fuel k sigs
  have hask : ask true ['y'] = some ('y', [], 1) := by decide
  have hyn : ¬ ('y' = 'n') := by decide
  unfold myexit
  rw [if_neg (by decide)]
  simp only [hask, if_true, hyn, if_false]
  exact myexit_loop_kill_fails fuel k _ _ rfl rfl rfl

/-- C15. With an empty queue `myexit` exits at once: nothing is asked, read or
printed.  With a non-empty queue, whatever the answer (y or n, the only ones the
question accepts), `run` is cleared before anything else and is still clear when
`myexit` returns; with the answer n the queue, the current process and the other
flags are left as they were. -/
theorem myexit_stop_flag (my_pid : Int) (fuel : Nat) (w : World) (s : Shell) :
    (s.pid_list.head = none → myexit my_pid fuel w s = some ({ s with exited := true }, w)) ∧
    (s.pid_list.head ≠ none → ∀ answer rest n, ask true w.stdin = some (answer, rest, n) →
      (answer = 'y' ∨ answer = 'n') ∧
      (answer = 'n' → myexit my_pid fuel w s =
        some ({ s with
                run := false,
                out := s.out ++ List.replicate n (Event.print Msg.askKillAll) ++
                  [Event.print Msg.exitingWithoutKilling] },
          { w with stdin := rest })) ∧
      (answer = 'y' → myexit my_pid fuel w s =
        myexit.loop my_pid fuel { w with stdin := rest }
          { s with
            run := false,
            out := s.out ++ List.replicate n (Event.print Msg.askKillAll) })) ∧
    (s.pid_list.head ≠ none → ∀ s1 w1, myexit my_pid fuel w s = some (s1, w1) →
      s1.run = false) := by
  refine ⟨?_, ?_, ?_⟩
  · intro hh
    unfold myexit
    rw [if_pos hh]
  · intro hh answer rest n ha
    refine ⟨ask_answer true w.stdin ha, ?_, ?_⟩
    · intro hn
      subst hn
      have hny : ¬ ('n' = 'y') := by decide
      unfold myexit
      rw [if_neg hh]
      simp only [ha, if_true, hny, if_false]
    · intro hy
      subst hy
      have hyn : ¬ ('y' = 'n') := by decide
      unfold myexit
      rw [if_neg hh]
      simp only [ha, if_true, hyn, if_false]
  · intro hh s1 w1 hr
    unfold myexit at hr
    rw [if_neg hh] at hr
    cases ha : ask true w.stdin with
    | none => simp [ha] at hr
    | some r =>
      obtain ⟨answer, rest, n⟩ := r
      simp only [ha] at hr
      by_cases hy : answer = 'y'
      · rw [if_pos hy] at hr
        refine myexit_loop_run_false my_pid fuel hr ?_
        split <;> rfl
      · rw [if_neg hy] at hr
        simp only [Option.some.injEq, Prod.mk.injEq] at hr
        rw [← hr.1]
        split <;> rfl

/-- C15 at `Shell.sample`, whose queue is not empty, with the answer n. -/
theorem myexit_stop_flag_witness :
    myexit 7 5 ⟨['n'], [], []⟩ Shell.sample =
      some ({ Shell.sample with
              run := false,
              out := Shell.sample.out ++ List.replicate 1 (Event.print Msg.askKillAll) ++
                [Event.print Msg.exitingWithoutKilling] },
        ⟨[], [], []⟩) :=
  ((myexit_stop_flag 7 5 ⟨['n'], [], []⟩ Shell.sample).2.1 (by decide) 'n' [] 1
    (by decide)).2.1 rfl

/-! # The claims about durations, dequeue, the queue ends and suspension -/

/-- C16 (counterexample). The job `p(65536,65536)`: both arguments fit an `int`,
their product 4294967296 does not, and `evaltime` returns 0. -/
theorem evaltime_product_overflows :
    numeral false [6, 5, 5, 3, 6] = "65536" ∧
    numeralValue false [6, 5, 5, 3, 6] * numeralValue false [6, 5, 5, 3, 6] = 4294967296 ∧
    evaltime ⟨NO_PID, "p", ["p", "65536", "65536"], none⟩ = some 0 := by
  decide

/-- C16 (amended). For a job whose arguments 1 and 2 are decimal numerals with
values n and qt, `evaltime` is the product n * qt whenever n, qt and the product
lie in the range of a 32-bit `int`; so (progA, 3, 2) gives 6 and (progB, 1, 1)
gives 1, and enqueueing progA then progB under SJF dequeues progB, then progA. -/
theorem evaltime_product_in_int_range :
    (∀ (pid : Int) (name a0 : String) (rest : List String) (next : Option Nat)
        (neg1 : Bool) (ds1 : List (Fin 10)) (neg2 : Bool) (ds2 : List (Fin 10)),
      -2 ^ 31 ≤ numeralValue neg1 ds1 → numeralValue neg1 ds1 < 2 ^ 31 →
      -2 ^ 31 ≤ numeralValue neg2 ds2 → numeralValue neg2 ds2 < 2 ^ 31 →
      -2 ^ 31 ≤ numeralValue neg1 ds1 * numeralValue neg2 ds2 →
      numeralValue neg1 ds1 * numeralValue neg2 ds2 < 2 ^ 31 →
      evaltime ⟨pid, name, a0 :: numeral neg1 ds1 :: numeral neg2 ds2 :: rest, next⟩ =
        some (numeralValue neg1 ds1 * numeralValue neg2 ds2)) ∧
    evaltime ⟨NO_PID, "progA", ["progA", "3", "2"], none⟩ = some 6 ∧
    evaltime ⟨NO_PID, "progB", ["progB", "1", "1"], none⟩ = some 1 ∧
    (enqueueAll [("progA", ["progA", "3", "2"]), ("progB", ["progB", "1", "1"])]
        Mem.empty (initqueue SJF)).bind (fun r => drain 3 r.1 r.2) =
      some [{ pid := NO_PID, name := "progB", args := ["progB", "1", "1"] },
            { pid := NO_PID, name := "progA", args := ["progA", "3", "2"] }] := by
  refine ⟨?_, by decide, by decide, by decide⟩
  intro pid name a0 rest next neg1 ds1 neg2 ds2 h1 h2 h3 h4 h5 h6
  rw [evaltime_args, atoi_numeral, atoi_numeral, clamp64_of_range h1 h2,
    clamp64_of_range h3 h4, wrap32_of_range h1 h2, wrap32_of_range h3 h4,
    wrap32_of_range h5 h6]

/-- C16 (amended) at the job (progA, 3, 2). -/
theorem evaltime_product_in_int_range_witness :
    evaltime ⟨NO_PID, "progA", "progA" :: numeral false [3] :: numeral false [2] :: [], none⟩ =
      some (numeralValue false [3] * numeralValue false [2]) :=
  evaltime_product_in_int_range.1 NO_PID "progA" "progA" [] none false [3] false [2]
    (by decide) (by decide) (by decide) (by decide) (by decide) (by decide)

/-- C18 (counterexample). A queue holding one job that was never launched is not
empty, and `dequeue` returns -1 on it. -/
theorem dequeue_pending_head_returns_minus_one :
    (enqueue "a" ["a", "1", "2"] Mem.empty (initqueue SJF)).bind (fun r => jobs r.1 r.2) =
      some [{ pid := NO_PID, name := "a", args := ["a", "1", "2"] }] ∧
    ((enqueue "a" ["a", "1", "2"] Mem.empty (initqueue SJF)).bind
      (fun r => dequeue r.1 r.2)).map (fun r => r.1) = some (-1) := by
  decide

/-- C18 (amended). On a well-formed queue `dequeue` returns: -1 with the queue
untouched when it is empty; otherwise the pid of the front job, which is unlinked
while the other jobs keep their order.  So the value -1 means an empty queue or a
front job that was never launched (pid `NO_PID`). -/
theorem dequeue_front {m : Mem} {q : queue} {l : List (Nat × Job)} (h : Linked m q l) :
    (l = [] → dequeue m q = some (-1, m, q)) ∧
    (∀ x l1, l = x :: l1 → ∃ m1 q1, dequeue m q = some (x.2.pid, m1, q1) ∧
      Linked m1 q1 l1 ∧ jobs m1 q1 = some (l1.map Prod.snd)) ∧
    (∀ r m1 q1, dequeue m q = some (r, m1, q1) →
      (r = -1 ↔ l = [] ∨ ∃ x l1, l = x :: l1 ∧ x.2.pid = NO_PID)) := by
  refine ⟨(dequeue_spec h).1, ?_, ?_⟩
  · intro x l1 hl
    obtain ⟨m1, q1, h1, h2, _, _⟩ := (dequeue_spec h).2 x l1 hl
    exact ⟨m1, q1, h1, h2, h2.jobs_eq⟩
  · intro r m1 q1 hr
    cases l with
    | nil =>
      rw [(dequeue_spec h).1 rfl] at hr
      simp only [Option.some.injEq, Prod.mk.injEq] at hr
      simp [← hr.1]
    | cons x l1 =>
      obtain ⟨m2, q2, h1, _⟩ := (dequeue_spec h).2 x l1 rfl
      rw [h1] at hr
      simp only [Option.some.injEq, Prod.mk.injEq] at hr
      rw [← hr.1]
      simp [NO_PID]

/-- C18 (amended) at the queue of `Shell.sample`: the front job has pid 100. -/
theorem dequeue_front_witness :
    ∃ m1 q1, dequeue Shell.sample.mem Shell.sample.pid_list = some (100, m1, q1) ∧
      jobs m1 q1 = some [{ pid := NO_PID, name := "b", args := ["b", "3", "2"] }] := by
  obtain ⟨m1, q1, h1, _, h3⟩ := (dequeue_front linked_sample).2.1
    (0, ⟨100, "a", ["a", "1", "2"]⟩) [(1, ⟨NO_PID, "b", ["b", "3", "2"]⟩)] rfl
  exact ⟨m1, q1, h1, h3⟩

/-- C19 (the code at the failing input). Under FCFS: enqueue a(1,1), enqueue
b(2,2), dequeue, enqueue c(3,3).  After the dequeue head and tail are both the
node of b, whose link is `NULL`.  The node of a was freed with its link still at
b; `malloc` hands it out again for c, and neither `enqueue` nor `standardinsert`
writes the link of the node they insert.  After the enqueue head is b and tail is
c, but the link of the tail is not `NULL`: it is the head.  The tail is not the
last job of a sequence, and following the links from the head never reaches
`NULL`, whatever the number of steps allowed. -/
theorem fcfs_tail_links_back_to_head :
    (runOps [Op.enq "a" ["a", "1", "1"], Op.enq "b" ["b", "2", "2"], Op.deq]
        Mem.empty (initqueue FCFS)).map
      (fun r => (r.2.head, r.2.tail, (r.1.cell 1).map (fun n => n.next))) =
      some (some 1, some 1, some none) ∧
    (runOps [Op.enq "a" ["a", "1", "1"], Op.enq "b" ["b", "2", "2"], Op.deq,
        Op.enq "c" ["c", "3", "3"]] Mem.empty (initqueue FCFS)).map (fun r => (r.2.head, r.2.tail)) = some (some 1, some 0) ∧
    (runOps [Op.enq "a" ["a", "1", "1"], Op.enq "b" ["b", "2", "2"], Op.deq,
        Op.enq "c" ["c", "3", "3"]] Mem.empty (initqueue FCFS)).bind (fun r => r.1.cell 1) =
      some { pid := NO_PID, name := "b", args := ["b", "2", "2"], next := some 0 } ∧
    (runOps [Op.enq "a" ["a", "1", "1"], Op.enq "b" ["b", "2", "2"], Op.deq,
        Op.enq "c" ["c", "3", "3"]] Mem.empty (initqueue FCFS)).bind (fun r => r.1.cell 0) =
      some { pid := NO_PID, name := "c", args := ["c", "3", "3"], next := some 1 } ∧
    (∀ fuel, (runOps [Op.enq "a" ["a", "1", "1"], Op.enq "b" ["b", "2", "2"], Op.deq,
        Op.enq "c" ["c", "3", "3"]] Mem.empty (initqueue FCFS)).bind (fun r => walk r.1 fuel r.2.head) = none) := by
  have hq : (runOps [Op.enq "a" ["a", "1", "1"], Op.enq "b" ["b", "2", "2"], Op.deq,
        Op.enq "c" ["c", "3", "3"]] Mem.empty (initqueue FCFS)).map (fun r => (r.2.head, r.2.tail)) = some (some 1, some 0) := by decide
  have h1 : (runOps [Op.enq "a" ["a", "1", "1"], Op.enq "b" ["b", "2", "2"], Op.deq,
        Op.enq "c" ["c", "3", "3"]] Mem.empty (initqueue FCFS)).bind (fun r => r.1.cell 1) =
      some { pid := NO_PID, name := "b", args := ["b", "2", "2"], next := some 0 } := by decide
  have h0 : (runOps [Op.enq "a" ["a", "1", "1"], Op.enq "b" ["b", "2", "2"], Op.deq,
        Op.enq "c" ["c", "3", "3"]] Mem.empty (initqueue FCFS)).bind (fun r => r.1.cell 0) =
      some { pid := NO_PID, name := "c", args := ["c", "3", "3"], next := some 1 } := by decide
  refine ⟨by decide, hq, h1, h0, ?_⟩
  intro fuel
  cases hr : (runOps [Op.enq "a" ["a", "1", "1"], Op.enq "b" ["b", "2", "2"], Op.deq,
        Op.enq "c" ["c", "3", "3"]] Mem.empty (initqueue FCFS)) with
  | none => rfl
  | some r =>
    rw [hr] at hq h1 h0
    simp only [Option.map_some', Option.some.injEq, Prod.mk.injEq] at hq
    simp only [Option.some_bind] at h1 h0 ⊢
    rw [hq.1]
    exact (walk_two_cycle h1 h0 rfl rfl fuel).1

/-- C20 (counterexample). In `Shell.sample` a job is current.  After `cont` has
cleared `fg_suspended`, the flag is not set and yet `cont` pauses: with no signal
it does not return, and with a `SIGTSTP` it returns once the flag is set again. -/
theorem cont_blocks_while_not_suspended :
    (cont 3 [] Shell.sample).map (fun r => r.2) = none ∧
    (cont 3 [Signal.tstp] Shell.sample).map (fun r => (r.1.fg_suspended, r.2)) =
      some (true, []) := by
  decide

/-- C20 (amended). The handler `susp` sets `fg_suspended` and `cont` clears it;
then `cont` returns at once when no process is current, and otherwise pauses
until the next signal and goes on pausing while a process is current and the
flag is not set: when `cont` returns, no process is current or the flag is set
again. -/
theorem susp_cont_flag (fuel : Nat) (sigs : List Signal) (s : Shell) :
    (susp s).fg_suspended = true ∧
    (s.curr_proc_pid = NO_CURR_PID →
      cont (fuel + 1) sigs s =
        some ({ s with fg_suspended := false, out := s.out ++ [Event.print Msg.waking] },
          sigs)) ∧
    (s.curr_proc_pid ≠ NO_CURR_PID →
      cont (fuel + 1) sigs s =
        match sigs with
        | [] => none
        | sg :: rest =>
          match handle fuel sg rest
              { s with fg_suspended := false, out := s.out ++ [Event.print Msg.waking] } with
          | none => none
          | some (s1, rest1) => cont.loop fuel rest1 s1) ∧
    (∀ s1 rest, cont fuel sigs s = some (s1, rest) →
      s1.curr_proc_pid = NO_CURR_PID ∨ s1.fg_suspended = true) := by
  refine ⟨rfl, ?_, ?_, ?_⟩
  · intro h0
    simp [cont, cont.loop, h0]
  · intro h0
    simp only [cont, cont.loop]
    rw [if_pos ⟨h0, by simp⟩]
  · intro s1 rest hr
    exact cont_loop_exit fuel sigs _ s1 rest hr

/-- C20 (amended) at `Shell.sample`, where process 100 is current: `cont` pauses
and the `SIGTSTP` that follows ends it. -/
theorem susp_cont_flag_witness :
    cont (2 + 1) [Signal.tstp] Shell.sample =
      match [Signal.tstp] with
      | [] => none
      | sg :: rest =>
        match handle 2 sg rest
            { Shell.sample with
              fg_suspended := false,
              out := Shell.sample.out ++ [Event.print Msg.waking] } with
        | none => none
        | some (s1, rest1) => cont.loop 2 rest1 s1 :=
  (susp_cont_flag 2 [Signal.tstp] Shell.sample).2.2.1 (by decide)

/-! # The claim about the exec command -/

/-- C17 (counterexample). The specs below all pass the test of `main`, and yet
they are not each enqueued as one pending job.  Under SJF the job of "p()" has no
numeric arguments, and `sortedinsert` of the next job calls `evaltime` on it,
which reads the missing `args[1]`: the loop has no defined result.  And after
`exec a(1,1) b(2,2)` and the death of both jobs, `exec c(1,1) d(2,2)` gets their
freed nodes back from `malloc`: the node of d still holds its old link, which
`enqueue` does not write, so that c and d point at each other and the queue is no
list of jobs. -/
theorem exec_accepted_spec_not_enqueued :
    main.invalid "p()" = false ∧ main.invalid "b(1,1)" = false ∧
    (main.execLoop 1 ["p()", "b(1,1)"] (Shell.init SJF)).isNone = true ∧
    main.invalid "c(1,1)" = false ∧ main.invalid "d(2,2)" = false ∧
    ((((main.execBranch ["a(1,1)", "b(2,2)"] 100 (Shell.init SJF)).bind
        (childdead 100 0 101)).bind (childdead 101 0 102)).bind
        (main.execBranch ["c(1,1)", "d(2,2)"] 103)).map
      (fun s => (s.pid_list.head, s.pid_list.tail)) = some (some 1, some 0) ∧
    ((((main.execBranch ["a(1,1)", "b(2,2)"] 100 (Shell.init SJF)).bind
        (childdead 100 0 101)).bind (childdead 101 0 102)).bind
        (main.execBranch ["c(1,1)", "d(2,2)"] 103)).bind (fun s => s.mem.cell 1) =
      some { pid := 103, name := "c", args := ["c", "1", "1"], next := some 0 } ∧
    ((((main.execBranch ["a(1,1)", "b(2,2)"] 100 (Shell.init SJF)).bind
        (childdead 100 0 101)).bind (childdead 101 0 102)).bind
        (main.execBranch ["c(1,1)", "d(2,2)"] 103)).bind (fun s => s.mem.cell 0) =
      some { pid := NO_PID, name := "d", args := ["d", "2", "2"], next := some 1 } ∧
    ((((main.execBranch ["a(1,1)", "b(2,2)"] 100 (Shell.init SJF)).bind
        (childdead 100 0 101)).bind (childdead 101 0 102)).bind
        (main.execBranch ["c(1,1)", "d(2,2)"] 103)).map
      (fun s => jobs s.mem s.pid_list) = some none := by
  refine ⟨by decide, by decide, by decide, by decide, by decide, ?_, ?_, ?_, ?_⟩ <;> decide

/-- C17 (amended). For every exec command with job specs `specs`: a spec is
rejected exactly when it starts with "(", contains no "(", or does not end with
")", and a rejected spec only adds its error line to the output before the loop
goes on.  On a well-formed queue for which no freed chunk waits to be handed
out again, and with, under SJF, the two numeric arguments present in the queued
jobs and in the jobs of the accepted specs: every accepted spec stands for one
job with unassigned pid, the loop returns, the queue holds the old jobs in their
order and one job for each accepted spec (after the old jobs, in the order
given, under a policy other than SJF), whatever the rejected specs are, the
output has grown by the error lines of the rejected specs only, no other
variable has changed, and the branch is `runprocess` applied once to that
state. -/
theorem exec_command (specs : List String) (f : Int) (s : Shell) (l : List (Nat × Job))
    (h : Linked s.mem s.pid_list l) (hfree : s.mem.freed = [])
    (hargs : s.pid_list.sched_type = SJF → (∀ x ∈ l, 3 ≤ x.2.args.length) ∧
      ∀ spec ∈ specs, ∀ j, specJob spec = some j → main.invalid spec = false →
        3 ≤ j.args.length) :
    (∀ spec : String, main.invalid spec = true ↔
      (spec.toList.head? = some '(' ∨ '(' ∉ spec.toList ∨
        spec.toList.getLast? ≠ some ')')) ∧
    (∀ (i : Nat) (spec : String) (rest : List String) (s0 : Shell),
      main.invalid spec = true →
      main.execLoop i (spec :: rest) s0 =
        main.execLoop (i + 1) rest
          { s0 with out := s0.out ++ [Event.print (Msg.invalidExec i)] }) ∧
    (∀ spec : String, main.invalid spec = false →
      ∃ j, specJob spec = some j ∧ j.pid = NO_PID) ∧
    ((specs.filter (fun sp => !main.invalid sp)).filterMap specJob).length =
      (specs.filter (fun sp => !main.invalid sp)).length ∧
    ∃ s1, main.execLoop 1 specs s = some s1 ∧
      main.execBranch specs f s = runprocess f s1 ∧
      (∃ js, jobs s1.mem s1.pid_list = some js ∧
        js.Perm (l.map Prod.snd ++
          (specs.filter (fun sp => !main.invalid sp)).filterMap specJob) ∧
        (l.map Prod.snd).Sublist js ∧
        (s.pid_list.sched_type ≠ SJF → js = l.map Prod.snd ++
          (specs.filter (fun sp => !main.invalid sp)).filterMap specJob)) ∧
      s1.out = s.out ++ rejections 1 specs ∧
      s1.curr_proc_pid = s.curr_proc_pid ∧ s1.curr_proc_node = s.curr_proc_node ∧
      s1.io_occupied = s.io_occupied ∧ s1.fg_suspended = s.fg_suspended ∧
      s1.run = s.run ∧ s1.exited = s.exited := by
  refine ⟨main_invalid_iff, ?_, fun spec hv => specJob_of_valid hv, specJob_length specs, ?_⟩
  · intro i spec rest s0 hv
    simp only [main.execLoop, if_pos hv]
  · obtain ⟨s1, h1⟩ := execLoop_total specs 1 h hfree hargs
    obtain ⟨l1, g1, _, g2, gsub, g3, g4, g5, g6, g7, g8, g9, g10⟩ :=
      execLoop_spec specs 1 h hfree h1
    refine ⟨s1, h1, ?_, ⟨l1.map Prod.snd, g1.jobs_eq, g2, gsub, g3⟩, g4, g5, g6, g7, g8, g9,
      g10⟩
    simp only [main.execBranch, h1]

/-- C17 (amended) at the command `exec a(3,2) (x) b(1,2) c d(1,1` in the initial
state under SJF. -/
theorem exec_command_witness :
    (∃ s1, main.execLoop 1 ["a(3,2)", "(x)", "b(1,2)", "c", "d(1,1"] (Shell.init SJF) = some s1 ∧
      main.execBranch ["a(3,2)", "(x)", "b(1,2)", "c", "d(1,1"] 100 (Shell.init SJF) =
        runprocess 100 s1 ∧
      (∃ js, jobs s1.mem s1.pid_list = some js ∧
        js.Perm ([] ++ [⟨NO_PID, "a", ["a", "3", "2"]⟩, ⟨NO_PID, "b", ["b", "1", "2"]⟩])) ∧
      s1.out = [] ++ [Event.print (Msg.invalidExec 2), Event.print (Msg.invalidExec 4),
        Event.print (Msg.invalidExec 5)]) ∧
    (main.execBranch ["a(3,2)", "(x)", "b(1,2)", "c", "d(1,1"] 100 (Shell.init SJF)).bind
        (fun s1 => (jobs s1.mem s1.pid_list).map (fun js => (js, s1.out))) =
      some ([⟨100, "b", ["b", "1", "2"]⟩, ⟨NO_PID, "a", ["a", "3", "2"]⟩],
        [Event.print (Msg.invalidExec 2), Event.print (Msg.invalidExec 4),
          Event.print (Msg.invalidExec 5), Event.fork 100 "b" ["b", "1", "2"] false]) := by
  refine ⟨?_, by decide⟩
  obtain ⟨s1, h1, h2, ⟨js, h3, h4, _⟩, h5, _⟩ :=
    (exec_command ["a(3,2)", "(x)", "b(1,2)", "c", "d(1,1"] 100 (Shell.init SJF) []
      (linked_initqueue _ _) rfl
      (fun _ => ⟨by simp, by
        intro spec hsp j hj hv
        simp only [List.mem_cons, List.mem_singleton, List.not_mem_nil, or_false] at hsp
        rcases hsp with rfl | rfl | rfl | rfl | rfl <;>
          first
          | (exact absurd hv (by decide))
          | (have e : j = _ := (Option.some.inj hj).symm; subst e; decide)⟩)).2.2.2.2
  exact ⟨s1, h1, h2, ⟨js, h3, h4⟩, h5⟩

/-! # The claim about what enqueue keeps -/

/-- C21 (the code at the failing input). Under FCFS and under SJF alike: after
enqueue a(1,1,&), enqueue b(2,2) and a dequeue, the queue holds the one job b,
and the freed node of a still holds its link to b and its four arguments.  Then
`enqueue` of c with the arguments "c", "3", "3": `malloc` hands out the node of
a, and `enqueue` stores the pid, the name and the three arguments, but neither a
closing `NULL` behind them nor the link.  The node of c carries a fourth
argument "&" that was not given, and its link is b, which the insertion links to
c: b and c point at each other, the queue is not the list b, c, and following
the links from the head never reaches `NULL`, whatever the number of steps
allowed. -/
theorem enqueue_on_recycled_node_keeps_link_and_argument :
    (∀ t ∈ [FCFS, SJF],
      (runOps [Op.enq "a" ["a", "1", "1", "&"], Op.enq "b" ["b", "2", "2"], Op.deq]
          Mem.empty (initqueue t)).bind (fun r => jobs r.1 r.2) =
        some [{ pid := NO_PID, name := "b", args := ["b", "2", "2"] }] ∧
      ((runOps [Op.enq "a" ["a", "1", "1", "&"], Op.enq "b" ["b", "2", "2"], Op.deq]
          Mem.empty (initqueue t)).bind
          (fun r => enqueue "c" ["c", "3", "3"] r.1 r.2)).map
          (fun r => (r.2.head, r.2.tail)) = some (some 1, some 0) ∧
      ((runOps [Op.enq "a" ["a", "1", "1", "&"], Op.enq "b" ["b", "2", "2"], Op.deq]
          Mem.empty (initqueue t)).bind
          (fun r => enqueue "c" ["c", "3", "3"] r.1 r.2)).bind (fun r => r.1.cell 0) =
        some { pid := NO_PID, name := "c", args := ["c", "3", "3", "&"], next := some 1 } ∧
      ((runOps [Op.enq "a" ["a", "1", "1", "&"], Op.enq "b" ["b", "2", "2"], Op.deq]
          Mem.empty (initqueue t)).bind
          (fun r => enqueue "c" ["c", "3", "3"] r.1 r.2)).bind (fun r => r.1.cell 1) =
        some { pid := NO_PID, name := "b", args := ["b", "2", "2"], next := some 0 } ∧
      ((runOps [Op.enq "a" ["a", "1", "1", "&"], Op.enq "b" ["b", "2", "2"], Op.deq]
          Mem.empty (initqueue t)).bind
          (fun r => enqueue "c" ["c", "3", "3"] r.1 r.2)).map (fun r => jobs r.1 r.2) =
        some none) ∧
    (∀ t ∈ [FCFS, SJF], ∀ fuel,
      ((runOps [Op.enq "a" ["a", "1", "1", "&"], Op.enq "b" ["b", "2", "2"], Op.deq]
          Mem.empty (initqueue t)).bind
          (fun r => enqueue "c" ["c", "3", "3"] r.1 r.2)).bind
          (fun r => walk r.1 fuel r.2.head) = none) := by
  have hfacts : ∀ t ∈ [FCFS, SJF],
      (runOps [Op.enq "a" ["a", "1", "1", "&"], Op.enq "b" ["b", "2", "2"], Op.deq]
          Mem.empty (initqueue t)).bind (fun r => jobs r.1 r.2) =
        some [{ pid := NO_PID, name := "b", args := ["b", "2", "2"] }] ∧
      ((runOps [Op.enq "a" ["a", "1", "1", "&"], Op.enq "b" ["b", "2", "2"], Op.deq]
          Mem.empty (initqueue t)).bind
          (fun r => enqueue "c" ["c", "3", "3"] r.1 r.2)).map
          (fun r => (r.2.head, r.2.tail)) = some (some 1, some 0) ∧
      ((runOps [Op.enq "a" ["a", "1", "1", "&"], Op.enq "b" ["b", "2", "2"], Op.deq]
          Mem.empty (initqueue t)).bind
          (fun r => enqueue "c" ["c", "3", "3"] r.1 r.2)).bind (fun r => r.1.cell 0) =
        some { pid := NO_PID, name := "c", args := ["c", "3", "3", "&"], next := some 1 } ∧
      ((runOps [Op.enq "a" ["a", "1", "1", "&"], Op.enq "b" ["b", "2", "2"], Op.deq]
          Mem.empty (initqueue t)).bind
          (fun r => enqueue "c" ["c", "3", "3"] r.1 r.2)).bind (fun r => r.1.cell 1) =
        some { pid := NO_PID, name := "b", args := ["b", "2", "2"], next := some 0 } ∧
      ((runOps [Op.enq "a" ["a", "1", "1", "&"], Op.enq "b" ["b", "2", "2"], Op.deq]
          Mem.empty (initqueue t)).bind
          (fun r => enqueue "c" ["c", "3", "3"] r.1 r.2)).map (fun r => jobs r.1 r.2) =
        some none := by
    intro t ht
    simp only [List.mem_cons, List.mem_singleton, List.not_mem_nil, or_false] at ht
    rcases ht with rfl | rfl
    · refine ⟨by decide, by decide, by decide, by decide, by decide⟩
    · refine ⟨by decide, by decide, by decide, by decide, by decide⟩
  refine ⟨hfacts, ?_⟩
  intro t ht fuel
  obtain ⟨_, hq, h0, h1, _⟩ := hfacts t ht
  cases hr : (runOps [Op.enq "a" ["a", "1", "1", "&"], Op.enq "b" ["b", "2", "2"], Op.deq]
      Mem.empty (initqueue t)).bind (fun r => enqueue "c" ["c", "3", "3"] r.1 r.2) with
  | none => rfl
  | some r =>
    rw [hr] at hq h0 h1
    simp only [Option.map_some', Option.some.injEq, Prod.mk.injEq] at hq
    simp only [Option.some_bind] at h0 h1 ⊢
    rw [hq.1]
    exact (walk_two_cycle h1 h0 rfl rfl fuel).1

end SimpleShell

